import Mathlib

/-!
# github-current-projects: filter, sort, render, patch, fetch and options

A shallow embedding of `internal/core/filter.go`, `internal/core/sort.go`,
`internal/core/render.go` and `internal/core/patch.go` together with the
record type of `internal/githubapi/types.go`, the paging of
`internal/githubapi/client.go` and the validation of
`internal/cli/options.go`.

Modelling conventions.

* A Go `string` holding valid UTF-8 is a Lean `String` (a list of runes).  The
  byte-wise order `<` of Go strings coincides, on valid UTF-8, with the
  lexicographic order of the rune lists, which is the order used here, and
  offsets into strings are counted in runes.
* A Go `int` is an `Int`; the code only compares and prints these values.
* A `time.Time` is an instant plus the offset of its location.  `Before`,
  `After`, `Equal` and `IsZero` look at the instant only, as in Go, while
  `Format` prints the wall clock of the location.
* `t.AddDate(0, 0, days)` follows the zone rules of the location of `t`, which
  come from the time zone database; it is a parameter `addDate` of the filter,
  so every general result holds for every location.  `Time.AddDate` is the
  library's computation for a location with a fixed offset, with its 64-bit
  arithmetic; the evaluations use it.
* `unicode.ToLower` and the folding table behind `strings.EqualFold` belong to
  the Go standard library; they are parameters `lower` and `fold`, so every
  general result holds for those tables too.
* `url.Parse` is a parameter `parse` of the renderer; the evaluations use
  `parsePlainURL`, which covers the URLs the library hands back unchanged.
* `json.MarshalIndent` is modelled for the one type the code passes to it,
  with the string escapes of Go 1.22 and later.
* `time.Now()` is taken as a parameter `wall`.
* A slice that the code only measures, ranges over and appends to is the list
  of its elements; there a `nil` slice and an empty slice behave alike and are
  both the empty list.  The encoder of `encoding/json` tells the two apart, so
  the argument of `RenderJSON` and the slice it builds are values of `Slice`,
  which keeps `nil` apart from a slice without elements.
* A Go function with results `(T, error)` returns a pair whose second
  component is `none` for `nil`, or an `Except` when the value is absent on
  failure.
* The expression `linkNextRe` is modelled by the one match it can have from
  each start position, searched from left to right.
* The network is a script of the answers of `HTTPClient.Do`; the requests sent
  are recorded in order.  The error of `http.NewRequest` and the decoding of a
  body are parameters `requestError` and `decode`.
-/

namespace GithubCurrentProjects

/-! ## Standard-library primitives used by the code -/

/-- The instant and location of a `time.Time`: `nanos` counts nanoseconds from
the zero instant (January 1, year 1, 00:00:00 UTC), `offset` is the number of
seconds the location lies east of UTC. -/
structure Time where
  nanos : Int
  offset : Int
  deriving DecidableEq

namespace Time

/-- The method `t.IsZero()`: the instant is the zero instant. -/
def IsZero (t : Time) : Bool := decide (t.nanos = 0)

/-- The method `t.Before(u)`: the instant of `t` is earlier. -/
def Before (t u : Time) : Bool := decide (t.nanos < u.nanos)

/-- The method `t.After(u)`: the instant of `t` is later. -/
def After (t u : Time) : Bool := decide (t.nanos > u.nanos)

/-- The method `t.Equal(u)`: same instant, whatever the locations. -/
def Equal (t u : Time) : Bool := decide (t.nanos = u.nanos)

/-- Nanoseconds in one civil day of a location with a fixed offset. -/
def nanosPerDay : Int := 86400 * 1000000000

/-- The value a signed 64-bit integer holds after an operation whose exact
result is `x`: the number congruent to `x` modulo 2^64 that lies in the range
from -2^63 to 2^63 - 1. -/
def wrapInt64 (x : Int) : Int :=
  (x + 9223372036854775808) % 18446744073709551616 - 9223372036854775808

/-- The call `t.AddDate(0, 0, days)` for a `t` whose location has a fixed
offset from UTC, such as UTC itself.  The library reads the civil date and the
clock of `t`, adds `days` to the day of the month and hands the fields to
`Date`, which counts the days up to the new date and from them the seconds in
64-bit integers.  With a fixed offset this adds `days * 86400` to the count of
seconds of `t` modulo 2^64, the result being read as a signed 64-bit count;
the nanoseconds within the second and the location stay. -/
def AddDate (t : Time) (days : Int) : Time :=
  { nanos := wrapInt64 (t.nanos / 1000000000 + days * 86400) * 1000000000
      + t.nanos % 1000000000,
    offset := t.offset }

end Time

/-- The predicate `unicode.IsSpace`: the Latin-1 spaces and the code points
with the White_Space property. -/
def isSpace (c : Char) : Bool :=
  let n := c.toNat
  n == 0x09 || n == 0x0A || n == 0x0B || n == 0x0C || n == 0x0D || n == 0x20
    || n == 0x85 || n == 0xA0 || n == 0x1680 || (0x2000 ≤ n && n ≤ 0x200A)
    || n == 0x2028 || n == 0x2029 || n == 0x202F || n == 0x205F || n == 0x3000

/-- The function `strings.TrimSpace`: leading and trailing white space
removed. -/
def TrimSpace (s : String) : String :=
  ⟨((s.data.dropWhile isSpace).reverse.dropWhile isSpace).reverse⟩

/-- The function `strings.ToLower`: every rune mapped through the lower-case
table. -/
def ToLower (lower : Char → Char) (s : String) : String :=
  ⟨s.data.map lower⟩

/-- The lower-case table restricted to ASCII, used for concrete evaluations. -/
def asciiLower (c : Char) : Char :=
  if 65 ≤ c.toNat ∧ c.toNat ≤ 90 then Char.ofNat (c.toNat + 32) else c

/-! ## `internal/githubapi/types.go` -/

/-- The struct `Repository`. -/
structure Repository where
  Name : String
  FullName : String
  HTMLURL : String
  Description : String
  Topics : List String
  Fork : Bool
  Archived : Bool
  Private : Bool
  Language : String
  StargazersCount : Int
  PushedAt : Time
  deriving DecidableEq

/-! ## `internal/core/filter.go` -/

/-- The struct `FilterOptions`. -/
structure FilterOptions where
  IncludeForks : Bool
  IncludeArchived : Bool
  MinStars : Int
  SinceDays : Int
  RequireDescription : Bool
  Tags : List String
  TagsMatchAll : Bool
  Now : Time
  deriving DecidableEq

/-- First loop of `matchTopics`: the keys put into `topicSet`, one for every
topic that is non-empty after trimming and lower-casing. -/
def topicSet (lower : Char → Char) : List String → List String
  | [] => []
  | t :: rest =>
    let t := ToLower lower (TrimSpace t)
    if t = "" then topicSet lower rest else t :: topicSet lower rest

/-- Second loop of `matchTopics` together with the statements after it;
`hits` is the counter `matches`. -/
def matchLoop (lower : Char → Char) (set : List String) (matchAll : Bool) :
    List String → Nat → Bool
  | [], hits => if matchAll then decide (hits > 0) else false
  | tag :: rest, hits =>
    let tag := ToLower lower (TrimSpace tag)
    if tag = "" then matchLoop lower set matchAll rest hits
    else if tag ∈ set then
      if !matchAll then true else matchLoop lower set matchAll rest (hits + 1)
    else if matchAll then false
    else matchLoop lower set matchAll rest hits

/-- The function `matchTopics`. -/
def matchTopics (lower : Char → Char) (repoTopics filterTags : List String)
    (matchAll : Bool) : Bool :=
  if repoTopics.length = 0 then false
  else if (topicSet lower repoTopics).length = 0 then false
  else matchLoop lower (topicSet lower repoTopics) matchAll filterTags 0

/-- The chain of `continue` statements in the loop body of `FilterRepos`:
`true` when the record is skipped.  The call `now.AddDate(0, 0, days)` follows
the zone rules of the location of `now`, which a `Time` does not hold; it is
the parameter `addDate`, applied to `now` and `days`. -/
def skips (lower : Char → Char) (addDate : Time → Int → Time) (now : Time)
    (opts : FilterOptions) (r : Repository) : Bool :=
  if r.Private then true
  else if r.Fork && !opts.IncludeForks then true
  else if r.Archived && !opts.IncludeArchived then true
  else if r.StargazersCount < opts.MinStars then true
  else if opts.RequireDescription && TrimSpace r.Description = "" then true
  else if decide (opts.Tags.length > 0)
      && !matchTopics lower r.Topics opts.Tags opts.TagsMatchAll then true
  else if opts.SinceDays > 0 then
    let cutoff := addDate now (-opts.SinceDays)
    if r.PushedAt.Before cutoff then true else false
  else false

/-- The reference time `now` of `FilterRepos`: `opts.Now`, or the wall clock
when `opts.Now` is the zero time. -/
def referenceTime (wall : Time) (opts : FilterOptions) : Time :=
  if opts.Now.IsZero then wall else opts.Now

/-- The function `FilterRepos`; `wall` is the value `time.Now()` would
return and `addDate` the method `AddDate(0, 0, days)` of the reference time. -/
def FilterRepos (lower : Char → Char) (addDate : Time → Int → Time) (wall : Time)
    (repos : List Repository) (opts : FilterOptions) : List Repository :=
  let now := referenceTime wall opts
  repos.foldl
    (fun result r =>
      if skips lower addDate now opts r then result else result ++ [r]) []

/-- The six checks of the specification that do not look at `PushedAt`, as one
conjunction in the words of the specification. -/
def passesOtherChecks (lower : Char → Char) (opts : FilterOptions)
    (r : Repository) : Prop :=
  r.Private = false
    ∧ (r.Fork = false ∨ opts.IncludeForks = true)
    ∧ (r.Archived = false ∨ opts.IncludeArchived = true)
    ∧ opts.MinStars ≤ r.StargazersCount
    ∧ (opts.RequireDescription = false ∨ TrimSpace r.Description ≠ "")
    ∧ (opts.Tags = []
        ∨ matchTopics lower r.Topics opts.Tags opts.TagsMatchAll = true)

/-- The recency check as the loop makes it: disabled for `SinceDays <= 0`,
otherwise `PushedAt` is not before the cutoff that `addDate` returns for `now`
and `-SinceDays`. -/
def passesCutoffCheck (addDate : Time → Int → Time) (now : Time)
    (opts : FilterOptions) (r : Repository) : Prop :=
  opts.SinceDays ≤ 0 ∨ ¬ r.PushedAt.nanos < (addDate now (-opts.SinceDays)).nanos

/-- The recency check of the specification: disabled for `SinceDays <= 0`,
otherwise `PushedAt` is not before `now` minus `SinceDays` days of
86400 seconds. -/
def passesRecencyCheck (now : Time) (opts : FilterOptions)
    (r : Repository) : Prop :=
  opts.SinceDays ≤ 0
    ∨ now.nanos - opts.SinceDays * 86400000000000 ≤ r.PushedAt.nanos

/-- The seven checks of the specification as one conjunction. -/
def passesAllChecks (lower : Char → Char) (now : Time) (opts : FilterOptions)
    (r : Repository) : Prop :=
  passesOtherChecks lower opts r ∧ passesRecencyCheck now opts r

instance (lower : Char → Char) (opts : FilterOptions) (r : Repository) :
    Decidable (passesOtherChecks lower opts r) := by
  unfold passesOtherChecks; infer_instance

instance (addDate : Time → Int → Time) (now : Time) (opts : FilterOptions)
    (r : Repository) : Decidable (passesCutoffCheck addDate now opts r) := by
  unfold passesCutoffCheck; infer_instance

instance (now : Time) (opts : FilterOptions) (r : Repository) :
    Decidable (passesRecencyCheck now opts r) := by
  unfold passesRecencyCheck; infer_instance

instance (lower : Char → Char) (now : Time) (opts : FilterOptions)
    (r : Repository) : Decidable (passesAllChecks lower now opts r) := by
  unfold passesAllChecks; infer_instance

/-! ## `internal/core/sort.go` -/

/-- The closure handed to `sort.SliceStable` by `SortReposBy`, applied to the
two records `a = repos[i]` and `b = repos[j]`. -/
def less (lower : Char → Char) (mode : String) (a b : Repository) : Bool :=
  if mode = "stars" then
    if a.StargazersCount ≠ b.StargazersCount then
      decide (a.StargazersCount > b.StargazersCount)
    else if !a.PushedAt.Equal b.PushedAt then
      a.PushedAt.After b.PushedAt
    else
      decide ((ToLower lower a.Name).data < (ToLower lower b.Name).data)
  else
    if !a.PushedAt.Equal b.PushedAt then
      a.PushedAt.After b.PushedAt
    else if a.StargazersCount ≠ b.StargazersCount then
      decide (a.StargazersCount > b.StargazersCount)
    else
      decide ((ToLower lower a.Name).data < (ToLower lower b.Name).data)

/-- Inner loop of the library's insertion sort
(`for j := i; j > a && less(j, j-1); j-- { swap(j, j-1) }`): the element `x`
travels towards the front past every predecessor it is less than.  The
argument lists the elements in front of `x`, nearest first, and so does the
result. -/
def sink {α : Type} (lt : α → α → Bool) (x : α) : List α → List α
  | [] => [x]
  | y :: front => if lt x y then y :: sink lt x front else x :: y :: front

/-- The library function `sort.SliceStable`, which is not part of the
repository, modelled by its insertion-sort pass: the elements are taken from
left to right and each one sinks into the part already sorted.  The library
runs exactly this pass on blocks of 20 elements and then merges the blocks
stably; for a comparison that is a strict weak order the sorted arrangement
that keeps tied elements in input order is unique (`SliceStable_unique`), so
the result is the same. -/
def SliceStable {α : Type} (lt : α → α → Bool) (data : List α) : List α :=
  (data.foldl (fun sorted x => sink lt x sorted) []).reverse

/-- The elements `r` and `x` are tied under the comparison: neither is less
than the other. -/
def tie {α : Type} (lt : α → α → Bool) (r x : α) : Bool :=
  !lt r x && !lt x r

/-- The function `SortReposBy`; the slice sorted in place is returned. -/
def SortReposBy (lower : Char → Char) (repos : List Repository)
    (mode : String) : List Repository :=
  SliceStable (less lower mode) repos

/-- The function `SortRepos`. -/
def SortRepos (lower : Char → Char) (repos : List Repository) :
    List Repository :=
  SortReposBy lower repos "pushed"

/-- The three-key order of the specification: `a` does not rank after `b`.
In `stars` mode the keys are stars descending, pushed time descending, name
ascending without regard to case; in every other mode pushed time descending,
stars descending, name ascending without regard to case. -/
def ranksNotAfter (lower : Char → Char) (mode : String)
    (a b : Repository) : Prop :=
  if mode = "stars" then
    b.StargazersCount < a.StargazersCount
      ∨ (a.StargazersCount = b.StargazersCount
        ∧ (b.PushedAt.nanos < a.PushedAt.nanos
          ∨ (a.PushedAt.nanos = b.PushedAt.nanos
            ∧ (ToLower lower a.Name).data ≤ (ToLower lower b.Name).data)))
  else
    b.PushedAt.nanos < a.PushedAt.nanos
      ∨ (a.PushedAt.nanos = b.PushedAt.nanos
        ∧ (b.StargazersCount < a.StargazersCount
          ∨ (a.StargazersCount = b.StargazersCount
            ∧ (ToLower lower a.Name).data ≤ (ToLower lower b.Name).data)))

/-- The two records agree on all three sort keys: same instant of `PushedAt`,
same `StargazersCount`, same name after lower-casing. -/
def sameKeys (lower : Char → Char) (a b : Repository) : Bool :=
  a.PushedAt.Equal b.PushedAt
    && decide (a.StargazersCount = b.StargazersCount)
    && decide (ToLower lower a.Name = ToLower lower b.Name)

/-- The function `TopN`; `repos[:n]` keeps the first `n` elements. -/
def TopN (repos : List Repository) (n : Int) : List Repository :=
  if n ≤ 0 ∨ n > (repos.length : Int) then repos else repos.take n.toNat

/-! ## Functions of the package `strings`

A string of valid UTF-8 contains another one at a byte offset exactly when the
rune list contains the other rune list at the matching rune offset, so offsets
are counted in runes. -/

/-- Scanning loop of `strings.Index`: the first offset, counted from `i`, at
which `sub` starts, or `-1`. -/
def indexFrom (sub : List Char) : List Char → Nat → Int
  | [], i => if sub = [] then (i : Int) else -1
  | c :: cs, i =>
    if sub.isPrefixOf (c :: cs) then (i : Int) else indexFrom sub cs (i + 1)

/-- The function `strings.Index`. -/
def Index (s sub : String) : Int := indexFrom sub.data s.data 0

/-- The function `strings.Contains`. -/
def Contains (s sub : String) : Bool := decide (Index s sub ≥ 0)

/-- The function `strings.HasSuffix`. -/
def HasSuffix (s suffix : String) : Bool := suffix.data.isSuffixOf s.data

/-- Scanning loop of `strings.ReplaceAll` for a non-empty `old`: the matches
are taken from left to right without overlap; `skip` counts the runes of a
match still to be passed over. -/
def replaceFrom (old new : List Char) : Nat → List Char → List Char
  | _, [] => []
  | skip + 1, _ :: cs => replaceFrom old new skip cs
  | 0, c :: cs =>
    if old.isPrefixOf (c :: cs) then new ++ replaceFrom old new (old.length - 1) cs
    else c :: replaceFrom old new 0 cs

/-- The function `strings.ReplaceAll`; an empty `old` matches before every
rune and at the end. -/
def ReplaceAll (s old new : String) : String :=
  if old = new then s
  else if old = "" then ⟨new.data ++ s.data.flatMap (fun c => c :: new.data)⟩
  else ⟨replaceFrom old.data new.data 0 s.data⟩

/-- The function `strings.Join`. -/
def Join (parts : List String) (sep : String) : String :=
  ⟨sep.data.intercalate (parts.map String.data)⟩

/-- Scanning loop of `strings.Fields`; `cur` is the field being read. -/
def fieldsLoop : List Char → List Char → List (List Char)
  | [], cur => if cur = [] then [] else [cur]
  | c :: cs, cur =>
    if isSpace c then
      if cur = [] then fieldsLoop cs [] else cur :: fieldsLoop cs []
    else fieldsLoop cs (cur ++ [c])

/-- The function `strings.Fields`: the maximal runs of runes that are not
white space. -/
def Fields (s : String) : List String :=
  (fieldsLoop s.data []).map String.mk

/-- The function `strings.EqualFold`: equality under simple case folding.  The
table `fold` sends a rune to the representative of its orbit under
`unicode.SimpleFold`; it belongs to the standard library and is a
parameter. -/
def EqualFold (fold : Char → Char) (s t : String) : Bool :=
  s.data.map fold == t.data.map fold

/-! ## The package `net/url`, as far as the code uses it -/

/-- What the code reads from the result of `url.Parse`: the field `Scheme`,
the result of the method `Hostname()` and the result of the method
`String()`. -/
structure URL where
  Scheme : String
  Hostname : String
  text : String
  deriving DecidableEq

/-- A letter of ASCII. -/
def isAsciiLetter (c : Char) : Bool :=
  (97 ≤ c.toNat && c.toNat ≤ 122) || (65 ≤ c.toNat && c.toNat ≤ 90)

/-- A digit of ASCII. -/
def isAsciiDigit (c : Char) : Bool := 48 ≤ c.toNat && c.toNat ≤ 57

/-- The library's `getScheme` on inputs that have a scheme: letters, then
letters, digits, `+`, `-` and `.`, up to the first colon.  The answer is the
scheme and what follows the colon; `none` when there is no scheme. -/
def splitScheme : List Char → List Char → Option (List Char × List Char)
  | [], _ => none
  | c :: cs, seen =>
    if isAsciiLetter c then splitScheme cs (seen ++ [c])
    else if isAsciiDigit c || c = '+' || c = '-' || c = '.' then
      if seen = [] then none else splitScheme cs (seen ++ [c])
    else if c = ':' then
      if seen = [] then none else some (seen, cs)
    else none

/-- Runes that the library accepts in a host name and prints back as they
are. -/
def isPlainHostChar (c : Char) : Bool :=
  isAsciiLetter c || isAsciiDigit c || c = '-' || c = '.'

/-- Runes that the library accepts in a path and prints back as they are. -/
def isPlainPathChar (c : Char) : Bool :=
  isAsciiLetter c || isAsciiDigit c || c = '-' || c = '_' || c = '.' || c = '~'
    || c = '/' || c = '(' || c = ')' || c = '=' || c = '&' || c = '+'
    || c = ':' || c = '@' || c = ',' || c = ';' || c = '!' || c = '$' || c = '*'

/-- Runes that the library accepts in a query or an opaque part and prints
back as they are: printable ASCII other than the space and `#`. -/
def isPlainQueryChar (c : Char) : Bool :=
  33 ≤ c.toNat && c.toNat ≤ 126 && c != '#'

/-- The part of a URL after the scheme has one of the two plain shapes:
`//host`, a path and a query over the plain runes, or an opaque part that
starts with neither `/` nor `?`. -/
def isPlainRest (rest : List Char) : Option (List Char) :=
  match rest with
  | '/' :: '/' :: more =>
    let host := more.takeWhile isPlainHostChar
    let afterHost := more.dropWhile isPlainHostChar
    let path := afterHost.takeWhile (fun c => c != '?')
    let query := afterHost.dropWhile (fun c => c != '?')
    if host ≠ [] ∧ (path = [] ∨ path.head? = some '/') ∧ path.all isPlainPathChar
        ∧ query.all isPlainQueryChar then some host else none
  | '/' :: _ => none
  | '?' :: _ => none
  | [] => none
  | c :: more => if (c :: more).all isPlainQueryChar then some [] else none

/-- The library's `url.Parse` followed by the methods the code calls, on the
URLs of the two plain shapes `scheme://host/path?query` and `scheme:opaque`.
There the library lower-cases the scheme and keeps everything else as it is,
so `String()` is the input with the scheme in lower case.  Every other input
is answered with `none`; the evaluations below use plain URLs only, and the
general results hold for every parsing function. -/
def parsePlainURL (raw : String) : Option URL :=
  match splitScheme raw.data [] with
  | none => none
  | some (scheme, rest) =>
    match isPlainRest rest with
    | none => none
    | some host =>
      some { Scheme := ⟨scheme.map asciiLower⟩, Hostname := ⟨host⟩,
             text := ⟨scheme.map asciiLower ++ ':' :: rest⟩ }

/-! ## `internal/core/render.go`: Markdown -/

/-- The replacement table of `markdownInlineEscaper`.  Every old string is a
single rune, so the replacer rewrites each rune on its own. -/
def markdownInlineEscaper (c : Char) : List Char :=
  if c = '&' then "&amp;".data
  else if c = '<' then "&lt;".data
  else if c = '>' then "&gt;".data
  else if c = '\\' then "\\\\".data
  else if c = '[' then "\\[".data
  else if c = ']' then "\\]".data
  else if c = '(' then "\\(".data
  else if c = ')' then "\\)".data
  else if c = Char.ofNat 96 then ['\\', Char.ofNat 96]
  else [c]

/-- The function `escapeMarkdownInline`. -/
def escapeMarkdownInline (s : String) : String :=
  if s = "" then s else ⟨s.data.flatMap markdownInlineEscaper⟩

/-- The function `normalizeInlineText`. -/
def normalizeInlineText (s : String) : String :=
  let s := ReplaceAll s "\r\n" " "
  let s := ReplaceAll s "\n" " "
  let s := ReplaceAll s "\r" " "
  Join (Fields s) " "

/-- The replacement table of the replacer at the end of
`sanitizeMarkdownURL`. -/
def urlEscaper (c : Char) : List Char :=
  if c = '(' then "%28".data
  else if c = ')' then "%29".data
  else if c = ' ' then "%20".data
  else [c]

/-- The function `sanitizeMarkdownURL`; `parse` stands for `url.Parse`. -/
def sanitizeMarkdownURL (fold : Char → Char) (parse : String → Option URL)
    (raw : String) : String :=
  let raw := TrimSpace raw
  if raw = "" then ""
  else
    let raw := ReplaceAll raw "\r" ""
    let raw := ReplaceAll raw "\n" ""
    match parse raw with
    | none => ""
    | some u =>
      if !EqualFold fold u.Scheme "http" && !EqualFold fold u.Scheme "https" then ""
      else ⟨u.text.data.flatMap urlEscaper⟩

/-- The function `formatRepoLine`. -/
def formatRepoLine (fold : Char → Char) (parse : String → Option URL)
    (r : Repository) : String :=
  let name := escapeMarkdownInline (TrimSpace r.Name)
  let link := sanitizeMarkdownURL fold parse r.HTMLURL
  let language := escapeMarkdownInline (TrimSpace r.Language)
  let description := escapeMarkdownInline (normalizeInlineText r.Description)
  let parts : List String :=
    if link ≠ "" then ["- [" ++ name ++ "](" ++ link ++ ")"] else ["- " ++ name]
  let parts := if language ≠ "" then parts ++ ["(" ++ language ++ ")"] else parts
  let parts := if description ≠ "" then parts ++ ["- " ++ description] else parts
  Join parts " "

/-- The function `RenderMarkdown`. -/
def RenderMarkdown (fold : Char → Char) (parse : String → Option URL)
    (repos : List Repository) (marker : String) : String :=
  let sb := "<!-- BEGIN " ++ marker ++ " -->\n"
  let sb := sb ++ "## Current Projects\n\n"
  let sb :=
    if repos.length = 0 then sb ++ "_No public projects matched._\n"
    else repos.foldl (fun sb r => sb ++ formatRepoLine fold parse r ++ "\n") sb
  sb ++ "<!-- END " ++ marker ++ " -->\n"

/-! ## The packages `time` and `encoding/json`, as far as `RenderJSON` uses them -/

/-- The table `daysBefore` of the package `time`: the days of a common year
that lie before the start of each month. -/
def daysBefore : List Nat :=
  [0, 31, 59, 90, 120, 151, 181, 212, 243, 273, 304, 334, 365]

/-- The library's `isLeap`. -/
def isLeap (year : Int) : Bool :=
  year % 4 = 0 && (year % 100 != 0 || year % 400 = 0)

/-- The library's computation of year, month and day of the month from the
number of days since January 1, year 1: whole cycles of 400, 100, 4 and 1
years are cut off, then the month is estimated. -/
def civilDate (days : Int) : Int × Nat × Nat :=
  let n400 := days / 146097
  let d : Nat := (days % 146097).toNat
  let n100 := d / 36524
  let n100 := n100 - n100 / 4
  let d := d - 36524 * n100
  let n4 := d / 1461
  let d := d - 1461 * n4
  let n1 := d / 365
  let n1 := n1 - n1 / 4
  let d := d - 365 * n1
  let year : Int := 400 * n400 + 100 * n100 + 4 * n4 + n1 + 1
  if isLeap year && d == 59 then (year, 2, 29)
  else
    let day := if isLeap year && decide (d > 59) then d - 1 else d
    let month := day / 31
    let stop := daysBefore.getD (month + 1) 0
    if day ≥ stop then (year, month + 2, day - stop + 1)
    else (year, month + 1, day - daysBefore.getD month 0 + 1)

/-- The library's `appendInt`: the decimal digits of `x`, padded with zeros
to `width` digits, after a minus sign when `x` is negative. -/
def appendInt (x : Int) (width : Nat) : String :=
  let digits := (Nat.repr x.natAbs).data
  let padded := List.replicate (width - digits.length) '0' ++ digits
  if x < 0 then ⟨'-' :: padded⟩ else ⟨padded⟩

/-- The call `t.Format("2006-01-02T15:04:05Z")`.  The layout holds year,
month, day, hour, minute and second and ends in the letter `Z`, which stands
for itself as no zone element follows it; the fields are those of the wall
clock at the location of `t`. -/
def formatStamp (t : Time) : String :=
  let abs := t.nanos / 1000000000 + t.offset
  let date := civilDate (abs / 86400)
  let secs := abs % 86400
  appendInt date.1 4 ++ "-" ++ appendInt date.2.1 2 ++ "-" ++ appendInt date.2.2 2
    ++ "T" ++ appendInt (secs / 3600) 2 ++ ":" ++ appendInt (secs % 3600 / 60) 2
    ++ ":" ++ appendInt (secs % 60) 2 ++ "Z"

/-- The same layout applied to the instant read in UTC, as the specification
words it. -/
def utcStamp (t : Time) : String :=
  formatStamp { nanos := t.nanos, offset := 0 }

/-- A digit of the table `hex` of the package `encoding/json`. -/
def hexDigit (n : Nat) : Char := "0123456789abcdef".data.getD n '0'

/-- How the encoder of `encoding/json` writes one rune inside a string, with
the escaping of HTML switched on as `json.MarshalIndent` has it. -/
def jsonEscapeChar (c : Char) : List Char :=
  if c = '\\' ∨ c = '"' then ['\\', c]
  else if c.toNat = 8 then ['\\', 'b']
  else if c.toNat = 12 then ['\\', 'f']
  else if c = '\n' then ['\\', 'n']
  else if c = '\r' then ['\\', 'r']
  else if c = '\t' then ['\\', 't']
  else if c.toNat < 32 ∨ c = '<' ∨ c = '>' ∨ c = '&' then
    ['\\', 'u', '0', '0', hexDigit (c.toNat / 16), hexDigit (c.toNat % 16)]
  else if c.toNat = 0x2028 then "\\u2028".data
  else if c.toNat = 0x2029 then "\\u2029".data
  else [c]

/-- A string as the encoder writes it: between double quotes, every rune
escaped as needed. -/
def jsonString (s : String) : String :=
  ⟨'"' :: s.data.flatMap jsonEscapeChar ++ ['"']⟩

/-- An integer as the encoder writes it. -/
def jsonInt (n : Int) : String :=
  if n < 0 then ⟨'-' :: (Nat.repr n.natAbs).data⟩ else Nat.repr n.toNat

/-! ## Slices, where `nil` and empty differ -/

/-- A Go slice as far as a `range` loop, `len`, an indexed assignment and the
encoder of `encoding/json` can tell: the `nil` slice, or a slice that is not
`nil` with its elements, of which there may be none. -/
inductive Slice (α : Type) where
  | nil : Slice α
  | elems (items : List α) : Slice α
  deriving DecidableEq

namespace Slice

/-- The elements a `range` loop visits, in order: none for the `nil` slice. -/
def toList {α : Type} : Slice α → List α
  | nil => []
  | elems items => items

/-- The builtin `len`. -/
def len {α : Type} (s : Slice α) : Nat := s.toList.length

/-- The assignment `s[i] = v` for an index `i` below `len(s)`, the only kind
the code makes. -/
def set {α : Type} : Slice α → Nat → α → Slice α
  | nil, _, _ => nil
  | elems items, i, v => elems (items.set i v)

end Slice

/-- The call `make([]T, n)`: a slice that is not `nil` and holds `n` times the
zero value of `T`. -/
def make {α : Type} (zero : α) (n : Nat) : Slice α :=
  Slice.elems (List.replicate n zero)

/-! ## `internal/core/render.go`: JSON -/

deriving instance DecidableEq for Except

/-- The struct `JSONOutput`. -/
structure JSONOutput where
  Name : String
  HTMLURL : String
  Description : String
  Language : String
  PushedAt : String
  StargazersCount : Int
  deriving DecidableEq

/-- One element of the array as `json.MarshalIndent(out, "", "  ")` lays it
out: the six fields in the order of the struct, each on a line of its own. -/
def marshalObject (o : JSONOutput) : String :=
  "  \x7b\n"
    ++ "    \"name\": " ++ jsonString o.Name ++ ",\n"
    ++ "    \"html_url\": " ++ jsonString o.HTMLURL ++ ",\n"
    ++ "    \"description\": " ++ jsonString o.Description ++ ",\n"
    ++ "    \"language\": " ++ jsonString o.Language ++ ",\n"
    ++ "    \"pushed_at\": " ++ jsonString o.PushedAt ++ ",\n"
    ++ "    \"stargazers_count\": " ++ jsonInt o.StargazersCount ++ "\n"
    ++ "  \x7d"

/-- The zero value of `JSONOutput`, with which `make` fills a new slice. -/
def zeroJSONOutput : JSONOutput :=
  { Name := "", HTMLURL := "", Description := "", Language := "", PushedAt := "",
    StargazersCount := 0 }

/-- The call `json.MarshalIndent(out, "", "  ")` on a slice of `JSONOutput`:
it cannot fail on this type; the encoder writes the `nil` slice as `null`, a
slice without elements that is not `nil` as `[]`, and any other slice as its
objects between brackets. -/
def MarshalIndent : Slice JSONOutput → Except String String
  | Slice.nil => Except.ok "null"
  | Slice.elems out =>
    if out.isEmpty then Except.ok "[]"
    else Except.ok ("[\n" ++ Join (out.map marshalObject) ",\n" ++ "\n]")

/-- The function `RenderJSON`: `out` is made with `len(repos)` zero values and
the loop assigns `out[i]` for every index `i` and record `r` of `repos`. -/
def RenderJSON (repos : Slice Repository) : Except String String :=
  let out : Slice JSONOutput := make zeroJSONOutput repos.len
  let out := repos.toList.enum.foldl (fun out (p : Nat × Repository) =>
    out.set p.1
      { Name := p.2.Name, HTMLURL := p.2.HTMLURL, Description := p.2.Description,
        Language := p.2.Language, PushedAt := formatStamp p.2.PushedAt,
        StargazersCount := p.2.StargazersCount }) out
  match MarshalIndent out with
  | Except.error err => Except.error ("marshaling JSON: " ++ err)
  | Except.ok data => Except.ok (data ++ "\n")

/-! ## `internal/core/patch.go` -/

/-- The struct `PatchResult`. -/
structure PatchResult where
  Content : String
  Patched : Bool
  deriving DecidableEq

/-- The three errors of `PatchREADME`, each with the marker name its message
quotes. -/
inductive PatchError where
  | markerNotFound (marker : String)
  | markersInconsistent (marker : String)
  | endBeforeBegin (marker : String)
  deriving DecidableEq

/-- The function `detectLineEnding`. -/
def detectLineEnding (content : String) : String :=
  if Contains content "\r\n" then "\r\n" else "\n"

/-- The function `adaptLineEnding`. -/
def adaptLineEnding (content lineEnding : String) : String :=
  if lineEnding = "\r\n" then
    let content := ReplaceAll content "\r\n" "\n"
    ReplaceAll content "\n" "\r\n"
  else content

/-- The function `PatchREADME`: the two results of the function, the error
being `none` for `nil`. -/
def PatchREADME (existing newSection marker : String) (appendIfMissing : Bool) :
    PatchResult × Option PatchError :=
  let beginMarker := "<!-- BEGIN " ++ marker ++ " -->"
  let endMarker := "<!-- END " ++ marker ++ " -->"
  let lineEnding := detectLineEnding existing
  let beginIdx := Index existing beginMarker
  let endIdx := Index existing endMarker
  if beginIdx = -1 ∧ endIdx = -1 then
    if !appendIfMissing then
      ({ Content := "", Patched := false }, some (PatchError.markerNotFound marker))
    else
      let separator :=
        if !HasSuffix existing lineEnding && existing != "" then lineEnding ++ lineEnding
        else if existing != "" then lineEnding
        else lineEnding
      let adapted := adaptLineEnding newSection lineEnding
      ({ Content := existing ++ separator ++ adapted, Patched := true }, none)
  else if beginIdx = -1 ∨ endIdx = -1 then
    ({ Content := "", Patched := false }, some (PatchError.markersInconsistent marker))
  else if beginIdx > endIdx then
    ({ Content := "", Patched := false }, some (PatchError.endBeforeBegin marker))
  else
    let endOfEndMarker := endIdx.toNat + endMarker.length
    let endOfEndMarker :=
      if endOfEndMarker < existing.length ∧ existing.data.getD endOfEndMarker ' ' = '\r'
      then endOfEndMarker + 1 else endOfEndMarker
    let endOfEndMarker :=
      if endOfEndMarker < existing.length ∧ existing.data.getD endOfEndMarker ' ' = '\n'
      then endOfEndMarker + 1 else endOfEndMarker
    let before : String := ⟨existing.data.take beginIdx.toNat⟩
    let after : String := ⟨existing.data.drop endOfEndMarker⟩
    let adapted := adaptLineEnding newSection lineEnding
    ({ Content := before ++ adapted ++ after, Patched := true }, none)

/-! ## The segments of a rendered line, in the words of the specification -/

/-- The escaped trimmed name `N` of a record. -/
def escapedName (r : Repository) : String :=
  escapeMarkdownInline (TrimSpace r.Name)

/-- The escaped trimmed language `L` of a record. -/
def escapedLanguage (r : Repository) : String :=
  escapeMarkdownInline (TrimSpace r.Language)

/-- The escaped normalized description `D` of a record. -/
def escapedDescription (r : Repository) : String :=
  escapeMarkdownInline (normalizeInlineText r.Description)

/-- The first segment of a line: `- [N](U)` when the sanitized URL `U` is not
empty, `- N` otherwise. -/
def linkSegment (fold : Char → Char) (parse : String → Option URL)
    (r : Repository) : String :=
  if sanitizeMarkdownURL fold parse r.HTMLURL ≠ "" then
    "- [" ++ escapedName r ++ "](" ++ sanitizeMarkdownURL fold parse r.HTMLURL ++ ")"
  else "- " ++ escapedName r

/-- The first segment of a line without a link: `- N`. -/
def plainSegment (r : Repository) : String := "- " ++ escapedName r

/-- The segments after the first: `(L)` when `L` is not empty, then `- D` when
`D` is not empty. -/
def optionalSegments (r : Repository) : List String :=
  (if escapedLanguage r ≠ "" then ["(" ++ escapedLanguage r ++ ")"] else [])
    ++ (if escapedDescription r ≠ "" then ["- " ++ escapedDescription r] else [])

/-- The lines of the records, each closed by a line feed, one after the
other. -/
def recordLines (fold : Char → Char) (parse : String → Option URL) :
    List Repository → String
  | [] => ""
  | r :: rest => formatRepoLine fold parse r ++ "\n" ++ recordLines fold parse rest

/-- The text handed to `url.Parse` by `sanitizeMarkdownURL`: the URL trimmed
and freed of carriage returns and line feeds. -/
def strippedURL (raw : String) : String :=
  ReplaceAll (ReplaceAll (TrimSpace raw) "\r" "") "\n" ""

/-- The URL is blank, or fails to parse, or has a scheme that is neither
`http` nor `https` when compared without regard to case. -/
def urlRejected (fold : Char → Char) (parse : String → Option URL)
    (raw : String) : Prop :=
  TrimSpace raw = ""
    ∨ parse (strippedURL raw) = none
    ∨ ∃ u : URL, parse (strippedURL raw) = some u
        ∧ EqualFold fold u.Scheme "http" = false
        ∧ EqualFold fold u.Scheme "https" = false

/-! ## Reading back what the JSON encoder wrote -/

/-- The value of a hexadecimal digit. -/
def hexValue (c : Char) : Option Nat :=
  if 48 ≤ c.toNat ∧ c.toNat ≤ 57 then some (c.toNat - 48)
  else if 97 ≤ c.toNat ∧ c.toNat ≤ 102 then some (c.toNat - 87)
  else if 65 ≤ c.toNat ∧ c.toNat ≤ 70 then some (c.toNat - 55)
  else none

/-- The rune that a backslash followed by `c` stands for in a JSON string,
the form with `u` apart. -/
def simpleEscape (c : Char) : Option Char :=
  if c = '"' then some '"'
  else if c = '\\' then some '\\'
  else if c = '/' then some '/'
  else if c = 'b' then some (Char.ofNat 8)
  else if c = 'f' then some (Char.ofNat 12)
  else if c = 'n' then some '\n'
  else if c = 'r' then some '\r'
  else if c = 't' then some '\t'
  else none

/-- The states of a reader of JSON strings: between escapes, after a
backslash, and inside the four digits after `u` with the
value read so far. -/
inductive ReadState where
  | plain
  | escape
  | hex (digits : Nat) (value : Nat)

/-- A reader of the inside of a JSON string as RFC 8259 defines it (pairs of
surrogates apart): the runes denoted, or `none` when the text is not the
inside of a string. -/
def readJSONChars : ReadState → List Char → Option (List Char)
  | ReadState.plain, [] => some []
  | ReadState.escape, [] => none
  | ReadState.hex _ _, [] => none
  | ReadState.plain, c :: cs =>
    if c = '\\' then readJSONChars ReadState.escape cs
    else if c = '"' ∨ c.toNat < 32 then none
    else (readJSONChars ReadState.plain cs).map (fun out => c :: out)
  | ReadState.escape, c :: cs =>
    if c = 'u' then readJSONChars (ReadState.hex 0 0) cs
    else
      match simpleEscape c with
      | none => none
      | some d => (readJSONChars ReadState.plain cs).map (fun out => d :: out)
  | ReadState.hex digits value, c :: cs =>
    match hexValue c with
    | none => none
    | some v =>
      if digits = 3 then
        (readJSONChars ReadState.plain cs).map
          (fun out => Char.ofNat (value * 16 + v) :: out)
      else readJSONChars (ReadState.hex (digits + 1) (value * 16 + v)) cs

/-- A reader of a JSON string: the text between the two double quotes is
read by `readJSONChars`. -/
def jsonUnquote (s : String) : Option String :=
  match s.data with
  | [] => none
  | c :: rest =>
    if c = '"' ∧ rest.getLast? = some '"' then
      (readJSONChars ReadState.plain rest.dropLast).map String.mk
    else none

/-- The object that the specification has the renderer write for a record:
the six members in their fixed order, the texts as JSON strings, the star
count as a number, `pushed_at` as the renderer formats it. -/
def recordObject (r : Repository) : String :=
  "  \x7b\n"
    ++ "    \"name\": " ++ jsonString r.Name ++ ",\n"
    ++ "    \"html_url\": " ++ jsonString r.HTMLURL ++ ",\n"
    ++ "    \"description\": " ++ jsonString r.Description ++ ",\n"
    ++ "    \"language\": " ++ jsonString r.Language ++ ",\n"
    ++ "    \"pushed_at\": " ++ jsonString (formatStamp r.PushedAt) ++ ",\n"
    ++ "    \"stargazers_count\": " ++ jsonInt r.StargazersCount ++ "\n"
    ++ "  \x7d"

/-- The number that a run of decimal digits denotes, read after `acc`. -/
def readDigits (acc : Nat) : List Char → Nat
  | [] => acc
  | c :: cs => readDigits (acc * 10 + (c.toNat - 48)) cs

/-- The integer that a JSON number without fraction and exponent denotes. -/
def readJSONInt (s : String) : Int :=
  match s.data with
  | [] => 0
  | c :: cs => if c = '-' then -(readDigits 0 cs : Int) else (readDigits 0 (c :: cs) : Int)

/-- The array that the specification has the renderer write: `[]` for no
record, otherwise the objects of the records in their order, each indented,
separated by commas, between `[` and `]` on lines of their own. -/
def jsonArray (repos : List Repository) : String :=
  if repos = [] then "[]"
  else "[\n" ++ Join (repos.map recordObject) ",\n" ++ "\n]"

/-- The separator of the specification for an appended section: one line
ending of the document's style when the document is empty or ends with that
line ending, two otherwise. -/
def appendSeparator (existing : String) : String :=
  if existing = "" ∨ HasSuffix existing (detectLineEnding existing) = true then
    detectLineEnding existing
  else detectLineEnding existing ++ detectLineEnding existing

/-! ## The patcher, in the words of the specification -/

/-- The marker line `<!-- BEGIN m -->` of a marker name. -/
def beginMarker (marker : String) : String := "<!-- BEGIN " ++ marker ++ " -->"

/-- The marker line `<!-- END m -->` of a marker name. -/
def endMarker (marker : String) : String := "<!-- END " ++ marker ++ " -->"

/-- A line feed when the text starts with one, nothing otherwise. -/
def leadingLF (l : List Char) : List Char :=
  if l.head? = some '\n' then ['\n'] else []

/-- The line terminator at the start of a text, as `PatchREADME` skips it
after the END marker: a carriage return if there is one, then a line feed if
there is one. -/
def lineTerminator (l : List Char) : List Char :=
  if l.head? = some '\r' then '\r' :: leadingLF l.tail else leadingLF l

/-- The position after the END marker, a carriage return and a line feed, as
the two `if` statements of `PatchREADME` compute it from the position `k`
after the END marker. -/
def skipTerminator (l : List Char) (k : Nat) : Nat :=
  let k1 := if k < l.length ∧ l.getD k ' ' = '\r' then k + 1 else k
  if k1 < l.length ∧ l.getD k1 ' ' = '\n' then k1 + 1 else k1

/-- The zero value of `PatchResult`. -/
def zeroPatchResult : PatchResult := { Content := "", Patched := false }

/-- The message of each error of `PatchREADME`, as `fmt.Errorf` builds it; the
verb `%q` of the format is the parameter `quote`. -/
def errorText (quote : String → String) : PatchError → String
  | PatchError.markerNotFound marker =>
    "marker " ++ quote marker ++ " not found in README; use --append-if-missing to add it"
  | PatchError.markersInconsistent marker =>
    "only one of BEGIN/END markers for " ++ quote marker
      ++ " found; README markers are inconsistent"
  | PatchError.endBeforeBegin marker =>
    "END marker appears before BEGIN marker for " ++ quote marker

/-! ## `regexp`: the expression `linkNextRe` of `internal/githubapi/client.go`

The expression is `<([^>]+)>;\s*rel="next"`.  From one start position it has
at most one match: the group is the longest run of characters other than `>`
after the `<`, which must not be empty and must be followed by `>;`, then the
longest run of white space, then the text `rel="next"`. -/

/-- The class `\s` of the package `regexp`: tab, line feed, form feed,
carriage return and space. -/
def isReSpace (c : Char) : Bool :=
  c = '\t' || c = '\n' || c = '\x0c' || c = '\r' || c = ' '

/-- The part of `linkNextRe` after the group: `>;\s*rel="next"` at the start of
the text. -/
def linkNextReTail (l : List Char) : Bool :=
  match l with
  | c1 :: c2 :: t =>
    c1 = '>' && c2 = ';' && "rel=\"next\"".data.isPrefixOf (t.dropWhile isReSpace)
  | _ => false

/-- The match of `linkNextRe` that starts at the start of the text, if there
is one: the matched text and the text of the group. -/
def linkNextReAt (l : List Char) : Option (List String) :=
  match l with
  | c :: rest =>
    let group := rest.takeWhile (fun x => x != '>')
    let after := rest.dropWhile (fun x => x != '>')
    if c = '<' ∧ group ≠ [] ∧ linkNextReTail after = true then
      some [⟨'<' :: group ++ '>' :: ';' :: (after.drop 2).takeWhile isReSpace
              ++ "rel=\"next\"".data⟩, ⟨group⟩]
    else none
  | [] => none

/-- The method `FindStringSubmatch` of `linkNextRe`: the leftmost match, as the
matched text and the text of the group, or the nil slice. -/
def FindStringSubmatch : List Char → List String
  | [] => []
  | c :: cs =>
    match linkNextReAt (c :: cs) with
    | some m => m
    | none => FindStringSubmatch cs

/-! ## `internal/githubapi/client.go`: `ParseNextLink` -/

/-- The function `ParseNextLink`. -/
def ParseNextLink (linkHeader : String) : String :=
  if linkHeader = "" then ""
  else
    let submatches := FindStringSubmatch linkHeader.data
    if submatches.length < 2 then "" else submatches.getD 1 ""

/-! ## The Link header, in the words of the specification -/

/-- One entry of a Link header: the URL between the angle brackets, the white
space between the semicolon and `rel`, and the name of the relation. -/
structure LinkEntry where
  url : String
  gap : String
  rel : String
  deriving DecidableEq

/-- The text of an entry: `<URL>;`, the white space, `rel="name"`. -/
def renderEntry (e : LinkEntry) : String :=
  "<" ++ e.url ++ ">;" ++ e.gap ++ "rel=\"" ++ e.rel ++ "\""

/-- An entry has the form the specification describes: the URL is not empty
and has no `>`, the gap is white space, and the name of the relation has no
double quote and no `<`. -/
def entryWellFormed (e : LinkEntry) : Bool :=
  e.url != "" && !e.url.data.contains '>' && e.gap.data.all isReSpace
    && !e.rel.data.contains '"' && !e.rel.data.contains '<'

/-- The URL of the first entry whose relation is `next`, the empty string when
there is none. -/
def nextURL : List LinkEntry → String
  | [] => ""
  | e :: es => if e.rel = "next" then e.url else nextURL es

/-! ## `internal/githubapi/client.go`: `FetchAllRepos`

The network is a script: the list of what the successive calls of
`HTTPClient.Do` give back.  The model passes the rest of the script and the
list of the requests sent so far from one call to the next; it has no result
when a request is to be sent and the script is used up.  `http.NewRequest` and
the decoding of a body are parameters: `requestError` gives the error of
`http.NewRequest` for a URL, if any, and `decode` the records of a body or the
error of the decoder.  The logging of the rate limit writes to the logger only
and is left out. -/

/-- The fields of the struct `Client` that a request depends on. -/
structure Client where
  BaseURL : String
  Token : String
  deriving DecidableEq

/-- A request as `fetchPage` builds it: the method, the URL and the two headers
it may set, `none` standing for a header that is not set. -/
structure Request where
  Method : String
  URL : String
  Accept : String
  Authorization : Option String
  deriving DecidableEq

/-- What `HTTPClient.Do` gives back: an error, or a response with its status
code, its body and the value of its `Link` header, empty when it has none. -/
inductive DoResult where
  | failure (err : String)
  | response (StatusCode : Int) (Body : String) (Link : String)
  deriving DecidableEq

/-- The two results of `FetchAllRepos`, the error being `none` for `nil`, and
the requests sent, in order. -/
structure FetchResult where
  repos : List Repository
  err : Option String
  sent : List Request
  deriving DecidableEq

/-- The verb `%d` of the package `fmt`: the decimal digits of an integer. -/
def formatDecimal (n : Int) : String := jsonInt n

/-- The request that `fetchPage` builds for a URL. -/
def newRequest (c : Client) (url : String) : Request :=
  { Method := "GET", URL := url, Accept := "application/vnd.github+json",
    Authorization := if c.Token != "" then some ("Bearer " ++ c.Token) else none }

/-- The function `fetchPage` from the point where `HTTPClient.Do` has given
`answer` back: the records of the page and the URL of the next page, or the
error. -/
def fetchPage (decode : String → Except String (List Repository)) (url : String)
    (answer : DoResult) : Except String (List Repository × String) :=
  match answer with
  | DoResult.failure err => Except.error ("fetching repos from " ++ url ++ ": " ++ err)
  | DoResult.response StatusCode Body Link =>
    if StatusCode ≠ 200 then
      Except.error ("GitHub API returned status " ++ formatDecimal StatusCode ++ ": " ++ Body)
    else
      match decode Body with
      | Except.error err => Except.error ("decoding response: " ++ err)
      | Except.ok repos => Except.ok (repos, ParseNextLink Link)

/-- The loop of `FetchAllRepos`, with the first lines of `fetchPage`: while the
URL is not empty, create the request, send it, and take the records and the
next URL from the answer; the first error ends the loop with no records. -/
def fetchLoop (requestError : String → Option String)
    (decode : String → Except String (List Repository)) (c : Client) :
    List DoResult → String → List Repository → List Request → Option FetchResult
  | script, url, allRepos, sent =>
    if url = "" then some { repos := allRepos, err := none, sent := sent }
    else
      match requestError url with
      | some err => some { repos := [], err := some ("creating request: " ++ err), sent := sent }
      | none =>
        match script with
        | [] => none
        | answer :: rest =>
          match fetchPage decode url answer with
          | Except.error err =>
            some { repos := [], err := some err, sent := sent ++ [newRequest c url] }
          | Except.ok (repos, nextURL) =>
            fetchLoop requestError decode c rest nextURL (allRepos ++ repos)
              (sent ++ [newRequest c url])

/-- The method `FetchAllRepos`. -/
def FetchAllRepos (requestError : String → Option String)
    (decode : String → Except String (List Repository)) (c : Client) (user : String)
    (script : List DoResult) : Option FetchResult :=
  fetchLoop requestError decode c script
    (c.BaseURL ++ "/users/" ++ user ++ "/repos?type=owner&per_page=100&page=1") [] []

/-! ## The pages of a fetch, in the words of the specification -/

/-- A successful page: its body and the value of its `Link` header. -/
structure Page where
  Body : String
  Link : String
  deriving DecidableEq

/-- The answer that carries a page: status 200. -/
def pageAnswer (p : Page) : DoResult := DoResult.response 200 p.Body p.Link

/-- The records of a page, none when its body cannot be decoded. -/
def pageRecords (decode : String → Except String (List Repository)) (p : Page) :
    List Repository :=
  match decode p.Body with
  | Except.ok repos => repos
  | Except.error _ => []

/-- The URLs requested for a chain of pages: the first one, then the next link
of each page but the last. -/
def chainURLs (first : String) : List Page → List String
  | [] => []
  | p :: ps => first :: chainURLs (ParseNextLink p.Link) ps

/-- The URL left after a chain of pages: the next link of the last page. -/
def chainEnd (first : String) : List Page → String
  | [] => first
  | p :: ps => chainEnd (ParseNextLink p.Link) ps

/-! ## Line feeds after carriage returns, in the words of the specification -/

/-- Every line feed of the text comes right after a carriage return;
`prevCR` tells whether the character before the text is a carriage return. -/
def lfAfterCR (prevCR : Bool) : List Char → Bool
  | [] => true
  | c :: cs => (c != '\n' || prevCR) && lfAfterCR (c == '\r') cs

/-- The text has no bare line feed: the check of `TestPatchREADMECRLF`. -/
def noBareLF (s : String) : Bool := lfAfterCR false s.data

/-! ## The lines of a section, in the words of the specification -/

/-- The text of lines, each followed by the line terminator `t`. -/
def linesText (t : List Char) (lines : List (List Char)) : List Char :=
  lines.flatMap (fun s => s ++ t)

/-- The lines of the output of `RenderMarkdown` between the line of the BEGIN
marker and the line of the END marker: the heading, an empty line, and the
line of each record or the sentence that stands for an empty list. -/
def sectionBody (fold : Char → Char) (parse : String → Option URL)
    (repos : List Repository) : List (List Char) :=
  "## Current Projects".data :: [] ::
    (if repos = [] then ["_No public projects matched._".data]
     else repos.map (fun r => (formatRepoLine fold parse r).data))

/-! ## `internal/cli/options.go`: `ValidateOptions` -/

/-- The struct `Options`; the field `Sort` of the code is `SortOrder` here. -/
structure Options where
  User : String
  Token : String
  Top : Int
  MinStars : Int
  IncludeForks : Bool
  IncludeArchived : Bool
  SinceDays : Int
  RequireDescription : Bool
  Tags : List String
  TagMatch : String
  SortOrder : String
  ReadmePath : String
  OutPath : String
  Marker : String
  Format : String
  BaseURL : String
  AppendIfMissing : Bool
  deriving DecidableEq

/-- The struct `UsageError`, with the message of the error it wraps. -/
structure UsageError where
  Err : String
  deriving DecidableEq

/-- The function `isLocalhost`. -/
def isLocalhost (host : String) : Bool :=
  host = "localhost" || host = "127.0.0.1" || host = "::1"

/-- The function `isSecureBaseURL`; `parse` stands for `url.Parse` and `lower`
for the table of `strings.ToLower`. -/
def isSecureBaseURL (lower : Char → Char) (parse : String → Option URL)
    (baseURL : String) : Bool :=
  match parse baseURL with
  | none => false
  | some u =>
    if u.Scheme = "" then false
    else if ToLower lower u.Scheme = "https" then true
    else if ToLower lower u.Scheme = "http" then isLocalhost u.Hostname
    else false

/-- The function `ValidateOptions`: `none` for `nil`. -/
def ValidateOptions (lower : Char → Char) (parse : String → Option URL)
    (opts : Options) (token : String) : Option UsageError :=
  if opts.ReadmePath ≠ "" ∧ opts.Format = "json" then
    some { Err := "--readme cannot be used with --format json" }
  else if token ≠ "" ∧ !isSecureBaseURL lower parse opts.BaseURL then
    some { Err := "--base-url must use https when a token is set "
              ++ "(http is allowed only for localhost)" }
  else none

/-! ## Characters after a guard character, in the words of the specification -/

/-- Every character of the text that satisfies `p` comes right after the
character `g`; `prev` tells whether the character before the text is `g`. -/
def precededBy (g : Char) (p : Char → Bool) (prev : Bool) : List Char → Bool
  | [] => true
  | c :: cs => (!p c || prev) && precededBy g p (c == g) cs

/-- The characters that open or close a Markdown link or a code span: the
square brackets, the parentheses and the backtick. -/
def isLinkSyntax (c : Char) : Bool :=
  c = '[' || c = ']' || c = '(' || c = ')' || c = Char.ofNat 96

/-- The square brackets, between which Markdown reads the text of a link. -/
def isSquareBracket (c : Char) : Bool := c = '[' || c = ']'

/-! ## Words joined by single spaces, in the words of the specification -/

/-- The text is made of words with one space between two words and nothing
else: every white space character is a space, none comes first, last or right
after another; `prevSpace` tells whether the text comes right after a white
space character or at the start. -/
def spacedWords (prevSpace : Bool) : List Char → Bool
  | [] => !prevSpace
  | c :: cs =>
    if isSpace c then c == ' ' && !prevSpace && spacedWords true cs
    else spacedWords false cs

/-! ## Sample data: the fixtures of `filter_test.go` and `sort_test.go` -/

/-- Midnight UTC of the day that lies `day` days after January 1, year 1. -/
def utcMidnight (day : Int) : Time :=
  { nanos := day * Time.nanosPerDay, offset := 0 }

/-- A record with the fields the tests set; the others are empty. -/
def sampleRepo (name : String) (fork archived priv : Bool) (stars : Int)
    (pushed : Time) (topics : List String) : Repository :=
  { Name := name, FullName := "", HTMLURL := "", Description := "",
    Topics := topics, Fork := fork, Archived := archived, Private := priv,
    Language := "", StargazersCount := stars, PushedAt := pushed }

/-- The record `public-repo` of `makeRepos`, pushed on 2025-01-15. -/
def publicRepo : Repository :=
  sampleRepo "public-repo" false false false 10 (utcMidnight 739265) []

/-- A record pushed on 2024-12-21, thirty days before 2025-01-20. -/
def cutoffRepo : Repository :=
  sampleRepo "cutoff-repo" false false false 3 (utcMidnight 739240) []

/-- The fixture `makeRepos` of `filter_test.go`. -/
def makeRepos : List Repository :=
  [ publicRepo,
    sampleRepo "forked-repo" true false false 5 (utcMidnight 739260) [],
    sampleRepo "archived-repo" false true false 50 (utcMidnight 739037) [],
    sampleRepo "private-repo" false false true 0 (utcMidnight 739265) [],
    sampleRepo "low-star-repo" false false false 1 (utcMidnight 739220) [] ]

/-- The options of the tests: everything off, reference time 2025-01-20. -/
def testOptions (sinceDays : Int) (tags : List String) (matchAll : Bool) :
    FilterOptions :=
  { IncludeForks := false, IncludeArchived := false, MinStars := 0,
    SinceDays := sinceDays, RequireDescription := false, Tags := tags,
    TagsMatchAll := matchAll, Now := utcMidnight 739270 }

/-- The options of the tests with the largest `SinceDays` an `int` of 64 bits
holds. -/
def wrapOptions : FilterOptions := testOptions 9223372036854775807 [] false

/-! ## Sample data: the fixtures of `render_test.go` and `patch_test.go` -/

/-- A record with the fields the renderer reads; the others are empty. -/
def renderSample (name url description language : String) : Repository :=
  { Name := name, FullName := "", HTMLURL := url, Description := description,
    Topics := [], Fork := false, Archived := false, Private := false,
    Language := language, StargazersCount := 0, PushedAt := utcMidnight 0 }

/-- The record of `TestRenderMarkdownFull`. -/
def awesomeRepo : Repository :=
  renderSample "awesome" "https://github.com/u/awesome" "An awesome project" "Go"

/-- The record of `TestRenderMarkdownEscapesUserControlledFields`. -/
def escapedRepo : Repository :=
  renderSample "x](javascript:alert(1))" "https://github.com/u/repo(with)paren"
    "line1\n<script>alert(1)</script>" "Go"

/-- The record of `TestRenderMarkdownRejectsNonHTTPLinkScheme`. -/
def badLinkRepo : Repository :=
  renderSample "bad-link" "javascript:alert(1)" "desc" ""

/-- A record whose name holds a line feed between two letters. -/
def brokenNameRepo : Repository := renderSample "a\nb" "" "" ""

/-- A record whose description and whose URL both hold `<script>`. -/
def scriptRepo : Repository :=
  renderSample "x" "https://example.com/?q=<script>" "<script>alert(1)</script>" ""

/-- The record of `TestRenderJSON`, pushed on 2025-01-15 at 10:00:00 UTC. -/
def jsonTestRepo : Repository :=
  { Name := "test", FullName := "", HTMLURL := "https://github.com/u/test",
    Description := "desc", Topics := [], Fork := false, Archived := false,
    Private := false, Language := "Go", StargazersCount := 42,
    PushedAt := { nanos := (739265 * 86400 + 36000) * 1000000000, offset := 0 } }

/-- The instant 2025-01-15 01:00:00 UTC held by a time value whose location
lies nine hours east of UTC, where the wall clock reads 10:00:00; it is what
decoding `2025-01-15T10:00:00+09:00` gives. -/
def tokyoTime : Time :=
  { nanos := (739265 * 86400 + 3600) * 1000000000, offset := 32400 }

/-- A record pushed at `tokyoTime`. -/
def tokyoRepo : Repository :=
  { Name := "t", FullName := "", HTMLURL := "", Description := "", Topics := [],
    Fork := false, Archived := false, Private := false, Language := "",
    StargazersCount := 0, PushedAt := tokyoTime }

/-- The document of `TestPatchREADMEAppendIfMissing`. -/
def profileDoc : String := "# Profile\n\n## About\n"

/-- The new section of `TestPatchREADMEAppendIfMissing`. -/
def projectsSection : String :=
  "<!-- BEGIN CURRENT PROJECTS -->\n## Current Projects\n<!-- END CURRENT PROJECTS -->\n"

/-! ## Sample data: the fixtures of `patch_test.go` -/

/-- The document of `TestPatchREADMEOnlyBeginMarker`. -/
def onlyBeginDoc : String := "# Profile\n<!-- BEGIN CURRENT PROJECTS -->\nstuff\n"

/-- The document of `TestPatchREADMEOnlyEndMarker`. -/
def onlyEndDoc : String := "# Profile\n<!-- END CURRENT PROJECTS -->\nstuff\n"

/-- The document of `TestPatchREADMEReversedMarkers`. -/
def reversedDoc : String :=
  "# Profile\n<!-- END CURRENT PROJECTS -->\nstuff\n<!-- BEGIN CURRENT PROJECTS -->\n"

/-- The document of `TestPatchREADMENormal`. -/
def normalDoc : String :=
  "# Profile\n\n<!-- BEGIN CURRENT PROJECTS -->\n## Current Projects\n\n"
    ++ "- [old](https://github.com/u/old) (Go) - Old project\n"
    ++ "<!-- END CURRENT PROJECTS -->\n\n## About\n"

/-- The new section of `TestPatchREADMENormal`. -/
def normalSection : String :=
  "<!-- BEGIN CURRENT PROJECTS -->\n## Current Projects\n\n"
    ++ "- [new](https://github.com/u/new) (Rust) - New project\n"
    ++ "<!-- END CURRENT PROJECTS -->\n"

/-- The document of `TestPatchREADMECRLF`. -/
def crlfDoc : String :=
  "# Profile\r\n\r\n<!-- BEGIN CURRENT PROJECTS -->\r\n## Old\r\n"
    ++ "<!-- END CURRENT PROJECTS -->\r\n\r\n## About\r\n"

/-- The new section of `TestPatchREADMECRLF`. -/
def crlfTestSection : String :=
  "<!-- BEGIN CURRENT PROJECTS -->\n## Current Projects\n\n- [repo](url)\n"
    ++ "<!-- END CURRENT PROJECTS -->\n"

/-- The document of `TestPatchREADMEPreservesLF`. -/
def lfDoc : String :=
  "# Profile\n\n<!-- BEGIN CURRENT PROJECTS -->\n## Old\n<!-- END CURRENT PROJECTS -->\n\n## About\n"

/-! ## Sample data: the headers of `TestParseNextLink` -/

/-- The header of the case "standard next link". -/
def standardHeader : String :=
  "<https://api.github.com/user/repos?page=2>; rel=\"next\", "
    ++ "<https://api.github.com/user/repos?page=5>; rel=\"last\""

/-- The header of the case "mixed relations with extra spaces". -/
def mixedHeader : String :=
  "<https://api.github.com/user/repos?page=1>; rel=\"prev\", "
    ++ "<https://api.github.com/user/repos?page=3>;  rel=\"next\""

/-- The entries of `mixedHeader`. -/
def mixedEntries : List LinkEntry :=
  [{ url := "https://api.github.com/user/repos?page=1", gap := " ", rel := "prev" },
   { url := "https://api.github.com/user/repos?page=3", gap := "  ", rel := "next" }]

/-! ## Sample data: the pages of `integration_test.go` -/

/-- A client with a token, as in `TestFetchAllReposAuthHeader`. -/
def testClient : Client := { BaseURL := "http://127.0.0.1:8080", Token := "my-secret-token" }

/-- A decoder that knows three bodies: the empty array and two pages. -/
def tableDecode (body : String) : Except String (List Repository) :=
  if body = "[]" then Except.ok []
  else if body = "page1" then Except.ok [publicRepo, cutoffRepo]
  else if body = "page2" then Except.ok [awesomeRepo]
  else Except.error "invalid character"

/-- The first page of `TestFetchAllReposPaginated`, with its next link. -/
def firstPage : Page :=
  { Body := "page1",
    Link := "<http://127.0.0.1:8080/users/testuser/repos?type=owner&per_page=100&page=2>; "
      ++ "rel=\"next\"" }

/-- The second page of `TestFetchAllReposPaginated`, without a `Link` header. -/
def secondPage : Page := { Body := "page2", Link := "" }

/-! ## Sample data: sections and documents with mixed line endings -/

/-- A section whose first line ends with a carriage return and a line feed. -/
def crlfSection : String :=
  "<!-- BEGIN CURRENT PROJECTS -->\r\n## Current Projects\n<!-- END CURRENT PROJECTS -->\n"

/-- A record whose name holds a carriage return and a line feed. -/
def crlfNameRepo : Repository := renderSample "a\r\nb" "" "" ""

/-- A document without line feed that ends with a carriage return. -/
def loneCRDoc : String := "# Profile\r"

/-- A document with the two markers and line feeds only. -/
def emptySpanDoc : String :=
  "<!-- BEGIN CURRENT PROJECTS -->\n<!-- END CURRENT PROJECTS -->\n"

/-- A document with carriage returns and line feeds whose markers are for a
name with a line feed in it. -/
def brokenMarkerDoc : String := "<!-- BEGIN A\nB -->\r\n<!-- END A\nB -->\r\n"

/-! ## Sample data: the records of `TestSortByStarsPrimary` -/

/-- The records of `TestSortByStarsPrimary`, in the order of the test. -/
def starsRepos : List Repository :=
  [ sampleRepo "newer-low" false false false 5 (utcMidnight 739252) [],
    sampleRepo "older-high" false false false 50 (utcMidnight 739220) [],
    sampleRepo "mid-mid" false false false 20 (utcMidnight 739251) [] ]

/-! ## Sample data: the options of `options_test.go` -/

/-- The options `ParseArgs` starts from: the default value of every flag. -/
def defaultOptions : Options :=
  { User := "", Token := "", Top := 10, MinStars := 0, IncludeForks := false,
    IncludeArchived := false, SinceDays := 0, RequireDescription := false,
    Tags := [], TagMatch := "any", SortOrder := "pushed", ReadmePath := "", OutPath := "",
    Marker := "CURRENT PROJECTS", Format := "markdown",
    BaseURL := "https://api.github.com", AppendIfMissing := false }

/-- What `url.Parse` and the methods `Hostname()` and `String()` give for
the base URLs with a port, which `parsePlainURL` leaves out: the port, and the
brackets of an address, are not part of the host name. -/
def parseBaseURL (raw : String) : Option URL :=
  if raw = "http://localhost:8080" then
    some { Scheme := "http", Hostname := "localhost", text := raw }
  else if raw = "http://127.0.0.1:8080" then
    some { Scheme := "http", Hostname := "127.0.0.1", text := raw }
  else if raw = "http://[::1]:8080" then
    some { Scheme := "http", Hostname := "::1", text := raw }
  else parsePlainURL raw

/-! ## The repository's tests, evaluated on the model -/

theorem test_FilterDefaults :
    (FilterRepos asciiLower Time.AddDate (utcMidnight 0) makeRepos (testOptions 0 [] false)).map
        (fun r => r.Name)
      = ["public-repo", "low-star-repo"] := by decide

theorem test_FilterSinceDays :
    (FilterRepos asciiLower Time.AddDate (utcMidnight 0) makeRepos (testOptions 30 [] false)).map
        (fun r => r.Name)
      = ["public-repo"] := by decide

theorem test_FilterTagsAny :
    (FilterRepos asciiLower Time.AddDate (utcMidnight 0)
        [ sampleRepo "a" false false false 0 (utcMidnight 0) ["go", "cli"],
          sampleRepo "b" false false false 0 (utcMidnight 0) ["web"],
          sampleRepo "c" false false false 0 (utcMidnight 0) [] ]
        (testOptions 0 ["cli", "tools"] false)).map (fun r => r.Name)
      = ["a"] := by decide

theorem test_FilterTagsAll :
    (FilterRepos asciiLower Time.AddDate (utcMidnight 0)
        [ sampleRepo "a" false false false 0 (utcMidnight 0) ["go", "cli"],
          sampleRepo "b" false false false 0 (utcMidnight 0) ["go"] ]
        (testOptions 0 ["go", "cli"] true)).map (fun r => r.Name)
      = ["a"] := by decide

theorem test_SortByNameWhenAllElseEqual :
    (SortRepos asciiLower
        [ sampleRepo "charlie" false false false 10 (utcMidnight 739251) [],
          sampleRepo "alpha" false false false 10 (utcMidnight 739251) [],
          sampleRepo "bravo" false false false 10 (utcMidnight 739251) [] ]).map
        (fun r => r.Name)
      = ["alpha", "bravo", "charlie"] := by decide

theorem test_SortByStarsPrimary :
    (SortReposBy asciiLower
        [ sampleRepo "newer-low" false false false 5 (utcMidnight 739252) [],
          sampleRepo "older-high" false false false 50 (utcMidnight 739220) [],
          sampleRepo "mid-mid" false false false 20 (utcMidnight 739251) [] ]
        "stars").map (fun r => r.Name)
      = ["older-high", "mid-mid", "newer-low"] := by decide

theorem test_RenderMarkdownFull :
    RenderMarkdown asciiLower parsePlainURL [awesomeRepo] "CURRENT PROJECTS"
      = "<!-- BEGIN CURRENT PROJECTS -->\n## Current Projects\n\n"
          ++ "- [awesome](https://github.com/u/awesome) (Go) - An awesome project\n"
          ++ "<!-- END CURRENT PROJECTS -->\n" := by decide

theorem test_RenderMarkdownEscapesUserControlledFields :
    formatRepoLine asciiLower parsePlainURL escapedRepo
      = "- [x\\]\\(javascript:alert\\(1\\)\\)](https://github.com/u/repo%28with%29paren)"
          ++ " (Go) - line1 &lt;script&gt;alert\\(1\\)&lt;/script&gt;" := by
  decide

theorem test_RenderMarkdownRejectsNonHTTPLinkScheme :
    formatRepoLine asciiLower parsePlainURL badLinkRepo = "- bad-link - desc" := by
  decide

set_option maxRecDepth 100000 in
theorem test_RenderJSON :
    RenderJSON (Slice.elems [jsonTestRepo])
      = Except.ok ("[\n  \x7b\n    \"name\": \"test\",\n"
          ++ "    \"html_url\": \"https://github.com/u/test\",\n"
          ++ "    \"description\": \"desc\",\n    \"language\": \"Go\",\n"
          ++ "    \"pushed_at\": \"2025-01-15T10:00:00Z\",\n"
          ++ "    \"stargazers_count\": 42\n  \x7d\n]\n") := by decide

theorem test_RenderJSONEmpty :
    RenderJSON (Slice.elems []) = Except.ok "[]\n" := by decide

set_option maxRecDepth 100000 in
theorem test_PatchREADMENormal :
    PatchREADME normalDoc normalSection "CURRENT PROJECTS" false
      = ({ Content := "# Profile\n\n<!-- BEGIN CURRENT PROJECTS -->\n## Current Projects\n\n"
              ++ "- [new](https://github.com/u/new) (Rust) - New project\n"
              ++ "<!-- END CURRENT PROJECTS -->\n\n## About\n",
           Patched := true }, none) := by decide

set_option maxRecDepth 100000 in
theorem test_PatchREADMEOnlyBeginMarker :
    PatchREADME onlyBeginDoc "new\n" "CURRENT PROJECTS" false
      = ({ Content := "", Patched := false },
          some (PatchError.markersInconsistent "CURRENT PROJECTS")) := by decide

set_option maxRecDepth 100000 in
theorem test_PatchREADMEOnlyEndMarker :
    PatchREADME onlyEndDoc "new\n" "CURRENT PROJECTS" false
      = ({ Content := "", Patched := false },
          some (PatchError.markersInconsistent "CURRENT PROJECTS")) := by decide

set_option maxRecDepth 100000 in
theorem test_PatchREADMEReversedMarkers :
    PatchREADME reversedDoc "new\n" "CURRENT PROJECTS" false
      = ({ Content := "", Patched := false },
          some (PatchError.endBeforeBegin "CURRENT PROJECTS")) := by decide

set_option maxRecDepth 100000 in
theorem test_PatchREADMECRLF :
    PatchREADME crlfDoc crlfTestSection "CURRENT PROJECTS" false
      = ({ Content := "# Profile\r\n\r\n<!-- BEGIN CURRENT PROJECTS -->\r\n"
              ++ "## Current Projects\r\n\r\n- [repo](url)\r\n"
              ++ "<!-- END CURRENT PROJECTS -->\r\n\r\n## About\r\n",
           Patched := true }, none) := by decide

set_option maxRecDepth 100000 in
theorem test_PatchREADMEPreservesLF :
    PatchREADME lfDoc projectsSection "CURRENT PROJECTS" false
      = ({ Content := "# Profile\n\n<!-- BEGIN CURRENT PROJECTS -->\n## Current Projects\n"
              ++ "<!-- END CURRENT PROJECTS -->\n\n## About\n",
           Patched := true }, none) := by decide

set_option maxRecDepth 100000 in
theorem test_ParseNextLink :
    ParseNextLink standardHeader = "https://api.github.com/user/repos?page=2"
      ∧ ParseNextLink "<https://api.github.com/user/repos?page=5>; rel=\"last\"" = ""
      ∧ ParseNextLink "" = ""
      ∧ ParseNextLink "<https://api.github.com/user/repos?page=3>; rel=\"next\""
          = "https://api.github.com/user/repos?page=3"
      ∧ ParseNextLink mixedHeader = "https://api.github.com/user/repos?page=3" := by
  decide

set_option maxRecDepth 100000 in
theorem test_mixedEntries :
    Join (mixedEntries.map renderEntry) ", " = mixedHeader
      ∧ mixedEntries.all entryWellFormed = true
      ∧ FindStringSubmatch mixedHeader.data
          = ["<https://api.github.com/user/repos?page=3>;  rel=\"next\"",
             "https://api.github.com/user/repos?page=3"] := by
  decide

set_option maxRecDepth 100000 in
theorem test_FetchAllReposPaginated :
    FetchAllRepos (fun _ => none) tableDecode testClient "testuser"
        [pageAnswer firstPage, pageAnswer secondPage]
      = some { repos := [publicRepo, cutoffRepo, awesomeRepo], err := none,
               sent := [newRequest testClient
                          "http://127.0.0.1:8080/users/testuser/repos?type=owner&per_page=100&page=1",
                        newRequest testClient
                          "http://127.0.0.1:8080/users/testuser/repos?type=owner&per_page=100&page=2"] } := by
  decide

set_option maxRecDepth 100000 in
theorem test_FetchAllReposAuthHeader :
    (FetchAllRepos (fun _ => none) tableDecode testClient "testuser"
        [DoResult.response 200 "[]" ""]).map (fun r => (r.repos, r.err, r.sent.map (fun q => q.Authorization)))
      = some ([], none, [some "Bearer my-secret-token"])
      ∧ (FetchAllRepos (fun _ => none) tableDecode { BaseURL := "http://127.0.0.1:8080", Token := "" }
          "testuser" [DoResult.response 200 "[]" ""]).map
            (fun r => (r.repos, r.err, r.sent.map (fun q => q.Authorization)))
        = some ([], none, [none]) := by
  decide

set_option maxRecDepth 100000 in
theorem test_FetchAllReposAPIError :
    FetchAllRepos (fun _ => none) tableDecode { BaseURL := "http://127.0.0.1:8080", Token := "" }
        "testuser" [DoResult.response 404 "\x7b\"message\":\"Not Found\"\x7d" ""]
      = some { repos := [],
               err := some "GitHub API returned status 404: \x7b\"message\":\"Not Found\"\x7d",
               sent := [newRequest { BaseURL := "http://127.0.0.1:8080", Token := "" }
                          "http://127.0.0.1:8080/users/testuser/repos?type=owner&per_page=100&page=1"] } := by
  decide

set_option maxRecDepth 100000 in
theorem test_ParseArgsReadmeWithJSON :
    ValidateOptions asciiLower parseBaseURL
        { defaultOptions with User := "u", ReadmePath := "README.md", Format := "json" } ""
      = some { Err := "--readme cannot be used with --format json" } := by decide

set_option maxRecDepth 100000 in
theorem test_ParseArgsInsecureBaseURLWithToken :
    ValidateOptions asciiLower parseBaseURL
        { defaultOptions with User := "u", Token := "t", BaseURL := "http://example.com" } "t"
      = some { Err := "--base-url must use https when a token is set "
                ++ "(http is allowed only for localhost)" } := by decide

set_option maxRecDepth 100000 in
theorem test_ValidateOptionsAllowsLocalhostHTTP :
    ValidateOptions asciiLower parseBaseURL
        { defaultOptions with User := "u", BaseURL := "http://localhost:8080" } "token"
      = none := by decide

set_option maxRecDepth 100000 in
theorem test_isSecureBaseURL :
    isSecureBaseURL asciiLower parseBaseURL "https://api.github.com" = true
      ∧ isSecureBaseURL asciiLower parseBaseURL "HTTPS://api.github.com" = true
      ∧ isSecureBaseURL asciiLower parseBaseURL "http://example.com" = false
      ∧ isSecureBaseURL asciiLower parseBaseURL "http://127.0.0.1:8080" = true
      ∧ isSecureBaseURL asciiLower parseBaseURL "http://[::1]:8080" = true
      ∧ isSecureBaseURL asciiLower parseBaseURL "api.github.com" = false
      ∧ isSecureBaseURL asciiLower parseBaseURL "ftp://localhost" = false := by decide

/-! ## Lemmas on the filter -/

theorem foldl_skip_eq_filter {α : Type} (p : α → Bool) (l init : List α) :
    l.foldl (fun result r => if p r then result else result ++ [r]) init
      = init ++ l.filter (fun r => !p r) := by
  induction l generalizing init with
  | nil => simp
  | cons a t ih =>
    simp only [List.foldl_cons, List.filter_cons]
    by_cases h : p a = true
    · simp [h, ih]
    · simp [h, ih]

theorem FilterRepos_eq_filter (lower : Char → Char)
    (addDate : Time → Int → Time) (wall : Time)
    (repos : List Repository) (opts : FilterOptions) :
    FilterRepos lower addDate wall repos opts
      = repos.filter
          (fun r => !skips lower addDate (referenceTime wall opts) opts r) := by
  simp [FilterRepos, foldl_skip_eq_filter]

theorem skips_eq_false_iff (lower : Char → Char) (addDate : Time → Int → Time)
    (now : Time) (opts : FilterOptions) (r : Repository) :
    skips lower addDate now opts r = false
      ↔ passesOtherChecks lower opts r ∧ passesCutoffCheck addDate now opts r := by
  unfold skips passesOtherChecks passesCutoffCheck
  simp only [Time.Before]
  simp
  simp only [imp_iff_not_or, Bool.not_eq_true, not_lt, List.length_pos, ne_eq,
    not_not, and_assoc]

theorem mem_FilterRepos_iff (lower : Char → Char) (addDate : Time → Int → Time)
    (wall : Time) (repos : List Repository) (opts : FilterOptions)
    (r : Repository) :
    r ∈ FilterRepos lower addDate wall repos opts
      ↔ r ∈ repos ∧ passesOtherChecks lower opts r
          ∧ passesCutoffCheck addDate (referenceTime wall opts) opts r := by
  rw [FilterRepos_eq_filter, List.mem_filter, ← skips_eq_false_iff]
  simp

theorem wrapInt64_of_inRange (x : Int) (hlo : -9223372036854775808 ≤ x)
    (hhi : x < 9223372036854775808) : Time.wrapInt64 x = x := by
  unfold Time.wrapInt64
  omega

theorem AddDate_nanos_of_inRange (t : Time) (days : Int)
    (hlo : -9223372036854775808 ≤ t.nanos / 1000000000 + days * 86400)
    (hhi : t.nanos / 1000000000 + days * 86400 < 9223372036854775808) :
    (Time.AddDate t days).nanos = t.nanos + days * 86400000000000 := by
  unfold Time.AddDate
  simp only
  rw [wrapInt64_of_inRange _ hlo hhi]
  omega

theorem passesCutoffCheck_iff_of_exact (addDate : Time → Int → Time) (now : Time)
    (opts : FilterOptions) (r : Repository)
    (hexact : 0 < opts.SinceDays →
      (addDate now (-opts.SinceDays)).nanos
        = now.nanos - opts.SinceDays * 86400000000000) :
    passesCutoffCheck addDate now opts r ↔ passesRecencyCheck now opts r := by
  unfold passesCutoffCheck passesRecencyCheck
  by_cases hpos : 0 < opts.SinceDays
  · rw [hexact hpos]
    constructor
    · rintro (h | h)
      · exact Or.inl h
      · exact Or.inr (by omega)
    · rintro (h | h)
      · exact Or.inl h
      · exact Or.inr (by omega)
  · constructor
    · intro _
      exact Or.inl (by omega)
    · intro _
      exact Or.inl (by omega)

theorem dropWhile_eq_nil_of_all {α : Type} (p : α → Bool) (l : List α)
    (h : ∀ a ∈ l, p a = true) : l.dropWhile p = [] := by
  induction l with
  | nil => rfl
  | cons a t ih =>
    have ha : p a = true := h a (List.mem_cons_self a t)
    simp only [List.dropWhile_cons, ha, if_true]
    exact ih (fun b hb => h b (List.mem_cons_of_mem a hb))

theorem TrimSpace_blank (s : String) (h : ∀ c ∈ s.data, isSpace c = true) :
    TrimSpace s = "" := by
  unfold TrimSpace
  rw [dropWhile_eq_nil_of_all isSpace s.data h]
  rfl

theorem ToLower_empty (lower : Char → Char) : ToLower lower "" = "" := rfl

theorem matchLoop_blank (lower : Char → Char) (set : List String)
    (matchAll : Bool) (tags : List String)
    (h : ∀ t ∈ tags, ∀ c ∈ t.data, isSpace c = true) :
    matchLoop lower set matchAll tags 0 = false := by
  induction tags with
  | nil => cases matchAll <;> simp [matchLoop]
  | cons t rest ih =>
    have ht : TrimSpace t = "" := TrimSpace_blank t (h t (List.mem_cons_self t rest))
    simp only [matchLoop, ht, ToLower_empty, if_true]
    exact ih (fun u hu => h u (List.mem_cons_of_mem t hu))

theorem matchTopics_blank (lower : Char → Char) (topics tags : List String)
    (matchAll : Bool) (h : ∀ t ∈ tags, ∀ c ∈ t.data, isSpace c = true) :
    matchTopics lower topics tags matchAll = false := by
  unfold matchTopics
  split
  · rfl
  · split
    · rfl
    · exact matchLoop_blank lower _ matchAll tags h

theorem mem_topicSet (lower : Char → Char) (topics : List String) (x : String) :
    x ∈ topicSet lower topics
      ↔ x ≠ "" ∧ ∃ t ∈ topics, ToLower lower (TrimSpace t) = x := by
  induction topics with
  | nil => simp [topicSet]
  | cons t rest ih =>
    simp only [topicSet]
    by_cases h : ToLower lower (TrimSpace t) = ""
    · rw [if_pos h, ih]
      constructor
      · rintro ⟨hx, u, hu, rfl⟩
        exact ⟨hx, u, List.mem_cons_of_mem t hu, rfl⟩
      · rintro ⟨hx, u, hu, rfl⟩
        rcases List.mem_cons.mp hu with rfl | hu
        · exact absurd h hx
        · exact ⟨hx, u, hu, rfl⟩
    · rw [if_neg h, List.mem_cons, ih]
      constructor
      · rintro (rfl | ⟨hx, u, hu, rfl⟩)
        · exact ⟨h, t, List.mem_cons_self t rest, rfl⟩
        · exact ⟨hx, u, List.mem_cons_of_mem t hu, rfl⟩
      · rintro ⟨hx, u, hu, rfl⟩
        rcases List.mem_cons.mp hu with rfl | hu
        · exact Or.inl rfl
        · exact Or.inr ⟨hx, u, hu, rfl⟩

theorem matchLoop_any_iff (lower : Char → Char) (set tags : List String) (hits : Nat) :
    matchLoop lower set false tags hits = true
      ↔ ∃ tag ∈ tags, ToLower lower (TrimSpace tag) ≠ ""
          ∧ ToLower lower (TrimSpace tag) ∈ set := by
  induction tags generalizing hits with
  | nil => simp [matchLoop]
  | cons t rest ih =>
    simp only [matchLoop]
    by_cases h : ToLower lower (TrimSpace t) = ""
    · rw [if_pos h, ih]
      simp [h]
    · rw [if_neg h]
      by_cases hm : ToLower lower (TrimSpace t) ∈ set
      · simp [hm, h]
      · simp [hm, h, ih]

theorem matchLoop_all_iff (lower : Char → Char) (set tags : List String) (hits : Nat) :
    matchLoop lower set true tags hits = true
      ↔ (∀ tag ∈ tags, ToLower lower (TrimSpace tag) ≠ ""
            → ToLower lower (TrimSpace tag) ∈ set)
          ∧ (0 < hits ∨ ∃ tag ∈ tags, ToLower lower (TrimSpace tag) ≠ "") := by
  induction tags generalizing hits with
  | nil => simp [matchLoop]
  | cons t rest ih =>
    simp only [matchLoop]
    by_cases h : ToLower lower (TrimSpace t) = ""
    · rw [if_pos h, ih]
      simp [h]
    · rw [if_neg h]
      by_cases hm : ToLower lower (TrimSpace t) ∈ set
      · simp [hm, h, ih]
      · simp [hm, h]

theorem topicSet_ne_nil_iff (lower : Char → Char) (topics : List String) :
    topicSet lower topics ≠ [] ↔ ∃ t ∈ topics, ToLower lower (TrimSpace t) ≠ "" := by
  constructor
  · intro h
    obtain ⟨x, hx⟩ := List.exists_mem_of_ne_nil _ h
    obtain ⟨hne, t, ht, rfl⟩ := (mem_topicSet lower topics x).mp hx
    exact ⟨t, ht, hne⟩
  · rintro ⟨t, ht, hne⟩ hnil
    have : ToLower lower (TrimSpace t) ∈ topicSet lower topics :=
      (mem_topicSet lower topics _).mpr ⟨hne, t, ht, rfl⟩
    rw [hnil] at this
    exact List.not_mem_nil _ this

theorem matchTopics_eq_matchLoop (lower : Char → Char) (topics tags : List String)
    (matchAll : Bool) (h : topicSet lower topics ≠ []) :
    matchTopics lower topics tags matchAll
      = matchLoop lower (topicSet lower topics) matchAll tags 0 := by
  have h1 : topics ≠ [] := by
    rintro rfl
    exact h rfl
  unfold matchTopics
  rw [if_neg (by simpa using h1), if_neg (by simpa using h)]

theorem matchTopics_no_topics (lower : Char → Char) (topics tags : List String)
    (matchAll : Bool) (h : topicSet lower topics = []) :
    matchTopics lower topics tags matchAll = false := by
  unfold matchTopics
  split
  · rfl
  · rw [if_pos (by simp [h])]

/-! ## Lemmas on the insertion sort -/

theorem sink_perm {α : Type} (lt : α → α → Bool) (x : α) (l : List α) :
    List.Perm (sink lt x l) (x :: l) := by
  induction l with
  | nil => exact List.Perm.refl _
  | cons y front ih =>
    simp only [sink]
    split
    · exact ((List.Perm.cons y ih).trans (List.Perm.swap x y front))
    · exact List.Perm.refl _

theorem foldl_sink_perm {α : Type} (lt : α → α → Bool) (l acc : List α) :
    List.Perm (l.foldl (fun sorted x => sink lt x sorted) acc) (l.reverse ++ acc) := by
  induction l generalizing acc with
  | nil => simp
  | cons a t ih =>
    simp only [List.foldl_cons, List.reverse_cons, List.append_assoc, List.singleton_append]
    exact (ih (sink lt a acc)).trans (List.Perm.append_left _ (sink_perm lt a acc))

theorem SliceStable_perm {α : Type} (lt : α → α → Bool) (l : List α) :
    List.Perm (SliceStable lt l) l := by
  unfold SliceStable
  refine (List.reverse_perm _).trans ?_
  have h := foldl_sink_perm lt l []
  rw [List.append_nil] at h
  exact h.trans (List.reverse_perm l)

theorem sink_pairwise {α : Type} (lt : α → α → Bool)
    (hasymm : ∀ a b, lt a b = true → lt b a = false)
    (htrans : ∀ a b c, lt a b = false → lt b c = false → lt a c = false)
    (x : α) (l : List α) (hl : l.Pairwise (fun a b => lt a b = false)) :
    (sink lt x l).Pairwise (fun a b => lt a b = false) := by
  induction l with
  | nil => simp [sink]
  | cons y front ih =>
    rw [List.pairwise_cons] at hl
    simp only [sink]
    by_cases hxy : lt x y = true
    · rw [if_pos hxy, List.pairwise_cons]
      refine ⟨?_, ih hl.2⟩
      intro z hz
      rcases List.mem_cons.mp ((sink_perm lt x front).subset hz) with rfl | hz
      · exact hasymm _ _ hxy
      · exact hl.1 z hz
    · rw [if_neg hxy]
      have hxy' : lt x y = false := by simpa using hxy
      rw [List.pairwise_cons, List.pairwise_cons]
      refine ⟨?_, hl⟩
      intro z hz
      rcases List.mem_cons.mp hz with rfl | hz
      · exact hxy'
      · exact htrans x y z hxy' (hl.1 z hz)

theorem foldl_sink_pairwise {α : Type} (lt : α → α → Bool)
    (hasymm : ∀ a b, lt a b = true → lt b a = false)
    (htrans : ∀ a b c, lt a b = false → lt b c = false → lt a c = false)
    (l acc : List α) (hacc : acc.Pairwise (fun a b => lt a b = false)) :
    (l.foldl (fun sorted x => sink lt x sorted) acc).Pairwise
      (fun a b => lt a b = false) := by
  induction l generalizing acc with
  | nil => exact hacc
  | cons a t ih => exact ih _ (sink_pairwise lt hasymm htrans a acc hacc)

theorem SliceStable_pairwise {α : Type} (lt : α → α → Bool)
    (hasymm : ∀ a b, lt a b = true → lt b a = false)
    (htrans : ∀ a b c, lt a b = false → lt b c = false → lt a c = false)
    (l : List α) :
    (SliceStable lt l).Pairwise (fun a b => lt b a = false) := by
  unfold SliceStable
  rw [List.pairwise_reverse]
  exact foldl_sink_pairwise lt hasymm htrans l [] List.Pairwise.nil

theorem sink_filter {α : Type} (lt : α → α → Bool) (p : α → Bool)
    (hp : ∀ a b, p a = true → p b = true → lt a b = false)
    (x : α) (l : List α) :
    (sink lt x l).filter p = (x :: l).filter p := by
  induction l with
  | nil => simp [sink]
  | cons y front ih =>
    simp only [sink]
    by_cases hxy : lt x y = true
    · rw [if_pos hxy, List.filter_cons, ih]
      by_cases hx : p x = true
      · have hy : p y = false := by
          cases hpy : p y
          · rfl
          · rw [hp x y hx hpy] at hxy
            exact absurd hxy Bool.false_ne_true
        simp [List.filter_cons, hx, hy]
      · simp [List.filter_cons, hx]
    · rw [if_neg hxy]

theorem foldl_sink_filter {α : Type} (lt : α → α → Bool) (p : α → Bool)
    (hp : ∀ a b, p a = true → p b = true → lt a b = false)
    (l acc : List α) :
    (l.foldl (fun sorted x => sink lt x sorted) acc).filter p
      = (l.filter p).reverse ++ acc.filter p := by
  induction l generalizing acc with
  | nil => simp
  | cons a t ih =>
    rw [List.foldl_cons, ih, sink_filter lt p hp]
    by_cases ha : p a = true
    · simp [List.filter_cons, ha]
    · simp [List.filter_cons, ha]

theorem SliceStable_filter {α : Type} (lt : α → α → Bool) (p : α → Bool)
    (hp : ∀ a b, p a = true → p b = true → lt a b = false) (l : List α) :
    (SliceStable lt l).filter p = l.filter p := by
  unfold SliceStable
  rw [List.filter_reverse, foldl_sink_filter lt p hp]
  simp

/-! ### The stable sorted arrangement is unique

Whatever algorithm the library runs, a result that is sorted and keeps tied
elements in input order is the result of `SliceStable`. -/

theorem filter_tie_cons_self {α : Type} (lt : α → α → Bool)
    (hirr : ∀ a, lt a a = false) (a : α) (t : List α) :
    (a :: t).filter (tie lt a) = a :: t.filter (tie lt a) := by
  simp [List.filter_cons, tie, hirr a]

theorem stable_sorted_unique {α : Type} (lt : α → α → Bool)
    (hirr : ∀ a, lt a a = false) (out1 out2 : List α)
    (h1 : out1.Pairwise (fun a b => lt b a = false))
    (h2 : out2.Pairwise (fun a b => lt b a = false))
    (hf : ∀ r, out1.filter (tie lt r) = out2.filter (tie lt r)) :
    out1 = out2 := by
  induction out1 generalizing out2 with
  | nil =>
    cases out2 with
    | nil => rfl
    | cons b t2 =>
      have h := hf b
      rw [filter_tie_cons_self lt hirr] at h
      simp at h
  | cons a t1 ih =>
    cases out2 with
    | nil =>
      have h := hf a
      rw [filter_tie_cons_self lt hirr] at h
      simp at h
    | cons b t2 =>
      rw [List.pairwise_cons] at h1 h2
      have ha : a ∈ b :: t2 := by
        have h := hf a
        rw [filter_tie_cons_self lt hirr] at h
        have hm : a ∈ (b :: t2).filter (tie lt a) := by
          rw [← h]
          exact List.mem_cons_self _ _
        exact (List.mem_filter.mp hm).1
      have hb : b ∈ a :: t1 := by
        have h := hf b
        rw [filter_tie_cons_self lt hirr b t2] at h
        have hm : b ∈ (a :: t1).filter (tie lt b) := by
          rw [h]
          exact List.mem_cons_self _ _
        exact (List.mem_filter.mp hm).1
      have hba : lt b a = false := by
        rcases List.mem_cons.mp hb with rfl | hb
        · exact hirr _
        · exact h1.1 b hb
      have hab : lt a b = false := by
        rcases List.mem_cons.mp ha with rfl | ha
        · exact hirr _
        · exact h2.1 a ha
      have heq : a = b := by
        have h := hf a
        rw [filter_tie_cons_self lt hirr] at h
        have hb' : tie lt a b = true := by simp [tie, hab, hba]
        rw [List.filter_cons, if_pos hb'] at h
        exact (List.cons.inj h).1
      subst heq
      congr 1
      apply ih t2 h1.2 h2.2
      intro r
      have h := hf r
      rw [List.filter_cons, List.filter_cons] at h
      by_cases hr : tie lt r a = true
      · rw [if_pos hr, if_pos hr] at h
        exact (List.cons.inj h).2
      · rw [if_neg hr, if_neg hr] at h
        exact h

theorem SliceStable_unique {α : Type} (lt : α → α → Bool)
    (hasymm : ∀ a b, lt a b = true → lt b a = false)
    (htrans : ∀ a b c, lt a b = false → lt b c = false → lt a c = false)
    (data out : List α)
    (hsorted : out.Pairwise (fun a b => lt b a = false))
    (hstable : ∀ r, out.filter (tie lt r) = data.filter (tie lt r)) :
    out = SliceStable lt data := by
  have hirr : ∀ a, lt a a = false := by
    intro a
    cases h : lt a a
    · rfl
    · rw [hasymm a a h] at h
      exact absurd h Bool.false_ne_true
  apply stable_sorted_unique lt hirr out _ hsorted
    (SliceStable_pairwise lt hasymm htrans data)
  intro r
  rw [hstable r]
  symm
  apply SliceStable_filter
  intro a b ha hb
  simp only [tie, Bool.and_eq_true, Bool.not_eq_true'] at ha hb
  exact htrans a r b ha.2 hb.1

/-! ## Lemmas on the comparison of `SortReposBy` -/

theorem less_eq_false_iff (lower : Char → Char) (mode : String) (a b : Repository) :
    less lower mode b a = false ↔ ranksNotAfter lower mode a b := by
  unfold less ranksNotAfter
  simp only [Time.Equal, Time.After]
  by_cases hm : mode = "stars"
  · simp only [hm, if_true]
    by_cases hs : b.StargazersCount = a.StargazersCount
    · by_cases hp : b.PushedAt.nanos = a.PushedAt.nanos
      · simp [hs, hp]
      · simp [hs, hp]
        omega
    · simp [hs]
      omega
  · simp only [hm, if_false]
    by_cases hp : b.PushedAt.nanos = a.PushedAt.nanos
    · by_cases hs : b.StargazersCount = a.StargazersCount
      · simp [hs, hp]
      · simp [hs, hp]
        omega
    · simp [hp]
      omega

theorem ranksNotAfter_total (lower : Char → Char) (mode : String) (a b : Repository) :
    ranksNotAfter lower mode a b ∨ ranksNotAfter lower mode b a := by
  unfold ranksNotAfter
  have hn := le_total (ToLower lower a.Name).data (ToLower lower b.Name).data
  by_cases hm : mode = "stars"
  · simp only [hm, if_true]
    rcases lt_trichotomy a.StargazersCount b.StargazersCount with h | h | h
    · exact Or.inr (Or.inl h)
    · rcases lt_trichotomy a.PushedAt.nanos b.PushedAt.nanos with h2 | h2 | h2
      · exact Or.inr (Or.inr ⟨h.symm, Or.inl h2⟩)
      · rcases hn with h3 | h3
        · exact Or.inl (Or.inr ⟨h, Or.inr ⟨h2, h3⟩⟩)
        · exact Or.inr (Or.inr ⟨h.symm, Or.inr ⟨h2.symm, h3⟩⟩)
      · exact Or.inl (Or.inr ⟨h, Or.inl h2⟩)
    · exact Or.inl (Or.inl h)
  · simp only [hm, if_false]
    rcases lt_trichotomy a.PushedAt.nanos b.PushedAt.nanos with h | h | h
    · exact Or.inr (Or.inl h)
    · rcases lt_trichotomy a.StargazersCount b.StargazersCount with h2 | h2 | h2
      · exact Or.inr (Or.inr ⟨h.symm, Or.inl h2⟩)
      · rcases hn with h3 | h3
        · exact Or.inl (Or.inr ⟨h, Or.inr ⟨h2, h3⟩⟩)
        · exact Or.inr (Or.inr ⟨h.symm, Or.inr ⟨h2.symm, h3⟩⟩)
      · exact Or.inl (Or.inr ⟨h, Or.inl h2⟩)
    · exact Or.inl (Or.inl h)

theorem lex3_trans {x1 x2 x3 y1 y2 y3 : Int} {n1 n2 n3 : List Char}
    (h12 : x2 < x1 ∨ (x1 = x2 ∧ (y2 < y1 ∨ (y1 = y2 ∧ n1 ≤ n2))))
    (h23 : x3 < x2 ∨ (x2 = x3 ∧ (y3 < y2 ∨ (y2 = y3 ∧ n2 ≤ n3)))) :
    x3 < x1 ∨ (x1 = x3 ∧ (y3 < y1 ∨ (y1 = y3 ∧ n1 ≤ n3))) := by
  rcases h12 with h | ⟨e, h | ⟨e2, hn⟩⟩ <;> rcases h23 with k | ⟨f, k | ⟨f2, kn⟩⟩
  · exact Or.inl (by omega)
  · exact Or.inl (by omega)
  · exact Or.inl (by omega)
  · exact Or.inl (by omega)
  · exact Or.inr ⟨by omega, Or.inl (by omega)⟩
  · exact Or.inr ⟨by omega, Or.inl (by omega)⟩
  · exact Or.inl (by omega)
  · exact Or.inr ⟨by omega, Or.inl (by omega)⟩
  · exact Or.inr ⟨by omega, Or.inr ⟨by omega, le_trans hn kn⟩⟩

theorem ranksNotAfter_trans (lower : Char → Char) (mode : String) (a b c : Repository)
    (hab : ranksNotAfter lower mode a b) (hbc : ranksNotAfter lower mode b c) :
    ranksNotAfter lower mode a c := by
  unfold ranksNotAfter at *
  by_cases hm : mode = "stars"
  · simp only [hm, if_true] at *
    exact lex3_trans hab hbc
  · simp only [hm, if_false] at *
    exact lex3_trans hab hbc

theorem less_asymm (lower : Char → Char) (mode : String) (a b : Repository)
    (h : less lower mode a b = true) : less lower mode b a = false := by
  rcases ranksNotAfter_total lower mode a b with t | t
  · exact (less_eq_false_iff lower mode a b).mpr t
  · rw [(less_eq_false_iff lower mode b a).mpr t] at h
    exact absurd h Bool.false_ne_true

theorem less_neg_trans (lower : Char → Char) (mode : String) (a b c : Repository)
    (hab : less lower mode a b = false) (hbc : less lower mode b c = false) :
    less lower mode a c = false := by
  rw [less_eq_false_iff] at *
  exact ranksNotAfter_trans lower mode c b a hbc hab

theorem sameKeys_iff (lower : Char → Char) (r a : Repository) :
    sameKeys lower r a = true
      ↔ r.PushedAt.nanos = a.PushedAt.nanos
          ∧ r.StargazersCount = a.StargazersCount
          ∧ ToLower lower r.Name = ToLower lower a.Name := by
  simp [sameKeys, Time.Equal, and_assoc]

theorem less_of_sameKeys (lower : Char → Char) (mode : String) (r a b : Repository)
    (ha : sameKeys lower r a = true) (hb : sameKeys lower r b = true) :
    less lower mode a b = false := by
  rw [sameKeys_iff] at ha hb
  rw [less_eq_false_iff]
  have hn : (ToLower lower b.Name).data ≤ (ToLower lower a.Name).data := by
    rw [← hb.2.2, ← ha.2.2]
  unfold ranksNotAfter
  by_cases hm : mode = "stars"
  · simp only [hm, if_true]
    exact Or.inr ⟨by omega, Or.inr ⟨by omega, hn⟩⟩
  · simp only [hm, if_false]
    exact Or.inr ⟨by omega, Or.inr ⟨by omega, hn⟩⟩

theorem SortReposBy_ranked (lower : Char → Char) (repos : List Repository)
    (mode : String) :
    List.Pairwise (ranksNotAfter lower mode) (SortReposBy lower repos mode) := by
  have h := SliceStable_pairwise (less lower mode) (less_asymm lower mode)
    (less_neg_trans lower mode) repos
  exact h.imp (fun hab => (less_eq_false_iff lower mode _ _).mp hab)

theorem lower_name_lt_of_tie (lower : Char → Char) (mode : String)
    (a b : Repository) (h : ranksNotAfter lower mode a b)
    (hp : a.PushedAt.nanos = b.PushedAt.nanos)
    (hs : a.StargazersCount = b.StargazersCount)
    (hn : ToLower lower a.Name ≠ ToLower lower b.Name) :
    (ToLower lower a.Name).data < (ToLower lower b.Name).data := by
  have hle : (ToLower lower a.Name).data ≤ (ToLower lower b.Name).data := by
    unfold ranksNotAfter at h
    by_cases hm : mode = "stars"
    · simp only [hm, if_true] at h
      rcases h with h | ⟨_, h | ⟨_, h⟩⟩
      · omega
      · omega
      · exact h
    · simp only [hm, if_false] at h
      rcases h with h | ⟨_, h | ⟨_, h⟩⟩
      · omega
      · omega
      · exact h
  refine lt_of_le_of_ne hle (fun hd => hn ?_)
  exact congrArg String.mk hd

/-! ## The filter stage: claims -/

/-- C1: whatever the record list and the options, no record in the output of
`FilterRepos` is private. -/
theorem FilterRepos_never_private (lower : Char → Char)
    (addDate : Time → Int → Time) (wall : Time)
    (repos : List Repository) (opts : FilterOptions) :
    ∀ r ∈ FilterRepos lower addDate wall repos opts, r.Private = false := by
  intro r hr
  exact ((mem_FilterRepos_iff lower addDate wall repos opts r).mp hr).2.1.1

/-- C1, at the fixture: `public-repo` is in the output for the default options
and it is not private. -/
theorem FilterRepos_never_private_witness :
    publicRepo ∈ FilterRepos asciiLower Time.AddDate (utcMidnight 739270) makeRepos
        (testOptions 0 [] false)
      ∧ publicRepo.Private = false :=
  ⟨by decide,
    FilterRepos_never_private asciiLower Time.AddDate (utcMidnight 739270) makeRepos
      (testOptions 0 [] false) publicRepo (by decide)⟩

/-- C2: the output of `FilterRepos` is a subsequence of its input: only input
records, none more often than in the input, in the same relative order. -/
theorem FilterRepos_sublist (lower : Char → Char)
    (addDate : Time → Int → Time) (wall : Time)
    (repos : List Repository) (opts : FilterOptions) :
    List.Sublist (FilterRepos lower addDate wall repos opts) repos := by
  rw [FilterRepos_eq_filter]
  exact List.filter_sublist repos

/-- The output of `FilterRepos` is the input list filtered by the six checks
that do not look at `PushedAt` and the comparison of `PushedAt` with the
cutoff that `addDate` returns. -/
theorem FilterRepos_eq_filter_checks (lower : Char → Char)
    (addDate : Time → Int → Time) (wall : Time)
    (repos : List Repository) (opts : FilterOptions) :
    FilterRepos lower addDate wall repos opts
      = repos.filter
          (fun r => decide (passesOtherChecks lower opts r
            ∧ passesCutoffCheck addDate (referenceTime wall opts) opts r)) := by
  rw [FilterRepos_eq_filter]
  apply List.filter_congr
  intro r _
  by_cases h : passesOtherChecks lower opts r
      ∧ passesCutoffCheck addDate (referenceTime wall opts) opts r
  · simp only [h, and_self, decide_True, (skips_eq_false_iff lower addDate _ opts r).mpr h,
      Bool.not_false]
  · have hs : skips lower addDate (referenceTime wall opts) opts r = true := by
      cases hsk : skips lower addDate (referenceTime wall opts) opts r
      · exact absurd ((skips_eq_false_iff lower addDate _ opts r).mp hsk) h
      · rfl
    rw [hs, decide_eq_false h]
    rfl

/-- Where the cutoff that `addDate` returns for the reference time is that time
minus `SinceDays` days of 86400 seconds, `FilterRepos` is the input list
filtered by the conjunction of the seven checks of the specification. -/
theorem FilterRepos_eq_seven_checks_of_exact (lower : Char → Char)
    (addDate : Time → Int → Time) (wall : Time)
    (repos : List Repository) (opts : FilterOptions)
    (hexact : 0 < opts.SinceDays →
      (addDate (referenceTime wall opts) (-opts.SinceDays)).nanos
        = (referenceTime wall opts).nanos - opts.SinceDays * 86400000000000) :
    FilterRepos lower addDate wall repos opts
      = repos.filter
          (fun r => decide (passesAllChecks lower (referenceTime wall opts) opts r)) := by
  rw [FilterRepos_eq_filter_checks]
  apply List.filter_congr
  intro r _
  unfold passesAllChecks
  rw [decide_eq_decide]
  rw [passesCutoffCheck_iff_of_exact addDate (referenceTime wall opts) opts r hexact]

/-- In a location with a fixed offset, while the count of seconds of the cutoff
stays within 64 bits, `FilterRepos` is the input list filtered by the
conjunction of the seven checks of the specification. -/
theorem FilterRepos_eq_seven_checks_of_inRange (lower : Char → Char) (wall : Time)
    (repos : List Repository) (opts : FilterOptions)
    (hlo : -9223372036854775808
      ≤ (referenceTime wall opts).nanos / 1000000000 + -opts.SinceDays * 86400)
    (hhi : (referenceTime wall opts).nanos / 1000000000 + -opts.SinceDays * 86400
      < 9223372036854775808) :
    FilterRepos lower Time.AddDate wall repos opts
      = repos.filter
          (fun r => decide (passesAllChecks lower (referenceTime wall opts) opts r)) := by
  apply FilterRepos_eq_seven_checks_of_exact
  intro _
  rw [AddDate_nanos_of_inRange _ _ hlo hhi]
  omega

/-- Where the cutoff that `addDate` returns is the reference time minus
`SinceDays` days of 86400 seconds, a record of the input that passes the six
other checks is dropped for `SinceDays > 0` exactly when its `PushedAt` is
strictly before that cutoff, and kept when `SinceDays = 0`. -/
theorem FilterRepos_since_days_of_exact (lower : Char → Char)
    (addDate : Time → Int → Time) (wall : Time)
    (repos : List Repository) (opts : FilterOptions) (r : Repository)
    (hexact : 0 < opts.SinceDays →
      (addDate (referenceTime wall opts) (-opts.SinceDays)).nanos
        = (referenceTime wall opts).nanos - opts.SinceDays * 86400000000000)
    (hr : r ∈ repos) (hother : passesOtherChecks lower opts r) :
    (0 < opts.SinceDays →
        (r ∉ FilterRepos lower addDate wall repos opts
          ↔ r.PushedAt.nanos
              < (referenceTime wall opts).nanos - opts.SinceDays * 86400000000000))
      ∧ (0 < opts.SinceDays →
          r.PushedAt.nanos
              = (referenceTime wall opts).nanos - opts.SinceDays * 86400000000000 →
          r ∈ FilterRepos lower addDate wall repos opts)
      ∧ (opts.SinceDays = 0 → r ∈ FilterRepos lower addDate wall repos opts) := by
  have key := mem_FilterRepos_iff lower addDate wall repos opts r
  rw [passesCutoffCheck_iff_of_exact addDate (referenceTime wall opts) opts r hexact] at key
  simp only [passesRecencyCheck, hr, hother, true_and] at key
  refine ⟨fun hpos => ?_, fun hpos heq => ?_, fun hzero => ?_⟩
  · rw [key]
    constructor
    · intro h
      by_contra hlt
      exact h (Or.inr (by omega))
    · intro hlt h
      rcases h with h | h <;> omega
  · exact key.mpr (Or.inr (by omega))
  · exact key.mpr (Or.inl (by omega))

/-- At the fixture extended by a record pushed exactly thirty days before the
reference time: with `SinceDays = 30` that record is kept. -/
theorem FilterRepos_since_days_at_cutoff :
    cutoffRepo ∈ makeRepos ++ [cutoffRepo]
      ∧ passesOtherChecks asciiLower (testOptions 30 [] false) cutoffRepo
      ∧ cutoffRepo ∈ FilterRepos asciiLower Time.AddDate (utcMidnight 0)
          (makeRepos ++ [cutoffRepo]) (testOptions 30 [] false) :=
  ⟨by decide, by decide,
    (FilterRepos_since_days_of_exact asciiLower Time.AddDate (utcMidnight 0)
      (makeRepos ++ [cutoffRepo]) (testOptions 30 [] false) cutoffRepo
      (fun _ => by decide) (by decide) (by decide)).2.1
      (by decide) (by decide)⟩

set_option maxRecDepth 100000 in
/-- C3, at `SinceDays = 9223372036854775807` with the reference time
2025-01-20 00:00:00 UTC: of the fixture, `public-repo` and `low-star-repo`
pass the seven checks of the specification, both pushed long after the
reference time minus `SinceDays` days, but `FilterRepos` returns the empty
list. -/
theorem FilterRepos_seven_checks_wrap :
    (makeRepos.filter (fun r =>
        decide (passesAllChecks asciiLower wrapOptions.Now wrapOptions r))).map
          (fun r => r.Name)
        = ["public-repo", "low-star-repo"]
      ∧ referenceTime (utcMidnight 0) wrapOptions = wrapOptions.Now
      ∧ FilterRepos asciiLower Time.AddDate (utcMidnight 0) makeRepos wrapOptions
        = [] := by
  decide

set_option maxRecDepth 100000 in
/-- C4, at `SinceDays = 9223372036854775807` with the reference time
2025-01-20 00:00:00 UTC: `public-repo`, pushed on 2025-01-15, passes the six
other checks and is not before the reference time minus `SinceDays` days, yet
`FilterRepos` drops it: the count of seconds has wrapped, and the cutoff that
`AddDate` returns is 2025-01-21 00:00:00 UTC, one day after the reference
time. -/
theorem FilterRepos_since_days_wrap :
    0 < wrapOptions.SinceDays
      ∧ passesOtherChecks asciiLower wrapOptions publicRepo
      ∧ ¬ publicRepo.PushedAt.nanos
            < wrapOptions.Now.nanos - wrapOptions.SinceDays * 86400000000000
      ∧ Time.AddDate wrapOptions.Now (-wrapOptions.SinceDays) = utcMidnight 739271
      ∧ publicRepo ∉ FilterRepos asciiLower Time.AddDate (utcMidnight 0)
          [publicRepo] wrapOptions := by
  decide

/-- C5: in "any" mode `matchTopics` returns true exactly when some tag, trimmed
and lower-cased, is non-empty and equals some topic, trimmed and lower-cased;
a record whose topics are all blank, or that has none, never matches. -/
theorem matchTopics_any_iff (lower : Char → Char) (topics tags : List String) :
    (matchTopics lower topics tags false = true
        ↔ ∃ tag ∈ tags, ToLower lower (TrimSpace tag) ≠ ""
            ∧ ∃ topic ∈ topics,
                ToLower lower (TrimSpace tag) = ToLower lower (TrimSpace topic))
      ∧ ((∀ topic ∈ topics, ToLower lower (TrimSpace topic) = "")
          → matchTopics lower topics tags false = false) := by
  constructor
  · by_cases hset : topicSet lower topics = []
    · rw [matchTopics_no_topics lower topics tags false hset]
      constructor
      · intro h
        exact absurd h Bool.false_ne_true
      · rintro ⟨tag, _, hne, topic, htopic, heq⟩
        have : ToLower lower (TrimSpace tag) ∈ topicSet lower topics :=
          (mem_topicSet lower topics _).mpr ⟨hne, topic, htopic, heq.symm⟩
        rw [hset] at this
        exact absurd this (List.not_mem_nil _)
    · rw [matchTopics_eq_matchLoop lower topics tags false hset, matchLoop_any_iff]
      constructor
      · rintro ⟨tag, htag, hne, hmem⟩
        obtain ⟨_, topic, htopic, heq⟩ := (mem_topicSet lower topics _).mp hmem
        exact ⟨tag, htag, hne, topic, htopic, heq.symm⟩
      · rintro ⟨tag, htag, hne, topic, htopic, heq⟩
        exact ⟨tag, htag, hne, (mem_topicSet lower topics _).mpr ⟨hne, topic, htopic, heq.symm⟩⟩
  · intro hblank
    apply matchTopics_no_topics
    by_contra hset
    obtain ⟨t, ht, hne⟩ := (topicSet_ne_nil_iff lower topics).mp hset
    exact hne (hblank t ht)

/-- C6: in "all" mode `matchTopics` returns true exactly when some topic is
non-empty after trimming and lower-casing, some tag is non-empty after
trimming and lower-casing, and every such tag equals some normalized topic. -/
theorem matchTopics_all_iff (lower : Char → Char) (topics tags : List String) :
    matchTopics lower topics tags true = true
      ↔ (∃ topic ∈ topics, ToLower lower (TrimSpace topic) ≠ "")
          ∧ (∃ tag ∈ tags, ToLower lower (TrimSpace tag) ≠ "")
          ∧ ∀ tag ∈ tags, ToLower lower (TrimSpace tag) ≠ ""
              → ∃ topic ∈ topics,
                  ToLower lower (TrimSpace tag) = ToLower lower (TrimSpace topic) := by
  by_cases hset : topicSet lower topics = []
  · rw [matchTopics_no_topics lower topics tags true hset]
    constructor
    · intro h
      exact absurd h Bool.false_ne_true
    · rintro ⟨hex, _, _⟩
      exact absurd hset ((topicSet_ne_nil_iff lower topics).mpr hex)
  · rw [matchTopics_eq_matchLoop lower topics tags true hset, matchLoop_all_iff]
    constructor
    · rintro ⟨hall, hsome⟩
      refine ⟨(topicSet_ne_nil_iff lower topics).mp hset, ?_, ?_⟩
      · rcases hsome with h | h
        · exact absurd h (Nat.lt_irrefl 0)
        · exact h
      · intro tag htag hne
        obtain ⟨_, topic, htopic, heq⟩ := (mem_topicSet lower topics _).mp (hall tag htag hne)
        exact ⟨topic, htopic, heq.symm⟩
    · rintro ⟨_, hsome, hall⟩
      refine ⟨?_, Or.inr hsome⟩
      intro tag htag hne
      obtain ⟨topic, htopic, heq⟩ := hall tag htag hne
      exact (mem_topicSet lower topics _).mpr ⟨hne, topic, htopic, heq.symm⟩

/-- C7: when `Tags` is a non-empty list whose entries are all empty or made of
white space only, `FilterRepos` returns the empty list, in "all" mode and in
"any" mode alike. -/
theorem FilterRepos_blank_tags (lower : Char → Char)
    (addDate : Time → Int → Time) (wall : Time)
    (repos : List Repository) (opts : FilterOptions)
    (hne : opts.Tags ≠ [])
    (hblank : ∀ t ∈ opts.Tags, ∀ c ∈ t.data, isSpace c = true) :
    FilterRepos lower addDate wall repos opts = [] := by
  rw [List.eq_nil_iff_forall_not_mem]
  intro r hr
  have h :=
    ((mem_FilterRepos_iff lower addDate wall repos opts r).mp hr).2.1.2.2.2.2.2
  rcases h with h | h
  · exact hne h
  · rw [matchTopics_blank lower r.Topics opts.Tags opts.TagsMatchAll hblank] at h
    exact Bool.false_ne_true h

/-- C7, at the fixture: the tag list of an empty and a blank entry empties the
output in "all" mode. -/
theorem FilterRepos_blank_tags_witness :
    (testOptions 0 ["", " \t"] true).Tags ≠ []
      ∧ FilterRepos asciiLower Time.AddDate (utcMidnight 0) makeRepos
          (testOptions 0 ["", " \t"] true) = [] :=
  ⟨by decide,
    FilterRepos_blank_tags asciiLower Time.AddDate (utcMidnight 0) makeRepos
      (testOptions 0 ["", " \t"] true) (by decide) (by decide)⟩

/-! ## The sort stage: claims -/

/-- C8: after `SortReposBy` the list is ordered by the three keys of the mode:
of two positions the earlier record never ranks after the later one; and
`SortRepos` is `SortReposBy` in mode "pushed". -/
theorem SortReposBy_sorted (lower : Char → Char) (repos : List Repository)
    (mode : String) :
    List.Pairwise (ranksNotAfter lower mode) (SortReposBy lower repos mode)
      ∧ SortRepos lower repos = SortReposBy lower repos "pushed" :=
  ⟨SortReposBy_ranked lower repos mode, rfl⟩

/-- C9: the list after `SortReposBy` is a permutation of the list before it. -/
theorem SortReposBy_perm (lower : Char → Char) (repos : List Repository)
    (mode : String) :
    List.Perm (SortReposBy lower repos mode) repos :=
  SliceStable_perm (less lower mode) repos

/-- C10: `SortReposBy` is stable: the records that agree with a given record
on pushed instant, stars and lower-cased name come out in their input order;
and two records that tie on pushed instant and stars but differ in lower-cased
name stand in ascending order of that name. -/
theorem SortReposBy_stable (lower : Char → Char) (repos : List Repository)
    (mode : String) :
    (∀ r : Repository,
        (SortReposBy lower repos mode).filter (sameKeys lower r)
          = repos.filter (sameKeys lower r))
      ∧ List.Pairwise
          (fun a b =>
            a.PushedAt.nanos = b.PushedAt.nanos
              → a.StargazersCount = b.StargazersCount
              → ToLower lower a.Name ≠ ToLower lower b.Name
              → (ToLower lower a.Name).data < (ToLower lower b.Name).data)
          (SortReposBy lower repos mode) := by
  constructor
  · intro r
    exact SliceStable_filter (less lower mode) (sameKeys lower r)
      (fun a b ha hb => less_of_sameKeys lower mode r a b ha hb) repos
  · exact (SortReposBy_ranked lower repos mode).imp
      (fun h hp hs hn => lower_name_lt_of_tie lower mode _ _ h hp hs hn)

/-! ## Lemmas on strings -/

theorem string_data_inj {s t : String} (h : s.data = t.data) : s = t := by
  cases s; cases t; simp_all

theorem string_ne_empty_iff (s : String) : s ≠ "" ↔ s.data ≠ [] := by
  constructor
  · intro h hd
    exact h (string_data_inj hd)
  · intro h hs
    exact h (by rw [hs])

theorem Join_singleton (a sep : String) : Join [a] sep = a := by
  apply string_data_inj
  simp [Join, List.intercalate]

theorem Join_pair (a b sep : String) : Join [a, b] sep = a ++ sep ++ b := by
  apply string_data_inj
  simp [Join, List.intercalate, String.data_append]

theorem Join_triple (a b c sep : String) :
    Join [a, b, c] sep = a ++ sep ++ b ++ sep ++ c := by
  apply string_data_inj
  simp [Join, List.intercalate, String.data_append]

/-! ## Lemmas on the Markdown renderer -/

theorem formatRepoLine_eq_join (fold : Char → Char) (parse : String → Option URL)
    (r : Repository) :
    formatRepoLine fold parse r
      = Join (linkSegment fold parse r :: optionalSegments r) " " := by
  unfold formatRepoLine linkSegment optionalSegments escapedName escapedLanguage
    escapedDescription
  by_cases hU : sanitizeMarkdownURL fold parse r.HTMLURL = ""
  · by_cases hL : escapeMarkdownInline (TrimSpace r.Language) = ""
    · by_cases hD : escapeMarkdownInline (normalizeInlineText r.Description) = ""
      · simp [hU, hL, hD]
      · simp [hU, hL, hD]
    · by_cases hD : escapeMarkdownInline (normalizeInlineText r.Description) = ""
      · simp [hU, hL, hD]
      · simp [hU, hL, hD]
  · by_cases hL : escapeMarkdownInline (TrimSpace r.Language) = ""
    · by_cases hD : escapeMarkdownInline (normalizeInlineText r.Description) = ""
      · simp [hU, hL, hD]
      · simp [hU, hL, hD]
    · by_cases hD : escapeMarkdownInline (normalizeInlineText r.Description) = ""
      · simp [hU, hL, hD]
      · simp [hU, hL, hD]

theorem foldl_lines (fold : Char → Char) (parse : String → Option URL)
    (repos : List Repository) (sb : String) :
    repos.foldl (fun sb r => sb ++ formatRepoLine fold parse r ++ "\n") sb
      = sb ++ recordLines fold parse repos := by
  induction repos generalizing sb with
  | nil => simp [recordLines]
  | cons r rest ih =>
    rw [List.foldl_cons, ih, recordLines]
    simp [String.append_assoc]

theorem RenderMarkdown_eq (fold : Char → Char) (parse : String → Option URL)
    (repos : List Repository) (marker : String) :
    RenderMarkdown fold parse repos marker
      = "<!-- BEGIN " ++ marker ++ " -->\n## Current Projects\n\n"
          ++ (if repos = [] then "_No public projects matched._\n"
              else recordLines fold parse repos)
          ++ "<!-- END " ++ marker ++ " -->\n" := by
  unfold RenderMarkdown
  cases repos with
  | nil => simp [String.append_assoc]
  | cons r rest =>
    simp only [List.length_cons, Nat.succ_ne_zero, if_false, foldl_lines]
    simp [String.append_assoc]
/-! ## Lemmas on `strings.Index` and `strings.Contains` -/

theorem indexFrom_eq_neg_one_iff (sub l : List Char) (i : Nat) :
    indexFrom sub l i = -1 ↔ ¬ sub <:+: l := by
  induction l generalizing i with
  | nil =>
    simp only [indexFrom, List.infix_nil]
    by_cases h : sub = []
    · simp [h]
    · simp [h]
  | cons c cs ih =>
    simp only [indexFrom]
    by_cases hp : sub.isPrefixOf (c :: cs) = true
    · rw [if_pos hp]
      have hpre : sub <+: c :: cs := List.isPrefixOf_iff_prefix.mp hp
      constructor
      · intro h
        omega
      · intro h
        exact absurd hpre.isInfix h
    · rw [if_neg hp, ih, List.infix_cons_iff]
      have hpre : ¬ sub <+: c :: cs := fun h => hp (List.isPrefixOf_iff_prefix.mpr h)
      tauto

theorem indexFrom_ge (sub l : List Char) (i : Nat) :
    indexFrom sub l i = -1 ∨ (i : Int) ≤ indexFrom sub l i := by
  induction l generalizing i with
  | nil =>
    simp only [indexFrom]
    split
    · exact Or.inr (le_refl _)
    · exact Or.inl rfl
  | cons c cs ih =>
    simp only [indexFrom]
    split
    · exact Or.inr (le_refl _)
    · rcases ih (i + 1) with h | h
      · exact Or.inl h
      · right
        push_cast at h
        omega

theorem Index_eq_neg_one_iff (s sub : String) :
    Index s sub = -1 ↔ ¬ sub.data <:+: s.data :=
  indexFrom_eq_neg_one_iff sub.data s.data 0

theorem Contains_iff (s sub : String) :
    Contains s sub = true ↔ sub.data <:+: s.data := by
  unfold Contains
  rw [decide_eq_true_iff]
  constructor
  · intro h
    by_contra hn
    rw [← Index_eq_neg_one_iff] at hn
    omega
  · intro h
    have hne : Index s sub ≠ -1 := fun hn => (Index_eq_neg_one_iff s sub).mp hn h
    rcases indexFrom_ge sub.data s.data 0 with h1 | h1
    · exact absurd h1 hne
    · unfold Index
      simpa using h1

theorem Contains_eq_false_iff (s sub : String) :
    Contains s sub = false ↔ ¬ sub.data <:+: s.data := by
  rw [← Contains_iff]
  simp

theorem infix_drop_left (first : Char) (t a l : List Char) (hfa : first ∉ a)
    (h : (first :: t) <:+: a ++ l) : (first :: t) <:+: l := by
  induction a with
  | nil => simpa using h
  | cons c a' ih =>
    rw [List.cons_append, List.infix_cons_iff] at h
    rcases h with h | h
    · exfalso
      obtain ⟨z, hz⟩ := h
      have hc : first = c := by
        simp only [List.cons_append] at hz
        exact (List.cons.inj hz).1
      exact hfa (by rw [hc]; exact List.mem_cons_self _ _)
    · exact ih (fun hm => hfa (List.mem_cons_of_mem _ hm)) h

theorem infix_drop_right (last : Char) (t l b : List Char) (hlb : last ∉ b)
    (h : (t ++ [last]) <:+: l ++ b) : (t ++ [last]) <:+: l := by
  rw [← List.reverse_infix] at h ⊢
  rw [List.reverse_append, List.reverse_append] at h
  rw [List.reverse_append]
  simp only [List.reverse_cons, List.reverse_nil, List.nil_append,
    List.singleton_append] at h ⊢
  exact infix_drop_left last t.reverse b.reverse l.reverse
    (fun hm => hlb (List.mem_reverse.mp hm)) h

/-- An occurrence of a word whose first rune does not occur in `a` and whose
last rune does not occur in `b` lies inside the middle part of
`a ++ u ++ b`. -/
theorem infix_middle (first last : Char) (mid a u b : List Char)
    (hfa : first ∉ a) (hlb : last ∉ b)
    (h : (first :: mid ++ [last]) <:+: a ++ u ++ b) :
    (first :: mid ++ [last]) <:+: u := by
  rw [List.append_assoc] at h
  have h1 := infix_drop_left first (mid ++ [last]) a (u ++ b) hfa h
  exact infix_drop_right last (first :: mid) u b hlb h1

/-! ## Lemmas on the escaping of text -/

theorem not_mem_markdownInlineEscaper_lt (c : Char) :
    '<' ∉ markdownInlineEscaper c := by
  unfold markdownInlineEscaper
  split_ifs with h1 h2 h3 h4 h5 h6 h7 h8 h9
  all_goals first
    | decide
    | (intro hm
       rw [List.mem_singleton] at hm
       exact h2 hm.symm)

theorem not_mem_markdownInlineEscaper_gt (c : Char) :
    '>' ∉ markdownInlineEscaper c := by
  unfold markdownInlineEscaper
  split_ifs with h1 h2 h3 h4 h5 h6 h7 h8 h9
  all_goals first
    | decide
    | (intro hm
       rw [List.mem_singleton] at hm
       exact h3 hm.symm)

theorem escapeMarkdownInline_data (s : String) :
    (escapeMarkdownInline s).data = s.data.flatMap markdownInlineEscaper := by
  unfold escapeMarkdownInline
  split
  · next h => simp [h]
  · rfl

theorem not_mem_escapeMarkdownInline_lt (s : String) :
    '<' ∉ (escapeMarkdownInline s).data := by
  rw [escapeMarkdownInline_data, List.mem_flatMap]
  rintro ⟨c, _, hc⟩
  exact not_mem_markdownInlineEscaper_lt c hc

theorem not_mem_escapeMarkdownInline_gt (s : String) :
    '>' ∉ (escapeMarkdownInline s).data := by
  rw [escapeMarkdownInline_data, List.mem_flatMap]
  rintro ⟨c, _, hc⟩
  exact not_mem_markdownInlineEscaper_gt c hc
theorem intercalate_cons_data (sep : List Char) (a : List Char) (rest : List (List Char)) :
    sep.intercalate (a :: rest) = a ++ rest.flatMap (fun s => sep ++ s) := by
  induction rest generalizing a with
  | nil => simp [List.intercalate]
  | cons b rest ih =>
    have h : sep.intercalate (a :: b :: rest) = a ++ sep ++ sep.intercalate (b :: rest) := by
      simp [List.intercalate, List.intersperse]
    rw [h, ih]
    simp [List.flatMap_cons]

theorem Join_cons_data (a : String) (rest : List String) (sep : String) :
    (Join (a :: rest) sep).data
      = a.data ++ rest.flatMap (fun s => sep.data ++ s.data) := by
  unfold Join
  simp only [List.map_cons]
  rw [intercalate_cons_data]
  simp [List.flatMap_map]

/-- The text of a line after its link segment. -/
theorem formatRepoLine_data (fold : Char → Char) (parse : String → Option URL)
    (r : Repository) :
    (formatRepoLine fold parse r).data
      = (linkSegment fold parse r).data
          ++ (optionalSegments r).flatMap (fun s => ' ' :: s.data) := by
  rw [formatRepoLine_eq_join, Join_cons_data]
  rfl

theorem not_mem_optionalSegments (c : Char) (r : Repository)
    (hc : c ≠ ' ' ∧ c ≠ '(' ∧ c ≠ ')' ∧ c ≠ '-')
    (hL : c ∉ (escapedLanguage r).data) (hD : c ∉ (escapedDescription r).data) :
    c ∉ (optionalSegments r).flatMap (fun s => ' ' :: s.data) := by
  obtain ⟨h1, h2, h3, h4⟩ := hc
  unfold optionalSegments
  intro hm
  rw [List.mem_flatMap] at hm
  obtain ⟨s, hs, hcs⟩ := hm
  rw [List.mem_append] at hs
  rcases hs with hs | hs
  · split at hs
    · rw [List.mem_singleton] at hs
      subst hs
      simp only [String.data_append, List.mem_cons, List.mem_append] at hcs
      rcases hcs with h | (h | h) | h
      · exact h1 h
      · simp at h
        exact h2 h
      · exact hL h
      · simp at h
        exact h3 h
    · simp at hs
  · split at hs
    · rw [List.mem_singleton] at hs
      subst hs
      simp only [String.data_append, List.mem_cons, List.mem_append] at hcs
      rcases hcs with h | h | h
      · exact h1 h
      · simp at h
        rcases h with h | h
        · exact h4 h
        · exact h1 h
      · exact hD h
    · simp at hs

/-- A line splits into a part without `<`, the sanitized URL and a part
without `>`. -/
theorem formatRepoLine_split (fold : Char → Char) (parse : String → Option URL)
    (r : Repository) :
    ∃ a b : List Char,
      (formatRepoLine fold parse r).data
          = a ++ (sanitizeMarkdownURL fold parse r.HTMLURL).data ++ b
        ∧ '<' ∉ a ∧ '>' ∉ b := by
  have hNlt : '<' ∉ (escapedName r).data := not_mem_escapeMarkdownInline_lt _
  have htail_gt : '>' ∉ (optionalSegments r).flatMap (fun s => ' ' :: s.data) :=
    not_mem_optionalSegments '>' r (by decide)
      (not_mem_escapeMarkdownInline_gt _) (not_mem_escapeMarkdownInline_gt _)
  have htail_lt : '<' ∉ (optionalSegments r).flatMap (fun s => ' ' :: s.data) :=
    not_mem_optionalSegments '<' r (by decide)
      (not_mem_escapeMarkdownInline_lt _) (not_mem_escapeMarkdownInline_lt _)
  rw [formatRepoLine_data]
  unfold linkSegment
  by_cases hU : sanitizeMarkdownURL fold parse r.HTMLURL = ""
  · rw [if_neg (by simp [hU]), hU]
    refine ⟨("- " ++ escapedName r).data
      ++ (optionalSegments r).flatMap (fun s => ' ' :: s.data), [], by simp, ?_, by simp⟩
    simp only [String.data_append, List.mem_append]
    rintro ((h | h) | h)
    · revert h
      decide
    · exact hNlt h
    · exact htail_lt h
  · rw [if_pos hU]
    refine ⟨("- [" ++ escapedName r ++ "](").data,
      ')' :: (optionalSegments r).flatMap (fun s => ' ' :: s.data), ?_, ?_, ?_⟩
    · simp [String.data_append]
    · simp only [String.data_append, List.mem_append]
      rintro ((h | h) | h)
      · revert h
        decide
      · exact hNlt h
      · revert h
        decide
    · rw [List.mem_cons]
      rintro (h | h)
      · revert h
        decide
      · exact htail_gt h

theorem formatRepoLine_no_script_of_url (fold : Char → Char)
    (parse : String → Option URL) (r : Repository)
    (hU : Contains (sanitizeMarkdownURL fold parse r.HTMLURL) "<script>" = false) :
    Contains (formatRepoLine fold parse r) "<script>" = false := by
  rw [Contains_eq_false_iff] at hU ⊢
  intro h
  obtain ⟨a, b, hsplit, ha, hb⟩ := formatRepoLine_split fold parse r
  rw [hsplit] at h
  exact hU (infix_middle '<' '>' "script".data a _ b ha hb h)
theorem sanitizeMarkdownURL_of_rejected (fold : Char → Char)
    (parse : String → Option URL) (raw : String)
    (h : urlRejected fold parse raw) : sanitizeMarkdownURL fold parse raw = "" := by
  unfold sanitizeMarkdownURL
  rcases h with h | h | ⟨u, hu, h1, h2⟩
  · simp [h]
  · by_cases hb : TrimSpace raw = ""
    · simp [hb]
    · simp only [hb, if_false]
      unfold strippedURL at h
      rw [h]
  · by_cases hb : TrimSpace raw = ""
    · simp [hb]
    · simp only [hb, if_false]
      unfold strippedURL at hu
      rw [hu]
      simp [h1, h2]

theorem sanitizeMarkdownURL_empty (fold : Char → Char)
    (parse : String → Option URL) : sanitizeMarkdownURL fold parse "" = "" := by
  unfold sanitizeMarkdownURL
  have h : TrimSpace "" = "" := by decide
  simp [h]

theorem formatRepoLine_congr (fold : Char → Char) (parse : String → Option URL)
    (r s : Repository) (hN : r.Name = s.Name) (hL : r.Language = s.Language)
    (hD : r.Description = s.Description)
    (hU : sanitizeMarkdownURL fold parse r.HTMLURL
            = sanitizeMarkdownURL fold parse s.HTMLURL) :
    formatRepoLine fold parse r = formatRepoLine fold parse s := by
  unfold formatRepoLine
  rw [hN, hL, hD, hU]
/-! ## Lemmas on characters after a backslash -/

/-- The check `precededBy`, in words. -/
theorem precededBy_iff (g : Char) (p : Char → Bool) (b : Bool) (l : List Char) :
    precededBy g p b l = true ↔
      ∀ (pre post : List Char) (c : Char), p c = true → l = pre ++ c :: post →
        (pre = [] ∧ b = true) ∨ ∃ pre', pre = pre' ++ [g] := by
  induction l generalizing b with
  | nil =>
    simp only [precededBy, true_iff]
    intro pre post c _ h
    have h2 := congrArg List.length h
    simp only [List.length_nil, List.length_append, List.length_cons] at h2
    omega
  | cons d ds ih =>
    rw [precededBy, Bool.and_eq_true, ih]
    constructor
    · rintro ⟨h1, h2⟩ pre post c hc hsplit
      cases pre with
      | nil =>
        left
        simp only [List.nil_append, List.cons.injEq] at hsplit
        rw [hsplit.1, hc] at h1
        simpa using h1
      | cons e pre =>
        right
        simp only [List.cons_append, List.cons.injEq] at hsplit
        rcases h2 pre post c hc hsplit.2 with ⟨hp, hb⟩ | ⟨pre', hp⟩
        · refine ⟨[], ?_⟩
          rw [hp, ← hsplit.1]
          simp only [beq_iff_eq] at hb
          rw [hb]
          rfl
        · exact ⟨e :: pre', by rw [hp]; rfl⟩
    · intro h
      constructor
      · by_cases hd : p d = true
        · rcases h [] ds d hd rfl with ⟨_, hb⟩ | ⟨pre', hp⟩
          · simp [hb]
          · have h2 := congrArg List.length hp
            simp only [List.length_nil, List.length_append, List.length_cons] at h2
            omega
        · simp [hd]
      · intro pre post c hc hsplit
        rcases h (d :: pre) post c hc (by rw [hsplit]; rfl) with ⟨hp, _⟩ | ⟨pre', hp⟩
        · exact absurd hp (List.cons_ne_nil _ _)
        · cases pre' with
          | nil =>
            left
            simp only [List.nil_append, List.cons.injEq] at hp
            exact ⟨hp.2, by rw [hp.1]; simp⟩
          | cons e pre'' =>
            right
            simp only [List.cons_append, List.cons.injEq] at hp
            exact ⟨pre'', hp.2⟩

/-- In the text of an entry of the escaping table, the characters of the link
syntax come after a backslash, and so do those of what follows when they do
there. -/
theorem precededBy_markdownInlineEscaper (c : Char) (b : Bool) (rest : List Char)
    (hrest : ∀ b', precededBy '\\' isLinkSyntax b' rest = true) :
    precededBy '\\' isLinkSyntax b (markdownInlineEscaper c ++ rest) = true := by
  unfold markdownInlineEscaper
  split_ifs with h1 h2 h3 h4 h5 h6 h7 h8 h9
  · simp [precededBy, isLinkSyntax, hrest]
  · simp [precededBy, isLinkSyntax, hrest]
  · simp [precededBy, isLinkSyntax, hrest]
  · simp [precededBy, isLinkSyntax, hrest]
  · simp [precededBy, isLinkSyntax, hrest]
  · simp [precededBy, isLinkSyntax, hrest]
  · simp [precededBy, isLinkSyntax, hrest]
  · simp [precededBy, isLinkSyntax, hrest]
  · simp [precededBy, isLinkSyntax, hrest]
  · have hc : isLinkSyntax c = false := by
      unfold isLinkSyntax
      simp [h5, h6, h7, h8, h9]
    simp [precededBy, hc, hrest]

theorem precededBy_flatMap_escaper (l : List Char) (b : Bool) :
    precededBy '\\' isLinkSyntax b (l.flatMap markdownInlineEscaper) = true := by
  induction l generalizing b with
  | nil => rfl
  | cons c cs ih =>
    rw [List.flatMap_cons]
    exact precededBy_markdownInlineEscaper c b _ ih

theorem precededBy_mono (g : Char) (p q : Char → Bool)
    (h : ∀ c, p c = true → q c = true) (l : List Char) (b : Bool)
    (hq : precededBy g q b l = true) : precededBy g p b l = true := by
  induction l generalizing b with
  | nil => rfl
  | cons c cs ih =>
    rw [precededBy, Bool.and_eq_true] at hq ⊢
    refine ⟨?_, ih _ hq.2⟩
    have h1 := hq.1
    by_cases hp : p c = true
    · have hqc := h c hp
      rw [hqc] at h1
      have hb : b = true := by simpa using h1
      simp [hb]
    · simp [hp]

theorem precededBy_append (g : Char) (p : Char → Bool) (l1 l2 : List Char) (b : Bool)
    (h1 : precededBy g p b l1 = true) (h2 : ∀ b', precededBy g p b' l2 = true) :
    precededBy g p b (l1 ++ l2) = true := by
  induction l1 generalizing b with
  | nil => exact h2 b
  | cons c cs ih =>
    rw [List.cons_append, precededBy, Bool.and_eq_true]
    rw [precededBy, Bool.and_eq_true] at h1
    exact ⟨h1.1, ih _ h1.2⟩

theorem precededBy_of_none (g : Char) (p : Char → Bool) (l : List Char)
    (h : ∀ c ∈ l, p c = false) (b : Bool) : precededBy g p b l = true := by
  induction l generalizing b with
  | nil => rfl
  | cons c cs ih =>
    rw [precededBy, Bool.and_eq_true]
    refine ⟨?_, ih (fun d hd => h d (List.mem_cons_of_mem c hd)) _⟩
    simp [h c (List.mem_cons_self c cs)]

theorem precededBy_bracket_escaped (s : String) (b : Bool) :
    precededBy '\\' isSquareBracket b (escapeMarkdownInline s).data = true := by
  rw [escapeMarkdownInline_data]
  apply precededBy_mono '\\' isSquareBracket isLinkSyntax _ _ _
    (precededBy_flatMap_escaper s.data b)
  intro c hc
  unfold isSquareBracket at hc
  unfold isLinkSyntax
  simp only [Bool.or_eq_true, decide_eq_true_eq] at hc ⊢
  rcases hc with hc | hc
  · exact Or.inl (Or.inl (Or.inl (Or.inl hc)))
  · exact Or.inl (Or.inl (Or.inl (Or.inr hc)))

theorem precededBy_bracket_optionalSegments (r : Repository) (b : Bool) :
    precededBy '\\' isSquareBracket b
      ((optionalSegments r).flatMap (fun s => ' ' :: s.data)) = true := by
  have hlit : ∀ l : List Char, (∀ c ∈ l, isSquareBracket c = false) →
      ∀ b', precededBy '\\' isSquareBracket b' l = true :=
    fun l h b' => precededBy_of_none '\\' isSquareBracket l h b'
  have hL : ∀ b', precededBy '\\' isSquareBracket b'
      (' ' :: ("(" ++ escapedLanguage r ++ ")").data) = true := by
    intro b'
    have : ' ' :: ("(" ++ escapedLanguage r ++ ")").data
        = [' ', '('] ++ ((escapedLanguage r).data ++ [')']) := by
      simp [String.data_append]
    rw [this]
    apply precededBy_append _ _ _ _ _ (hlit _ (by decide) b')
    intro b''
    apply precededBy_append _ _ _ _ _ (precededBy_bracket_escaped _ b'')
    exact hlit _ (by decide)
  have hD : ∀ b', precededBy '\\' isSquareBracket b'
      (' ' :: ("- " ++ escapedDescription r).data) = true := by
    intro b'
    have : ' ' :: ("- " ++ escapedDescription r).data
        = [' ', '-', ' '] ++ (escapedDescription r).data := by
      simp [String.data_append]
    rw [this]
    apply precededBy_append _ _ _ _ _ (hlit _ (by decide) b')
    intro b''
    exact precededBy_bracket_escaped _ b''
  unfold optionalSegments
  by_cases h1 : escapedLanguage r ≠ "" <;> by_cases h2 : escapedDescription r ≠ ""
  · rw [if_pos h1, if_pos h2]
    simp only [List.singleton_append, List.flatMap_cons, List.flatMap_nil, List.append_nil]
    exact precededBy_append _ _ _ _ _ (hL b) hD
  · rw [if_pos h1, if_neg h2]
    simp only [List.append_nil, List.flatMap_cons, List.flatMap_nil]
    exact hL b
  · rw [if_neg h1, if_pos h2]
    simp only [List.nil_append, List.flatMap_cons, List.flatMap_nil, List.append_nil]
    exact hD b
  · rw [if_neg h1, if_neg h2]
    rfl

theorem precededBy_bracket_plain_line (r : Repository) :
    precededBy '\\' isSquareBracket false
      ((plainSegment r).data
        ++ (optionalSegments r).flatMap (fun s => ' ' :: s.data)) = true := by
  unfold plainSegment
  have : ("- " ++ escapedName r).data = ['-', ' '] ++ (escapedName r).data := by
    simp [String.data_append]
  rw [this, List.append_assoc]
  apply precededBy_append _ _ _ _ _
    (precededBy_of_none '\\' isSquareBracket _ (by decide) false)
  intro b
  exact precededBy_append _ _ _ _ _ (precededBy_bracket_escaped _ b)
    (precededBy_bracket_optionalSegments r)

/-! ## Lemmas on reading back the JSON text -/

theorem hexValue_hexDigit : ∀ k < 16, hexValue (hexDigit k) = some k := by decide

theorem char_eq_of_toNat {c : Char} {n : Nat} (h : c.toNat = n) : c = Char.ofNat n := by
  rw [← h]
  exact (Char.ofNat_toNat c).symm

theorem readJSONChars_escape (c : Char) (rest : List Char) :
    readJSONChars ReadState.plain (jsonEscapeChar c ++ rest)
      = (readJSONChars ReadState.plain rest).map (fun out => c :: out) := by
  unfold jsonEscapeChar
  split_ifs with h1 h2 h3 h4 h5 h6 h7 h8 h9
  · rcases h1 with rfl | rfl <;> simp [readJSONChars, simpleEscape]
  · have := char_eq_of_toNat h2
    subst this
    simp [readJSONChars, simpleEscape]
  · have := char_eq_of_toNat h3
    subst this
    simp [readJSONChars, simpleEscape]
  · subst h4
    simp [readJSONChars, simpleEscape]
  · subst h5
    simp [readJSONChars, simpleEscape]
  · subst h6
    simp [readJSONChars, simpleEscape]
  · have hn : c.toNat < 64 := by
      rcases h7 with h | rfl | rfl | rfl
      · omega
      · decide
      · decide
      · decide
    have hd1 := hexValue_hexDigit (c.toNat / 16) (by omega)
    have hd2 := hexValue_hexDigit (c.toNat % 16) (by omega)
    have h0 : hexValue '0' = some 0 := by decide
    have hval : (0 * 16 + 0) * 16 + c.toNat / 16 = c.toNat / 16 := by omega
    simp only [List.cons_append, List.nil_append, readJSONChars]
    simp [h0, hd1, hd2]
    have hc : Char.ofNat (c.toNat / 16 * 16 + c.toNat % 16) = c := by
      rw [Nat.div_add_mod']
      exact Char.ofNat_toNat c
    rw [hc]
  · have hc := char_eq_of_toNat h8
    have e2 : hexValue '2' = some 2 := by decide
    have e0 : hexValue '0' = some 0 := by decide
    have e8 : hexValue '8' = some 8 := by decide
    simp [readJSONChars, simpleEscape, e2, e0, e8]
    rw [hc]
  · have hc := char_eq_of_toNat h9
    have e2 : hexValue '2' = some 2 := by decide
    have e0 : hexValue '0' = some 0 := by decide
    have e9 : hexValue '9' = some 9 := by decide
    simp [readJSONChars, simpleEscape, e2, e0, e9]
    rw [hc]
  · have hne : c ≠ '\\' := fun h => h1 (Or.inl h)
    have hq : ¬ (c = '"' ∨ c.toNat < 32) := by
      rintro (h | h)
      · exact h1 (Or.inr h)
      · exact h7 (Or.inl h)
    simp only [List.cons_append, List.nil_append, readJSONChars, if_neg hne, if_neg hq]
    rfl

theorem readJSONChars_flatMap (s : List Char) :
    readJSONChars ReadState.plain (s.flatMap jsonEscapeChar) = some s := by
  induction s with
  | nil => rfl
  | cons c cs ih =>
    rw [List.flatMap_cons, readJSONChars_escape, ih]
    rfl

theorem jsonUnquote_jsonString (s : String) : jsonUnquote (jsonString s) = some s := by
  unfold jsonUnquote jsonString
  have hlast : (s.data.flatMap jsonEscapeChar ++ ['"']).getLast? = some '"' := by simp
  have hdrop : (s.data.flatMap jsonEscapeChar ++ ['"']).dropLast
      = s.data.flatMap jsonEscapeChar := by simp
  simp only [List.cons_append, true_and, hlast, hdrop, if_true, readJSONChars_flatMap,
    Option.map_some']
theorem digitChar_value (k : Nat) (h : k < 10) : (Nat.digitChar k).toNat - 48 = k := by
  interval_cases k <;> rfl

theorem readDigits_cons (acc : Nat) (c : Char) (cs : List Char) :
    readDigits acc (c :: cs) = readDigits (acc * 10 + (c.toNat - 48)) cs := rfl

theorem readDigits_toDigitsCore (fuel n : Nat) (ds : List Char) (h : n < fuel) :
    readDigits 0 (Nat.toDigitsCore 10 fuel n ds) = readDigits n ds := by
  induction fuel generalizing n ds with
  | zero => omega
  | succ fuel ih =>
    simp only [Nat.toDigitsCore]
    by_cases hn : n / 10 = 0
    · rw [if_pos hn, readDigits_cons, digitChar_value _ (Nat.mod_lt _ (by decide))]
      congr 1
      omega
    · rw [if_neg hn, ih (n / 10) _ (by omega), readDigits_cons,
        digitChar_value _ (Nat.mod_lt _ (by decide))]
      congr 1
      omega

theorem readDigits_repr (n : Nat) : readDigits 0 (Nat.repr n).data = n := by
  have h := readDigits_toDigitsCore (n + 1) n [] (by omega)
  rw [show (Nat.repr n).data = Nat.toDigitsCore 10 (n + 1) n [] from rfl, h]
  rfl

theorem digitChar_ne_minus (k : Nat) (h : k < 10) : Nat.digitChar k ≠ '-' := by
  interval_cases k <;> decide

theorem toDigitsCore_no_minus (fuel n : Nat) (ds : List Char) (hds : '-' ∉ ds) :
    '-' ∉ Nat.toDigitsCore 10 fuel n ds := by
  induction fuel generalizing n ds with
  | zero => exact hds
  | succ fuel ih =>
    have hcons : '-' ∉ Nat.digitChar (n % 10) :: ds := by
      rw [List.mem_cons]
      rintro (h | h)
      · exact digitChar_ne_minus _ (Nat.mod_lt _ (by decide)) h.symm
      · exact hds h
    simp only [Nat.toDigitsCore]
    split
    · exact hcons
    · exact ih _ _ hcons

theorem repr_no_minus (n : Nat) : '-' ∉ (Nat.repr n).data :=
  toDigitsCore_no_minus (n + 1) n [] (List.not_mem_nil _)

theorem readJSONInt_of_digits (d : List Char) (m : Nat) (hval : readDigits 0 d = m)
    (hminus : '-' ∉ d) : readJSONInt ⟨d⟩ = (m : Int) := by
  unfold readJSONInt
  cases d with
  | nil =>
    change 0 = m at hval
    subst hval
    rfl
  | cons c cs =>
    have hc : c ≠ '-' := fun h => hminus (by rw [h]; exact List.mem_cons_self _ _)
    simp only [if_neg hc]
    rw [hval]

theorem readJSONInt_jsonInt (n : Int) : readJSONInt (jsonInt n) = n := by
  unfold jsonInt
  by_cases hn : n < 0
  · simp only [hn, if_true]
    unfold readJSONInt
    simp only [if_true]
    rw [readDigits_repr]
    omega
  · simp only [hn, if_false]
    rw [readJSONInt_of_digits (Nat.repr n.toNat).data n.toNat (readDigits_repr n.toNat)
      (repr_no_minus n.toNat)]
    omega
/-! ## Lemmas on the JSON renderer -/

theorem foldl_set_enumFrom {α β : Type} (f : α → β) (z : β) (l : List α)
    (pre : List β) :
    (l.enumFrom pre.length).foldl (fun out p => List.set out p.1 (f p.2))
        (pre ++ List.replicate l.length z)
      = pre ++ l.map f := by
  induction l generalizing pre with
  | nil => simp
  | cons a t ih =>
    simp only [List.enumFrom_cons, List.foldl_cons, List.length_cons, List.map_cons,
      List.replicate_succ]
    have h : (pre ++ z :: List.replicate t.length z).set pre.length (f a)
        = (pre ++ [f a]) ++ List.replicate t.length z := by
      rw [List.set_append_right _ _ (le_refl _)]
      simp
    rw [h]
    have hstep := ih (pre ++ [f a])
    simp only [List.length_append, List.length_singleton] at hstep
    rw [hstep]
    simp

theorem foldl_Slice_set {α β : Type} (f : α → β) (ps : List (Nat × α))
    (items : List β) :
    ps.foldl (fun out p => Slice.set out p.1 (f p.2)) (Slice.elems items)
      = Slice.elems (ps.foldl (fun out p => List.set out p.1 (f p.2)) items) := by
  induction ps generalizing items with
  | nil => rfl
  | cons p t ih =>
    simp only [List.foldl_cons, Slice.set]
    exact ih _

/-- The loop of `RenderJSON` on the slice that `make` returns: a slice that is
not `nil`, holding one value for each record, in order. -/
theorem fill_make {α β : Type} (f : α → β) (z : β) (s : Slice α) :
    s.toList.enum.foldl (fun out p => Slice.set out p.1 (f p.2)) (make z s.len)
      = Slice.elems (s.toList.map f) := by
  unfold make Slice.len List.enum
  rw [foldl_Slice_set]
  have h := foldl_set_enumFrom f z s.toList []
  simp only [List.length_nil, List.nil_append] at h
  rw [h]

theorem RenderJSON_eq (repos : Slice Repository) :
    RenderJSON repos = Except.ok (jsonArray repos.toList ++ "\n") := by
  have hfill := fill_make (fun r : Repository =>
    ({ Name := r.Name, HTMLURL := r.HTMLURL, Description := r.Description,
       Language := r.Language, PushedAt := formatStamp r.PushedAt,
       StargazersCount := r.StargazersCount } : JSONOutput)) zeroJSONOutput repos
  unfold RenderJSON
  simp only at hfill ⊢
  rw [hfill]
  unfold MarshalIndent jsonArray
  cases repos.toList with
  | nil => rfl
  | cons r rest =>
    simp only [List.map_cons, List.isEmpty_cons, Bool.false_eq_true, if_false,
      List.map_map, reduceCtorEq]
    rfl

theorem jsonArray_head (repos : List Repository) :
    (jsonArray repos).data.head? = some '[' := by
  unfold jsonArray
  split
  · rfl
  · rfl

theorem jsonArray_getLast (repos : List Repository) :
    (jsonArray repos).data.getLast? = some ']' := by
  unfold jsonArray
  split
  · rfl
  · have h : ("[\n" ++ Join (repos.map recordObject) ",\n" ++ "\n]").data
        = ("[\n" ++ Join (repos.map recordObject) ",\n" ++ "\n").data ++ [']'] := by
      simp [String.data_append]
    rw [h, List.getLast?_append]
    rfl

theorem formatStamp_of_utc (t : Time) (h : t.offset = 0) :
    formatStamp t = utcStamp t := by
  unfold utcStamp
  cases t
  simp_all
/-! ## Lemmas on the patcher -/

theorem PatchREADME_of_no_markers (existing newSection marker : String)
    (appendIfMissing : Bool)
    (hb : Index existing ("<!-- BEGIN " ++ marker ++ " -->") = -1)
    (he : Index existing ("<!-- END " ++ marker ++ " -->") = -1) :
    PatchREADME existing newSection marker appendIfMissing
      = if appendIfMissing then
          ({ Content := existing ++ appendSeparator existing
                ++ adaptLineEnding newSection (detectLineEnding existing),
             Patched := true }, none)
        else
          ({ Content := "", Patched := false },
            some (PatchError.markerNotFound marker)) := by
  unfold PatchREADME
  simp only [hb, he, and_self, if_true]
  cases appendIfMissing with
  | false => rfl
  | true =>
    simp only [Bool.not_true, Bool.false_eq_true, if_false, if_true]
    have hsep : (if (!HasSuffix existing (detectLineEnding existing) && existing != "") = true
          then detectLineEnding existing ++ detectLineEnding existing
          else if (existing != "") = true then detectLineEnding existing
          else detectLineEnding existing) = appendSeparator existing := by
      unfold appendSeparator
      by_cases h1 : existing = ""
      · simp [h1]
      · by_cases h2 : HasSuffix existing (detectLineEnding existing) = true
        · simp [h1, h2]
        · simp [h1, h2]
    rw [hsep]

/-! ## Truncation and the Markdown renderer: claims -/

/-- C11: `TopN` returns the list unchanged when `n <= 0` or `n >= len(list)`,
and the first `n` elements, in their order, when `0 < n < len(list)`. -/
theorem TopN_spec (repos : List Repository) (n : Int) :
    ((n ≤ 0 ∨ n ≥ (repos.length : Int)) → TopN repos n = repos)
      ∧ ((0 < n ∧ n < (repos.length : Int)) →
          TopN repos n = repos.take n.toNat
            ∧ ((TopN repos n).length : Int) = n
            ∧ List.IsPrefix (TopN repos n) repos) := by
  constructor
  · rintro (h | h)
    · simp [TopN, h]
    · unfold TopN
      split
      · rfl
      · apply List.take_of_length_le
        omega
  · rintro ⟨h0, h1⟩
    have ht : TopN repos n = repos.take n.toNat := by
      unfold TopN
      rw [if_neg (by omega)]
    refine ⟨ht, ?_, ?_⟩
    · rw [ht, List.length_take]
      omega
    · rw [ht]
      exact List.take_prefix _ _

/-- C12: the output of `RenderMarkdown` is the header
`<!-- BEGIN m -->`, heading and blank line, then a body, then the footer
`<!-- END m -->`; for the empty list the body is the line
`_No public projects matched._`. -/
theorem RenderMarkdown_frame (fold : Char → Char) (parse : String → Option URL)
    (repos : List Repository) (marker : String) :
    (∃ body : String,
        RenderMarkdown fold parse repos marker
          = "<!-- BEGIN " ++ marker ++ " -->\n## Current Projects\n\n" ++ body
              ++ "<!-- END " ++ marker ++ " -->\n")
      ∧ RenderMarkdown fold parse [] marker
          = "<!-- BEGIN " ++ marker ++ " -->\n## Current Projects\n\n"
              ++ "_No public projects matched._\n"
              ++ "<!-- END " ++ marker ++ " -->\n" := by
  constructor
  · exact ⟨_, RenderMarkdown_eq fold parse repos marker⟩
  · rw [RenderMarkdown_eq]
    simp

/-- C13: the line of a record is its segments joined by single spaces: the
link segment, then `(L)` only if `L` is not empty, then `- D` only if `D` is
not empty; the four cases are spelled out, so a missing language leaves no
`()` and a missing description no trailing ` - `. -/
theorem formatRepoLine_segments (fold : Char → Char)
    (parse : String → Option URL) (r : Repository) :
    formatRepoLine fold parse r
        = Join (linkSegment fold parse r :: optionalSegments r) " "
      ∧ (escapedLanguage r = "" → escapedDescription r = "" →
          formatRepoLine fold parse r = linkSegment fold parse r)
      ∧ (escapedLanguage r ≠ "" → escapedDescription r = "" →
          formatRepoLine fold parse r
            = linkSegment fold parse r ++ " (" ++ escapedLanguage r ++ ")")
      ∧ (escapedLanguage r = "" → escapedDescription r ≠ "" →
          formatRepoLine fold parse r
            = linkSegment fold parse r ++ " - " ++ escapedDescription r)
      ∧ (escapedLanguage r ≠ "" → escapedDescription r ≠ "" →
          formatRepoLine fold parse r
            = linkSegment fold parse r ++ " (" ++ escapedLanguage r ++ ") - "
                ++ escapedDescription r) := by
  have h := formatRepoLine_eq_join fold parse r
  refine ⟨h, ?_, ?_, ?_, ?_⟩
  · intro hL hD
    rw [h]
    simp [optionalSegments, hL, hD, Join_singleton]
  · intro hL hD
    rw [h]
    simp only [optionalSegments, hL, hD, ne_eq, not_false_eq_true, if_true,
      not_true_eq_false, if_false, List.append_nil, Join_pair]
    apply string_data_inj
    simp [String.data_append]
  · intro hL hD
    rw [h]
    simp only [optionalSegments, hL, hD, ne_eq, not_false_eq_true, if_true,
      not_true_eq_false, if_false, List.nil_append, Join_pair]
    apply string_data_inj
    simp [String.data_append]
  · intro hL hD
    rw [h]
    simp only [optionalSegments, hL, hD, ne_eq, not_false_eq_true, if_true,
      List.singleton_append, Join_triple]
    apply string_data_inj
    simp [String.data_append]
/-- C14, at a record whose name holds a line feed: the output for this one
record has six line feeds, not `len(records) + 4 = 5`; the name is trimmed and
escaped but a line feed inside it is left in place, while the description is
normalized and the URL stripped of line breaks. -/
theorem RenderMarkdown_name_breaks_line :
    (RenderMarkdown asciiLower parsePlainURL [brokenNameRepo] "CURRENT PROJECTS").data.count
        '\n' = 6
      ∧ formatRepoLine asciiLower parsePlainURL brokenNameRepo = "- a\nb" := by
  decide

/-- C15, as the code has it: the name, language and description come out
without `<` and `>`, and the line holds `<script>` only if the sanitized URL
does; the description `<script>alert(1)</script>` is rendered as
`&lt;script&gt;alert\(1\)&lt;/script&gt;`. -/
theorem formatRepoLine_no_script (fold : Char → Char)
    (parse : String → Option URL) (r : Repository)
    (hU : Contains (sanitizeMarkdownURL fold parse r.HTMLURL) "<script>" = false) :
    Contains (formatRepoLine fold parse r) "<script>" = false
      ∧ '<' ∉ (escapedDescription r).data ∧ '>' ∉ (escapedDescription r).data
      ∧ '<' ∉ (escapedName r).data ∧ '>' ∉ (escapedName r).data
      ∧ '<' ∉ (escapedLanguage r).data ∧ '>' ∉ (escapedLanguage r).data
      ∧ escapeMarkdownInline (normalizeInlineText "<script>alert(1)</script>")
          = "&lt;script&gt;alert\\(1\\)&lt;/script&gt;" :=
  ⟨formatRepoLine_no_script_of_url fold parse r hU,
    not_mem_escapeMarkdownInline_lt _, not_mem_escapeMarkdownInline_gt _,
    not_mem_escapeMarkdownInline_lt _, not_mem_escapeMarkdownInline_gt _,
    not_mem_escapeMarkdownInline_lt _, not_mem_escapeMarkdownInline_gt _,
    by decide⟩

/-- C15, at the record of the escaping test: its description holds `<script>`,
its sanitized URL does not, and neither does its line. -/
theorem formatRepoLine_no_script_witness :
    Contains escapedRepo.Description "<script>" = true
      ∧ Contains (sanitizeMarkdownURL asciiLower parsePlainURL escapedRepo.HTMLURL)
          "<script>" = false
      ∧ Contains (formatRepoLine asciiLower parsePlainURL escapedRepo) "<script>"
          = false :=
  ⟨by decide, by decide,
    (formatRepoLine_no_script asciiLower parsePlainURL escapedRepo (by decide)).1⟩

/-- C15 as stated fails: the description of this record holds `<script>` and
so does its rendered line, in the query of the link. -/
theorem formatRepoLine_script_in_url :
    Contains scriptRepo.Description "<script>" = true
      ∧ Contains (formatRepoLine asciiLower parsePlainURL scriptRepo) "<script>" = true
      ∧ formatRepoLine asciiLower parsePlainURL scriptRepo
          = "- [x](https://example.com/?q=<script>)"
              ++ " - &lt;script&gt;alert\\(1\\)&lt;/script&gt;" := by
  decide

/-- C16: for a URL that is blank, fails to parse or has a scheme other than
`http` and `https`, `sanitizeMarkdownURL` returns the empty string and the
line is the plain line `- N` with its optional segments; the URL puts nothing
into the line, which is the line of the same record without URL; and the line
holds no link, as every square bracket in it comes right after a backslash. -/
theorem formatRepoLine_rejected_url (fold : Char → Char)
    (parse : String → Option URL) (r : Repository)
    (h : urlRejected fold parse r.HTMLURL) :
    sanitizeMarkdownURL fold parse r.HTMLURL = ""
      ∧ linkSegment fold parse r = plainSegment r
      ∧ formatRepoLine fold parse r = Join (plainSegment r :: optionalSegments r) " "
      ∧ formatRepoLine fold parse r
          = formatRepoLine fold parse { r with HTMLURL := "" }
      ∧ ∀ (pre post : List Char) (c : Char), c = '[' ∨ c = ']' →
          (formatRepoLine fold parse r).data = pre ++ c :: post →
            ∃ pre', pre = pre' ++ ['\\'] := by
  have hs := sanitizeMarkdownURL_of_rejected fold parse r.HTMLURL h
  have hl : linkSegment fold parse r = plainSegment r := by
    unfold linkSegment plainSegment
    rw [if_neg (by simp [hs])]
  refine ⟨hs, hl, ?_, ?_, ?_⟩
  · rw [formatRepoLine_eq_join, hl]
  · apply formatRepoLine_congr fold parse r { r with HTMLURL := "" } rfl rfl rfl
    rw [hs, sanitizeMarkdownURL_empty]
  · intro pre post c hc hsplit
    rw [formatRepoLine_data, hl] at hsplit
    have hp := (precededBy_iff '\\' isSquareBracket false _).mp
      (precededBy_bracket_plain_line r) pre post c
      (by unfold isSquareBracket; simpa using hc) hsplit
    rcases hp with ⟨_, hb⟩ | hp
    · exact absurd hb Bool.false_ne_true
    · exact hp

/-- C16, at the record of the scheme test: `javascript:alert(1)` parses with
the scheme `javascript`, and the line is `- bad-link - desc`. -/
theorem formatRepoLine_rejected_url_witness :
    urlRejected asciiLower parsePlainURL badLinkRepo.HTMLURL
      ∧ sanitizeMarkdownURL asciiLower parsePlainURL badLinkRepo.HTMLURL = ""
      ∧ formatRepoLine asciiLower parsePlainURL badLinkRepo = "- bad-link - desc" :=
  have hrej : urlRejected asciiLower parsePlainURL badLinkRepo.HTMLURL :=
    Or.inr (Or.inr ⟨URL.mk "javascript" "" "javascript:alert(1)",
      by decide, by decide, by decide⟩)
  ⟨hrej,
    (formatRepoLine_rejected_url asciiLower parsePlainURL badLinkRepo hrej).1,
    ((formatRepoLine_rejected_url asciiLower parsePlainURL badLinkRepo hrej).2.2.1).trans
      (by decide)⟩

/-! ## The JSON renderer: claims -/

/-- C17: `RenderJSON` returns no error; its text is the array of the objects of
the records, one per record in input order, followed by one line feed after
the closing bracket; the strings written for the text fields read back as the
fields themselves, and the number written for the star count reads back as
the star count. -/
theorem RenderJSON_document (repos : Slice Repository) :
    RenderJSON repos = Except.ok (jsonArray repos.toList ++ "\n")
      ∧ (jsonArray repos.toList).data.getLast? = some ']'
      ∧ (∀ s : String, jsonUnquote (jsonString s) = some s)
      ∧ (∀ n : Int, readJSONInt (jsonInt n) = n) :=
  ⟨RenderJSON_eq repos, jsonArray_getLast repos.toList, jsonUnquote_jsonString,
    readJSONInt_jsonInt⟩

/-- C18: for the record list without elements and for the `nil` record list
`RenderJSON` returns exactly `[]` and a line feed, and for no record list does
it return `null` and a line feed: the slice handed to the encoder comes from
`make` and is not `nil`, also for a `nil` argument, while the encoder writes
`null` for a `nil` slice. -/
theorem RenderJSON_empty :
    RenderJSON (Slice.elems []) = Except.ok "[]\n"
      ∧ RenderJSON Slice.nil = Except.ok "[]\n"
      ∧ (∀ repos : Slice Repository, RenderJSON repos ≠ Except.ok "null\n")
      ∧ make zeroJSONOutput (Slice.nil : Slice Repository).len ≠ Slice.nil
      ∧ MarshalIndent Slice.nil = Except.ok "null" := by
  refine ⟨rfl, rfl, ?_, by simp [make], rfl⟩
  intro repos h
  rw [RenderJSON_eq] at h
  have hhead := jsonArray_head repos.toList
  have hdata : (jsonArray repos.toList ++ "\n").data = "null\n".data := by
    injection h with h
    rw [h]
  rw [String.data_append] at hdata
  cases hj : (jsonArray repos.toList).data with
  | nil => rw [hj] at hhead; simp at hhead
  | cons c cs =>
    rw [hj] at hhead hdata
    simp only [List.head?_cons, Option.some.injEq] at hhead
    subst hhead
    simp at hdata

set_option maxRecDepth 100000 in
/-- C19, at a record whose `PushedAt` carries an offset of nine hours: the
instant is 2025-01-15 01:00:00 in UTC, but `RenderJSON` writes the wall clock
of the location, 10:00:00, followed by `Z`. -/
theorem RenderJSON_pushed_at_wall_clock :
    utcStamp tokyoRepo.PushedAt = "2025-01-15T01:00:00Z"
      ∧ formatStamp tokyoRepo.PushedAt = "2025-01-15T10:00:00Z"
      ∧ RenderJSON (Slice.elems [tokyoRepo])
          = Except.ok ("[\n  \x7b\n    \"name\": \"t\",\n    \"html_url\": \"\",\n"
              ++ "    \"description\": \"\",\n    \"language\": \"\",\n"
              ++ "    \"pushed_at\": \"2025-01-15T10:00:00Z\",\n"
              ++ "    \"stargazers_count\": 0\n  \x7d\n]\n") := by
  refine ⟨by decide, by decide, ?_⟩
  rw [RenderJSON_eq]
  decide
/-! ## The patcher: claims -/

/-- C20: for a document that contains neither marker, `PatchREADME` fails with
the "not found" error when `appendIfMissing` is false; when it is true it
succeeds with the document, the separator and the section adapted to the line
ending of the document, the separator being one line ending if the document
is empty or ends with its line ending and two otherwise. -/
theorem PatchREADME_no_markers (existing newSection marker : String)
    (hb : ¬ ("<!-- BEGIN " ++ marker ++ " -->").data <:+: existing.data)
    (he : ¬ ("<!-- END " ++ marker ++ " -->").data <:+: existing.data) :
    PatchREADME existing newSection marker false
        = ({ Content := "", Patched := false },
            some (PatchError.markerNotFound marker))
      ∧ PatchREADME existing newSection marker true
          = ({ Content := existing ++ appendSeparator existing
                ++ adaptLineEnding newSection (detectLineEnding existing),
               Patched := true }, none)
      ∧ ((existing = "" ∨ HasSuffix existing (detectLineEnding existing) = true) →
          appendSeparator existing = detectLineEnding existing)
      ∧ ((existing ≠ "" ∧ HasSuffix existing (detectLineEnding existing) = false) →
          appendSeparator existing
            = detectLineEnding existing ++ detectLineEnding existing) := by
  have hb1 := (Index_eq_neg_one_iff existing _).mpr hb
  have he1 := (Index_eq_neg_one_iff existing _).mpr he
  refine ⟨?_, ?_, ?_, ?_⟩
  · rw [PatchREADME_of_no_markers existing newSection marker false hb1 he1]
    rfl
  · rw [PatchREADME_of_no_markers existing newSection marker true hb1 he1]
    rfl
  · intro h
    unfold appendSeparator
    rw [if_pos h]
  · rintro ⟨h1, h2⟩
    unfold appendSeparator
    rw [if_neg]
    rintro (h | h)
    · exact h1 h
    · rw [h2] at h
      exact Bool.false_ne_true h

/-- C20, at the fixture of the append test: the document has no marker and
ends with a line feed, so the section follows after one more line feed. -/
theorem PatchREADME_no_markers_witness :
    PatchREADME profileDoc projectsSection "CURRENT PROJECTS" true
        = ({ Content := "# Profile\n\n## About\n\n<!-- BEGIN CURRENT PROJECTS -->\n"
                ++ "## Current Projects\n<!-- END CURRENT PROJECTS -->\n",
             Patched := true }, none)
      ∧ PatchREADME profileDoc projectsSection "CURRENT PROJECTS" false
        = ({ Content := "", Patched := false },
            some (PatchError.markerNotFound "CURRENT PROJECTS")) :=
  have hb : ¬ ("<!-- BEGIN " ++ "CURRENT PROJECTS" ++ " -->").data <:+: profileDoc.data :=
    (Index_eq_neg_one_iff profileDoc _).mp (by decide)
  have he : ¬ ("<!-- END " ++ "CURRENT PROJECTS" ++ " -->").data <:+: profileDoc.data :=
    (Index_eq_neg_one_iff profileDoc _).mp (by decide)
  ⟨((PatchREADME_no_markers profileDoc projectsSection "CURRENT PROJECTS" hb he).2.1).trans
      (by decide),
    (PatchREADME_no_markers profileDoc projectsSection "CURRENT PROJECTS" hb he).1⟩

/-! ## Lemmas on the first occurrence found by `strings.Index` -/

theorem indexFrom_spec (sub l : List Char) (i : Nat) (h : sub <:+: l) :
    ∃ pre post : List Char, l = pre ++ sub ++ post
      ∧ indexFrom sub l i = ((i + pre.length : Nat) : Int)
      ∧ ∀ pre' post' : List Char, l = pre' ++ sub ++ post' → pre.length ≤ pre'.length := by
  induction l generalizing i with
  | nil =>
    have hs : sub = [] := List.infix_nil.mp h
    subst hs
    exact ⟨[], [], rfl, by simp [indexFrom], fun _ _ _ => Nat.zero_le _⟩
  | cons c cs ih =>
    by_cases hp : sub.isPrefixOf (c :: cs) = true
    · obtain ⟨post, hpost⟩ := List.isPrefixOf_iff_prefix.mp hp
      refine ⟨[], post, by simpa using hpost.symm, ?_, fun _ _ _ => Nat.zero_le _⟩
      simp [indexFrom, hp]
    · have hnp : ¬ sub <+: c :: cs := fun hh => hp (List.isPrefixOf_iff_prefix.mpr hh)
      have hin : sub <:+: cs := by
        rcases List.infix_cons_iff.mp h with h1 | h1
        · exact absurd h1 hnp
        · exact h1
      obtain ⟨pre, post, hl, hidx, hmin⟩ := ih (i + 1) hin
      refine ⟨c :: pre, post, by simp [hl], ?_, ?_⟩
      · simp only [indexFrom, hp, Bool.false_eq_true, if_false, hidx, List.length_cons]
        push_cast
        omega
      · intro pre' post' hdec
        cases pre' with
        | nil =>
          exfalso
          exact hnp ⟨post', by simpa using hdec.symm⟩
        | cons d pre'' =>
          simp only [List.cons_append, List.cons.injEq] at hdec
          have := hmin pre'' post' hdec.2
          simp only [List.length_cons]
          omega

/-- The first occurrence: where `sub` occurs in `s`, `Index` gives the length
of the shortest text before an occurrence. -/
theorem Index_spec (s sub : String) (h : sub.data <:+: s.data) :
    ∃ pre post : List Char, s.data = pre ++ sub.data ++ post
      ∧ Index s sub = (pre.length : Int)
      ∧ ∀ pre' post' : List Char, s.data = pre' ++ sub.data ++ post' →
          pre.length ≤ pre'.length := by
  obtain ⟨pre, post, hl, hidx, hmin⟩ := indexFrom_spec sub.data s.data 0 h
  exact ⟨pre, post, hl, by simpa [Index] using hidx, hmin⟩

theorem Index_ne_neg_one_iff (s sub : String) :
    Index s sub ≠ -1 ↔ sub.data <:+: s.data := by
  rw [ne_eq, Index_eq_neg_one_iff, not_not]

theorem Index_nonneg_of_infix (s sub : String) (h : sub.data <:+: s.data) :
    0 ≤ Index s sub := by
  obtain ⟨pre, _, _, hidx, _⟩ := Index_spec s sub h
  rw [hidx]
  exact Int.natCast_nonneg _

theorem beginMarker_data (marker : String) :
    (beginMarker marker).data = "<!-- BEGIN ".data ++ marker.data ++ " -->".data := by
  simp [beginMarker, String.data_append]

theorem endMarker_data (marker : String) :
    (endMarker marker).data = "<!-- END ".data ++ marker.data ++ " -->".data := by
  simp [endMarker, String.data_append]

/-- The two markers never start at the same place. -/
theorem Index_begin_ne_end (s marker : String)
    (hb : (beginMarker marker).data <:+: s.data)
    (he : (endMarker marker).data <:+: s.data) :
    Index s (beginMarker marker) ≠ Index s (endMarker marker) := by
  obtain ⟨pre, post, hl, hidx, _⟩ := Index_spec s _ hb
  obtain ⟨pre', post', hl', hidx', _⟩ := Index_spec s _ he
  intro heq
  rw [hidx, hidx'] at heq
  have hlen : pre.length = pre'.length := by exact_mod_cast heq
  rw [hl, List.append_assoc, List.append_assoc] at hl'
  have h2 := (List.append_inj hl' hlen).2
  rw [beginMarker_data, endMarker_data] at h2
  simp at h2

/-! ## Lemmas on the branches of `PatchREADME` -/

theorem drop_eq_cons_getD (l : List Char) (k : Nat) (c d : Char) (t : List Char)
    (h : l.drop k = c :: t) :
    k < l.length ∧ l.getD k d = c ∧ l.drop (k + 1) = t := by
  have hk : k < l.length := by
    by_contra hn
    rw [List.drop_of_length_le (by omega)] at h
    exact List.noConfusion h
  refine ⟨hk, ?_, ?_⟩
  · have h1 : l.drop k = l[k] :: l.drop (k + 1) := List.drop_eq_getElem_cons hk
    rw [h1] at h
    rw [List.getD_eq_getElem _ _ hk]
    exact (List.cons.inj h).1
  · have h1 : l.drop k = l[k] :: l.drop (k + 1) := List.drop_eq_getElem_cons hk
    rw [h1] at h
    exact (List.cons.inj h).2

theorem drop_eq_nil_not_lt (l : List Char) (k : Nat) (h : l.drop k = []) :
    ¬ k < l.length := by
  intro hk
  have h1 : l.drop k = l[k] :: l.drop (k + 1) := List.drop_eq_getElem_cons hk
  rw [h1] at h
  exact List.noConfusion h

theorem getD_cond_iff (l : List Char) (k : Nat) (c : Char) :
    (k < l.length ∧ l.getD k ' ' = c) ↔ (l.drop k).head? = some c := by
  cases hd : l.drop k with
  | nil =>
    have hk := drop_eq_nil_not_lt l k hd
    simp [hk]
  | cons c1 t =>
    obtain ⟨hk, hget, _⟩ := drop_eq_cons_getD l k c1 ' ' t hd
    rw [hget, List.head?_cons]
    exact ⟨fun h => by rw [h.2], fun h => ⟨hk, Option.some.inj h⟩⟩

theorem drop_of_head (l : List Char) (k : Nat) (c : Char)
    (h : (l.drop k).head? = some c) : l.drop k = c :: l.drop (k + 1) := by
  cases hd : l.drop k with
  | nil => rw [hd] at h; simp at h
  | cons c1 t =>
    obtain ⟨_, _, hrest⟩ := drop_eq_cons_getD l k c1 ' ' t hd
    rw [hd] at h
    simp at h
    rw [h, hrest]

theorem skip_lf (l : List Char) (k : Nat) :
    (if k < l.length ∧ l.getD k ' ' = '\n' then k + 1 else k)
        = k + (leadingLF (l.drop k)).length
      ∧ l.drop k = leadingLF (l.drop k)
          ++ l.drop (if k < l.length ∧ l.getD k ' ' = '\n' then k + 1 else k)
      ∧ ((l.drop (if k < l.length ∧ l.getD k ' ' = '\n' then k + 1 else k)).head?
            = some '\n' → leadingLF (l.drop k) = ['\n']) := by
  simp only [getD_cond_iff]
  unfold leadingLF
  by_cases h : (l.drop k).head? = some '\n'
  · have hd := drop_of_head l k _ h
    rw [if_pos h, if_pos h]
    exact ⟨rfl, hd, fun _ => rfl⟩
  · rw [if_neg h, if_neg h]
    exact ⟨rfl, rfl, fun h1 => absurd h1 h⟩

theorem skipTerminator_spec (l : List Char) (k : Nat) :
    skipTerminator l k = k + (lineTerminator (l.drop k)).length
      ∧ l.drop k = lineTerminator (l.drop k) ++ l.drop (skipTerminator l k)
      ∧ ((l.drop (skipTerminator l k)).head? = some '\n' →
          (lineTerminator (l.drop k)).getLast? = some '\n') := by
  unfold skipTerminator lineTerminator
  by_cases h : (l.drop k).head? = some '\r'
  · have hd := drop_of_head l k _ h
    have hc := (getD_cond_iff l k '\r').2 h
    obtain ⟨h1, h2, h3⟩ := skip_lf l (k + 1)
    simp only [if_pos hc, if_pos h]
    have ht : (l.drop k).tail = l.drop (k + 1) := by rw [hd]; rfl
    rw [ht]
    refine ⟨by rw [h1, List.length_cons]; omega, ?_, ?_⟩
    · rw [List.cons_append, ← h2]; exact hd
    · intro h4
      rw [h3 h4]
      rfl
  · have hc : ¬ (k < l.length ∧ l.getD k ' ' = '\r') :=
      fun hc => h ((getD_cond_iff l k '\r').1 hc)
    obtain ⟨h1, h2, h3⟩ := skip_lf l k
    simp only [if_neg hc, if_neg h]
    refine ⟨h1, h2, ?_⟩
    intro h4
    rw [h3 h4]
    rfl

theorem PatchREADME_of_one_marker (existing newSection marker : String)
    (appendIfMissing : Bool)
    (h : (Index existing (beginMarker marker) = -1 ∧ Index existing (endMarker marker) ≠ -1)
      ∨ (Index existing (beginMarker marker) ≠ -1 ∧ Index existing (endMarker marker) = -1)) :
    PatchREADME existing newSection marker appendIfMissing
      = (zeroPatchResult, some (PatchError.markersInconsistent marker)) := by
  unfold beginMarker endMarker at h
  unfold PatchREADME zeroPatchResult
  rcases h with ⟨hb, he⟩ | ⟨hb, he⟩
  · simp only [hb, he, and_false, if_false, true_or, if_true]
  · simp only [hb, he, false_and, if_false, or_true, if_true]

theorem PatchREADME_of_reversed (existing newSection marker : String)
    (appendIfMissing : Bool)
    (hb : Index existing (beginMarker marker) ≠ -1)
    (he : Index existing (endMarker marker) ≠ -1)
    (hgt : Index existing (beginMarker marker) > Index existing (endMarker marker)) :
    PatchREADME existing newSection marker appendIfMissing
      = (zeroPatchResult, some (PatchError.endBeforeBegin marker)) := by
  unfold beginMarker at hb hgt
  unfold endMarker at he hgt
  unfold PatchREADME zeroPatchResult
  simp only [hb, he, false_and, if_false, or_self, hgt, if_true]

theorem PatchREADME_of_ordered (existing newSection marker : String)
    (appendIfMissing : Bool)
    (hb : Index existing (beginMarker marker) ≠ -1)
    (he : Index existing (endMarker marker) ≠ -1)
    (hle : ¬ Index existing (beginMarker marker) > Index existing (endMarker marker)) :
    PatchREADME existing newSection marker appendIfMissing
      = ({ Content := (⟨existing.data.take (Index existing (beginMarker marker)).toNat⟩ : String)
              ++ adaptLineEnding newSection (detectLineEnding existing)
              ++ ⟨existing.data.drop (skipTerminator existing.data
                    ((Index existing (endMarker marker)).toNat
                      + (endMarker marker).data.length))⟩,
           Patched := true }, none) := by
  unfold beginMarker at hb hle
  unfold endMarker at he hle
  unfold PatchREADME skipTerminator beginMarker endMarker
  simp only [hb, he, false_and, if_false, or_self, hle]
  rfl

/-- An occurrence of `sub` in `s` bounds `Index s sub` from above. -/
theorem Index_le_of_occurrence (s sub : String) (pre post : List Char)
    (h : s.data = pre ++ sub.data ++ post) :
    0 ≤ Index s sub ∧ Index s sub ≤ (pre.length : Int) := by
  have hin : sub.data <:+: s.data := ⟨pre, post, h.symm⟩
  obtain ⟨pre0, post0, _, hidx, hmin⟩ := Index_spec s sub hin
  rw [hidx]
  exact ⟨Int.natCast_nonneg _, by exact_mod_cast hmin pre post h⟩

/-- The text before the first occurrence of `sub` in `s` has `Index s sub`
characters. -/
theorem Index_eq_of_first (s sub : String) (pre post : List Char)
    (h : s.data = pre ++ sub.data ++ post)
    (hmin : ∀ p q : List Char, s.data = p ++ sub.data ++ q → pre.length ≤ p.length) :
    Index s sub = (pre.length : Int) := by
  have hin : sub.data <:+: s.data := ⟨pre, post, h.symm⟩
  obtain ⟨pre0, post0, h0, hidx, hmin0⟩ := Index_spec s sub hin
  rw [hidx]
  have h1 := hmin0 pre post h
  have h2 := hmin pre0 post0 h0
  exact_mod_cast Nat.le_antisymm h1 h2

theorem Index_ne_neg_one_of_occurrence (s sub : String) (pre post : List Char)
    (h : s.data = pre ++ sub.data ++ post) : Index s sub ≠ -1 := by
  have := (Index_le_of_occurrence s sub pre post h).1
  omega

theorem take_of_decomposition (l pre rest : List Char) (h : l = pre ++ rest) :
    l.take pre.length = pre := by
  rw [h, List.take_left]

theorem drop_of_decomposition (l pre mid post : List Char) (h : l = pre ++ mid ++ post) :
    l.drop (pre.length + mid.length) = post := by
  rw [h, ← List.length_append, List.drop_left]

/-- The replacement branch of `PatchREADME`, in terms of the texts around the
first occurrences of the two markers. -/
theorem PatchREADME_of_first_occurrences (existing newSection marker : String)
    (appendIfMissing : Bool) (before rest pre tail : List Char)
    (hB : existing.data = before ++ (beginMarker marker).data ++ rest)
    (hBmin : ∀ p q : List Char, existing.data = p ++ (beginMarker marker).data ++ q →
        before.length ≤ p.length)
    (hE : existing.data = pre ++ (endMarker marker).data ++ tail)
    (hEmin : ∀ p q : List Char, existing.data = p ++ (endMarker marker).data ++ q →
        pre.length ≤ p.length)
    (hlt : before.length < pre.length) :
    PatchREADME existing newSection marker appendIfMissing
      = ({ Content := (⟨before⟩ : String)
              ++ adaptLineEnding newSection (detectLineEnding existing)
              ++ ⟨tail.drop (lineTerminator tail).length⟩,
           Patched := true }, none) := by
  have hbi := Index_eq_of_first existing _ before rest hB hBmin
  have hei := Index_eq_of_first existing _ pre tail hE hEmin
  have hb1 := Index_ne_neg_one_of_occurrence existing _ before rest hB
  have he1 := Index_ne_neg_one_of_occurrence existing _ pre tail hE
  have hle : ¬ Index existing (beginMarker marker) > Index existing (endMarker marker) := by
    rw [hbi, hei]
    have : (before.length : Int) < (pre.length : Int) := by exact_mod_cast hlt
    omega
  rw [PatchREADME_of_ordered existing newSection marker appendIfMissing hb1 he1 hle,
    hbi, hei, Int.toNat_ofNat, Int.toNat_ofNat]
  have htake : existing.data.take before.length = before :=
    take_of_decomposition _ _ _ (by rw [hB, List.append_assoc])
  have hdrop : existing.data.drop (pre.length + (endMarker marker).data.length) = tail :=
    drop_of_decomposition _ _ _ _ hE
  obtain ⟨h1, _, _⟩ := skipTerminator_spec existing.data
    (pre.length + (endMarker marker).data.length)
  have hdrop2 : existing.data.drop (skipTerminator existing.data
      (pre.length + (endMarker marker).data.length))
        = tail.drop (lineTerminator tail).length := by
    rw [h1, hdrop, ← List.drop_drop, hdrop]
  rw [htake, hdrop2]

theorem lineTerminator_append_drop (tail : List Char) :
    tail = lineTerminator tail ++ tail.drop (lineTerminator tail).length := by
  unfold lineTerminator leadingLF
  rcases tail with _ | ⟨c, _ | ⟨d, t⟩⟩
  · simp
  · by_cases hc : c = '\r'
    · subst hc; simp
    · by_cases hc2 : c = '\n'
      · subst hc2; simp
      · simp [hc, hc2]
  · by_cases hc : c = '\r'
    · subst hc
      by_cases hd : d = '\n'
      · subst hd; simp
      · simp [hd]
    · by_cases hc2 : c = '\n'
      · subst hc2; simp
      · simp [hc, hc2]

/-! ## Lemmas on `linkNextRe` and `ParseNextLink` -/

theorem linkNextReAt_of_ne (c : Char) (l : List Char) (h : c ≠ '<') :
    linkNextReAt (c :: l) = none := by
  unfold linkNextReAt
  simp only [h, false_and, if_false]

/-- No match starts in a text without `<`. -/
theorem FindStringSubmatch_skip (p l : List Char) (h : '<' ∉ p) :
    FindStringSubmatch (p ++ l) = FindStringSubmatch l := by
  induction p with
  | nil => rfl
  | cons c p ih =>
    have hc : c ≠ '<' := fun hc => h (by rw [hc]; exact List.mem_cons_self _ _)
    have hp : '<' ∉ p := fun hp => h (List.mem_cons_of_mem _ hp)
    rw [List.cons_append, FindStringSubmatch, linkNextReAt_of_ne c _ hc]
    exact ih hp

theorem takeWhile_ne_gt (u t : List Char) (h : '>' ∉ u) :
    (u ++ '>' :: t).takeWhile (fun x => x != '>') = u := by
  induction u with
  | nil => simp
  | cons c u ih =>
    have hc : c ≠ '>' := fun hc => h (by rw [hc]; exact List.mem_cons_self _ _)
    have hu : '>' ∉ u := fun hu => h (List.mem_cons_of_mem _ hu)
    rw [List.cons_append, List.takeWhile_cons]
    simp only [bne_iff_ne, ne_eq, hc, not_false_eq_true, if_true]
    rw [ih hu]

theorem dropWhile_ne_gt (u t : List Char) (h : '>' ∉ u) :
    (u ++ '>' :: t).dropWhile (fun x => x != '>') = '>' :: t := by
  induction u with
  | nil => simp
  | cons c u ih =>
    have hc : c ≠ '>' := fun hc => h (by rw [hc]; exact List.mem_cons_self _ _)
    have hu : '>' ∉ u := fun hu => h (List.mem_cons_of_mem _ hu)
    rw [List.cons_append, List.dropWhile_cons]
    simp only [bne_iff_ne, ne_eq, hc, not_false_eq_true, if_true]
    exact ih hu

/-- Inside a group that is not followed by the rest of the expression, no match
starts. -/
theorem FindStringSubmatch_group (u t : List Char) (h : '>' ∉ u)
    (ht : linkNextReTail ('>' :: t) = false) :
    FindStringSubmatch (u ++ '>' :: t) = FindStringSubmatch ('>' :: t) := by
  induction u with
  | nil => rfl
  | cons c u ih =>
    have hu : '>' ∉ u := fun hu => h (List.mem_cons_of_mem _ hu)
    have hnone : linkNextReAt (c :: (u ++ '>' :: t)) = none := by
      unfold linkNextReAt
      simp only [dropWhile_ne_gt u t hu, ht, Bool.false_eq_true, and_false, if_false]
    rw [List.cons_append, FindStringSubmatch, hnone]
    exact ih hu

/-- At a group followed by the rest of the expression, the match is found. -/
theorem FindStringSubmatch_match (u t : List Char) (h : '>' ∉ u) (hne : u ≠ [])
    (ht : linkNextReTail ('>' :: t) = true) :
    ∃ whole : String, FindStringSubmatch ('<' :: (u ++ '>' :: t)) = [whole, ⟨u⟩] := by
  rw [FindStringSubmatch]
  unfold linkNextReAt
  simp only [dropWhile_ne_gt u t h, takeWhile_ne_gt u t h, ht, hne, ne_eq,
    not_false_eq_true, and_self, if_true]
  exact ⟨_, rfl⟩

theorem dropWhile_space (gap t : List Char) (c : Char) (hgap : gap.all isReSpace = true)
    (hc : isReSpace c = false) :
    (gap ++ c :: t).dropWhile isReSpace = c :: t := by
  induction gap with
  | nil => simp [hc]
  | cons g gap ih =>
    rw [List.all_cons, Bool.and_eq_true] at hgap
    rw [List.cons_append, List.dropWhile_cons, if_pos hgap.1]
    exact ih hgap.2

/-- A text without a double quote, then a double quote, starts another text of
this form only when the two texts are the same. -/
theorem prefix_quote_iff (a b rest : List Char) (ha : '"' ∉ a) (hb : '"' ∉ b) :
    (a ++ ['"']) <+: (b ++ '"' :: rest) ↔ b = a := by
  induction a generalizing b with
  | nil =>
    cases b with
    | nil => simp
    | cons c b =>
      have hc : c ≠ '"' := fun hc => hb (by rw [hc]; exact List.mem_cons_self _ _)
      simp only [List.nil_append, List.cons_append, List.cons_prefix_cons]
      constructor
      · intro h; exact absurd h.1.symm hc
      · intro h; exact absurd h (List.cons_ne_nil _ _)
  | cons x a ih =>
    have hx : x ≠ '"' := fun hx => ha (by rw [hx]; exact List.mem_cons_self _ _)
    have ha2 : '"' ∉ a := fun h => ha (List.mem_cons_of_mem _ h)
    cases b with
    | nil =>
      simp only [List.nil_append, List.cons_append, List.cons_prefix_cons]
      constructor
      · intro h; exact absurd h.1 hx
      · intro h; exact absurd h.symm (List.cons_ne_nil _ _)
    | cons c b =>
      have hb2 : '"' ∉ b := fun h => hb (List.mem_cons_of_mem _ h)
      simp only [List.cons_append, List.cons_prefix_cons, List.cons.injEq]
      rw [ih b ha2 hb2]
      constructor
      · rintro ⟨h1, h2⟩; exact ⟨h1.symm, h2⟩
      · rintro ⟨h1, h2⟩; exact ⟨h1.symm, h2⟩

/-- After the group of an entry, the rest of the expression matches exactly
when the relation is `next`. -/
theorem linkNextReTail_entry (gap rel rest : List Char)
    (hgap : gap.all isReSpace = true) (hq : '"' ∉ rel) :
    linkNextReTail ('>' :: ';' :: (gap ++ "rel=\"".data ++ rel ++ '"' :: rest))
      = decide (rel = "next".data) := by
  unfold linkNextReTail
  have h1 : gap ++ "rel=\"".data ++ rel ++ '"' :: rest
      = gap ++ 'r' :: (['e', 'l', '=', '"'] ++ (rel ++ '"' :: rest)) := by
    rw [List.append_assoc, List.append_assoc]
    rfl
  have h2 : "rel=\"next\"".data = ['r', 'e', 'l', '=', '"'] ++ (['n', 'e', 'x', 't'] ++ ['"']) :=
    rfl
  have h3 : 'r' :: (['e', 'l', '=', '"'] ++ (rel ++ '"' :: rest))
      = ['r', 'e', 'l', '=', '"'] ++ (rel ++ '"' :: rest) := rfl
  have h4 : "next".data = ['n', 'e', 'x', 't'] := rfl
  have h5 : (decide ('>' = '>') && decide (';' = ';')) = true := by decide
  rw [h1]
  show (decide ('>' = '>') && decide (';' = ';')
      && "rel=\"next\"".data.isPrefixOf (List.dropWhile isReSpace
          (gap ++ 'r' :: (['e', 'l', '=', '"'] ++ (rel ++ '"' :: rest)))))
    = decide (rel = "next".data)
  rw [dropWhile_space gap _ 'r' hgap (by decide), h2, h3, h4, h5, Bool.true_and,
    Bool.eq_iff_iff, List.isPrefixOf_iff_prefix, List.prefix_append_right_inj,
    prefix_quote_iff _ _ _ (by decide) hq, decide_eq_true_iff]

theorem renderEntry_data (e : LinkEntry) :
    (renderEntry e).data
      = '<' :: (e.url.data ++ '>' :: ';' :: (e.gap.data ++ "rel=\"".data ++ e.rel.data
          ++ ['"'])) := by
  unfold renderEntry
  simp [String.data_append]

theorem entryWellFormed_iff (e : LinkEntry) :
    entryWellFormed e = true ↔
      e.url.data ≠ [] ∧ '>' ∉ e.url.data ∧ e.gap.data.all isReSpace = true
        ∧ '"' ∉ e.rel.data ∧ '<' ∉ e.rel.data := by
  have h := string_ne_empty_iff e.url
  simp only [ne_eq] at h
  unfold entryWellFormed
  simp [h, and_assoc]

/-- The search in the text of an entry and what follows it. -/
theorem FindStringSubmatch_entry (e : LinkEntry) (rest : List Char)
    (he : entryWellFormed e = true) :
    (e.rel = "next" →
        ∃ whole : String, FindStringSubmatch ((renderEntry e).data ++ rest) = [whole, e.url])
      ∧ (e.rel ≠ "next" →
        FindStringSubmatch ((renderEntry e).data ++ rest) = FindStringSubmatch rest) := by
  obtain ⟨hne, hgt, hgap, hq, hlt⟩ := (entryWellFormed_iff e).mp he
  have hdata : (renderEntry e).data ++ rest
      = '<' :: (e.url.data ++ '>' :: ';' :: (e.gap.data ++ "rel=\"".data ++ e.rel.data
          ++ '"' :: rest)) := by
    rw [renderEntry_data]
    simp
  have htail := linkNextReTail_entry e.gap.data e.rel.data rest hgap hq
  rw [hdata]
  constructor
  · intro hrel
    have ht : linkNextReTail ('>' :: ';' :: (e.gap.data ++ "rel=\"".data ++ e.rel.data
        ++ '"' :: rest)) = true := by
      rw [htail, hrel]
      rfl
    exact FindStringSubmatch_match e.url.data _ hgt hne ht
  · intro hrel
    have hrel2 : e.rel.data ≠ "next".data := fun h => hrel (string_data_inj h)
    have ht : linkNextReTail ('>' :: ';' :: (e.gap.data ++ "rel=\"".data ++ e.rel.data
        ++ '"' :: rest)) = false := by
      rw [htail]
      exact decide_eq_false hrel2
    have hgt2 : '>' ∉ '<' :: e.url.data := by
      intro h
      rcases List.mem_cons.mp h with h | h
      · exact absurd h (by decide)
      · exact hgt h
    have h1 := FindStringSubmatch_group ('<' :: e.url.data) _ hgt2 ht
    rw [List.cons_append] at h1
    rw [h1]
    have hsplit : '>' :: ';' :: (e.gap.data ++ "rel=\"".data ++ e.rel.data ++ '"' :: rest)
        = ('>' :: ';' :: (e.gap.data ++ "rel=\"".data ++ e.rel.data ++ ['"'])) ++ rest := by
      simp
    rw [hsplit]
    apply FindStringSubmatch_skip
    intro hmem
    simp only [List.mem_cons, List.mem_append, List.mem_singleton, List.not_mem_nil,
      or_false] at hmem
    have hspace : ∀ c ∈ e.gap.data, isReSpace c = true := List.all_eq_true.mp hgap
    rcases hmem with h | h | ((h | h) | h) | h
    · exact absurd h (by decide)
    · exact absurd h (by decide)
    · exact absurd (hspace _ h) (by decide)
    · exact absurd h (by decide)
    · exact hlt h
    · exact absurd h (by decide)

theorem ParseNextLink_eq (linkHeader : String) :
    ParseNextLink linkHeader
      = if (FindStringSubmatch linkHeader.data).length < 2 then ""
        else (FindStringSubmatch linkHeader.data).getD 1 "" := by
  unfold ParseNextLink
  by_cases h : linkHeader = ""
  · rw [if_pos h, h]
    rfl
  · rw [if_neg h]

/-- The search in an entry followed by further entries, each after a
separator. -/
theorem FindStringSubmatch_entries (sep : List Char) (hsep : '<' ∉ sep)
    (es : List LinkEntry) (hes : ∀ e ∈ es, entryWellFormed e = true)
    (e : LinkEntry) (he : entryWellFormed e = true) :
    (if (FindStringSubmatch ((renderEntry e).data
            ++ es.flatMap (fun x => sep ++ (renderEntry x).data))).length < 2 then ""
      else (FindStringSubmatch ((renderEntry e).data
            ++ es.flatMap (fun x => sep ++ (renderEntry x).data))).getD 1 "")
      = nextURL (e :: es) := by
  induction es generalizing e with
  | nil =>
    obtain ⟨h1, h2⟩ := FindStringSubmatch_entry e [] he
    by_cases hrel : e.rel = "next"
    · obtain ⟨whole, hw⟩ := h1 hrel
      simp only [List.flatMap_nil] at hw ⊢
      rw [hw]
      simp [nextURL, hrel]
    · have hn := h2 hrel
      simp only [List.flatMap_nil] at hn ⊢
      rw [hn]
      simp [nextURL, hrel, FindStringSubmatch]
  | cons x es ih =>
    have hx : entryWellFormed x = true := hes x (List.mem_cons_self _ _)
    have hes2 : ∀ y ∈ es, entryWellFormed y = true :=
      fun y hy => hes y (List.mem_cons_of_mem _ hy)
    obtain ⟨h1, h2⟩ := FindStringSubmatch_entry e
      ((x :: es).flatMap (fun x => sep ++ (renderEntry x).data)) he
    by_cases hrel : e.rel = "next"
    · obtain ⟨whole, hw⟩ := h1 hrel
      rw [hw]
      simp [nextURL, hrel]
    · rw [h2 hrel, List.flatMap_cons, List.append_assoc, FindStringSubmatch_skip _ _ hsep,
        ih hes2 x hx]
      simp [nextURL, hrel]

/-! ## Lemmas on the loop of `FetchAllRepos` -/

theorem fetchPage_page (decode : String → Except String (List Repository)) (url : String)
    (p : Page) (repos : List Repository) (h : decode p.Body = Except.ok repos) :
    fetchPage decode url (pageAnswer p) = Except.ok (repos, ParseNextLink p.Link) := by
  unfold fetchPage pageAnswer
  simp only [ne_eq, not_true_eq_false, if_false, h]

theorem pageRecords_of_ok (decode : String → Except String (List Repository)) (p : Page)
    (repos : List Repository) (h : decode p.Body = Except.ok repos) :
    pageRecords decode p = repos := by
  unfold pageRecords
  rw [h]

/-- One turn of the loop on a page that decodes. -/
theorem fetchLoop_page (requestError : String → Option String)
    (decode : String → Except String (List Repository)) (c : Client)
    (p : Page) (rest : List DoResult) (url : String) (allRepos : List Repository)
    (sent : List Request) (hurl : url ≠ "") (hreq : requestError url = none)
    (hdec : ∃ repos, decode p.Body = Except.ok repos) :
    fetchLoop requestError decode c (pageAnswer p :: rest) url allRepos sent
      = fetchLoop requestError decode c rest (ParseNextLink p.Link)
          (allRepos ++ pageRecords decode p) (sent ++ [newRequest c url]) := by
  obtain ⟨repos, hrepos⟩ := hdec
  rw [fetchLoop]
  simp only [hurl, if_false, hreq, fetchPage_page decode url p repos hrepos,
    pageRecords_of_ok decode p repos hrepos]

/-- The loop over a chain of pages that decode, each requested URL being a
URL a request can be created for. -/
theorem fetchLoop_chain (requestError : String → Option String)
    (decode : String → Except String (List Repository)) (c : Client)
    (pages : List Page) (rest : List DoResult) (first : String)
    (allRepos : List Repository) (sent : List Request)
    (hurls : ∀ u ∈ chainURLs first pages, u ≠ "" ∧ requestError u = none)
    (hdec : ∀ p ∈ pages, ∃ repos, decode p.Body = Except.ok repos) :
    fetchLoop requestError decode c (pages.map pageAnswer ++ rest) first allRepos sent
      = fetchLoop requestError decode c rest (chainEnd first pages)
          (allRepos ++ pages.flatMap (pageRecords decode))
          (sent ++ (chainURLs first pages).map (newRequest c)) := by
  induction pages generalizing first allRepos sent with
  | nil => simp [chainEnd, chainURLs]
  | cons p ps ih =>
    have h1 := hurls first (by simp [chainURLs])
    rw [List.map_cons, List.cons_append,
      fetchLoop_page requestError decode c p _ first allRepos sent h1.1 h1.2
        (hdec p (List.mem_cons_self _ _)),
      ih (ParseNextLink p.Link) _ _
        (fun u hu => hurls u (by simp [chainURLs, hu]))
        (fun q hq => hdec q (List.mem_cons_of_mem _ hq))]
    simp [chainEnd, chainURLs, List.flatMap_cons, List.append_assoc]

theorem chainURLs_append_singleton (first : String) (init : List Page) (last : Page) :
    chainURLs first (init ++ [last])
      = first :: init.map (fun p => ParseNextLink p.Link) := by
  induction init generalizing first with
  | nil => rfl
  | cons p ps ih =>
    rw [List.cons_append, chainURLs, ih]
    cases ps <;> simp

theorem chainEnd_append_singleton (first : String) (init : List Page) (last : Page) :
    chainEnd first (init ++ [last]) = ParseNextLink last.Link := by
  induction init generalizing first with
  | nil => rfl
  | cons p ps ih => rw [List.cons_append, chainEnd, ih]

theorem chainURLs_eq_dropLast (first : String) (pages : List Page) :
    chainURLs first pages
      = (first :: pages.map (fun p => ParseNextLink p.Link)).dropLast := by
  induction pages generalizing first with
  | nil => rfl
  | cons p ps ih =>
    rw [chainURLs, ih, List.map_cons, List.dropLast_cons₂]

theorem chainEnd_eq_getLast (first : String) (pages : List Page) :
    chainEnd first pages
      = (first :: pages.map (fun p => ParseNextLink p.Link)).getLast
          (List.cons_ne_nil _ _) := by
  induction pages generalizing first with
  | nil => rfl
  | cons p ps ih =>
    rw [chainEnd, ih]
    simp [List.getLast_cons]

theorem firstURL_ne_empty (base user : String) :
    base ++ "/users/" ++ user ++ "/repos?type=owner&per_page=100&page=1" ≠ "" := by
  intro h
  have h2 := congrArg String.length h
  simp only [String.length_append] at h2
  have h3 : "/repos?type=owner&per_page=100&page=1".length = 37 := by decide
  have h4 : "".length = 0 := rfl
  omega

theorem chainURLs_mem (first : String) (pages : List Page) (u : String)
    (h : u ∈ chainURLs first pages) :
    u ∈ first :: pages.map (fun p => ParseNextLink p.Link) := by
  rw [chainURLs_eq_dropLast] at h
  exact List.dropLast_subset _ h

theorem chainEnd_mem (first : String) (pages : List Page) :
    chainEnd first pages ∈ first :: pages.map (fun p => ParseNextLink p.Link) := by
  rw [chainEnd_eq_getLast]
  exact List.getLast_mem _

theorem chainURLs_concat_chainEnd (first : String) (pages : List Page) :
    chainURLs first pages ++ [chainEnd first pages]
      = first :: pages.map (fun p => ParseNextLink p.Link) := by
  rw [chainURLs_eq_dropLast, chainEnd_eq_getLast]
  exact List.dropLast_append_getLast _

/-- The URLs of a chain are not empty when each page has a next link. -/
theorem chain_ne_empty (base user : String) (pages : List Page)
    (hnext : ∀ p ∈ pages, ParseNextLink p.Link ≠ "") :
    ∀ u ∈ (base ++ "/users/" ++ user ++ "/repos?type=owner&per_page=100&page=1")
        :: pages.map (fun p => ParseNextLink p.Link), u ≠ "" := by
  intro u hu
  rcases List.mem_cons.mp hu with h | h
  · rw [h]
    exact firstURL_ne_empty base user
  · obtain ⟨p, hp, hpu⟩ := List.mem_map.mp h
    rw [← hpu]
    exact hnext p hp

/-- The loop stops at the first answer that `fetchPage` turns into an error. -/
theorem fetchLoop_error (requestError : String → Option String)
    (decode : String → Except String (List Repository)) (c : Client)
    (bad : DoResult) (rest : List DoResult) (url msg : String)
    (allRepos : List Repository) (sent : List Request)
    (hurl : url ≠ "") (hreq : requestError url = none)
    (hbad : fetchPage decode url bad = Except.error msg) :
    fetchLoop requestError decode c (bad :: rest) url allRepos sent
      = some { repos := [], err := some msg, sent := sent ++ [newRequest c url] } := by
  rw [fetchLoop]
  simp only [hurl, if_false, hreq, hbad]

theorem fetchLoop_done (requestError : String → Option String)
    (decode : String → Except String (List Repository)) (c : Client)
    (script : List DoResult) (allRepos : List Repository) (sent : List Request) :
    fetchLoop requestError decode c script "" allRepos sent
      = some { repos := allRepos, err := none, sent := sent } := by
  cases script <;> simp [fetchLoop]

/-! ## Lemmas on line feeds after carriage returns -/

/-- The check `lfAfterCR`, in words: every line feed of the text has a
carriage return right before it, the first character of the text having one
exactly when `prevCR` is set. -/
theorem lfAfterCR_iff (b : Bool) (l : List Char) :
    lfAfterCR b l = true ↔
      ∀ pre post : List Char, l = pre ++ '\n' :: post →
        (pre = [] ∧ b = true) ∨ ∃ pre', pre = pre' ++ ['\r'] := by
  induction l generalizing b with
  | nil =>
    simp only [lfAfterCR, true_iff]
    intro pre post h
    have h2 := congrArg List.length h
    simp only [List.length_nil, List.length_append, List.length_cons] at h2
    omega
  | cons c cs ih =>
    rw [lfAfterCR, Bool.and_eq_true, ih]
    constructor
    · rintro ⟨h1, h2⟩ pre post hsplit
      cases pre with
      | nil =>
        left
        simp only [List.nil_append, List.cons.injEq] at hsplit
        rw [hsplit.1] at h1
        simpa using h1
      | cons d pre =>
        right
        simp only [List.cons_append, List.cons.injEq] at hsplit
        rcases h2 pre post hsplit.2 with ⟨hp, hb⟩ | ⟨pre', hp⟩
        · refine ⟨[], ?_⟩
          rw [hp, ← hsplit.1]
          simp only [beq_iff_eq] at hb
          rw [hb]
          rfl
        · exact ⟨d :: pre', by rw [hp]; rfl⟩
    · intro h
      constructor
      · by_cases hc : c = '\n'
        · rcases h [] cs (by rw [hc]; rfl) with ⟨_, hb⟩ | ⟨pre', hp⟩
          · simp [hb]
          · exact absurd (congrArg List.length hp) (by simp)
        · simp [hc]
      · intro pre post hsplit
        rcases h (c :: pre) post (by rw [hsplit]; rfl) with ⟨hp, _⟩ | ⟨pre', hp⟩
        · exact absurd hp (List.cons_ne_nil _ _)
        · cases pre' with
          | nil =>
            left
            simp only [List.nil_append, List.cons.injEq] at hp
            exact ⟨hp.2, by rw [hp.1]; rfl⟩
          | cons d pre'' =>
            right
            simp only [List.cons_append, List.cons.injEq] at hp
            exact ⟨pre'', hp.2⟩

/-- No bare line feed, in words. -/
theorem noBareLF_iff (s : String) :
    noBareLF s = true ↔
      ∀ pre post : List Char, s.data = pre ++ '\n' :: post → ∃ pre', pre = pre' ++ ['\r'] := by
  unfold noBareLF
  rw [lfAfterCR_iff]
  constructor
  · intro h pre post hsplit
    rcases h pre post hsplit with ⟨_, hb⟩ | h2
    · exact absurd hb (by decide)
    · exact h2
  · intro h pre post hsplit
    exact Or.inr (h pre post hsplit)

theorem lfAfterCR_append_of (b : Bool) (x y : List Char) (hx : lfAfterCR b x = true)
    (hy : ∀ b', lfAfterCR b' y = true) : lfAfterCR b (x ++ y) = true := by
  induction x generalizing b with
  | nil => exact hy b
  | cons c cs ih =>
    rw [lfAfterCR, Bool.and_eq_true] at hx
    rw [List.cons_append, lfAfterCR, Bool.and_eq_true]
    exact ⟨hx.1, ih _ hx.2⟩

theorem lfAfterCR_prefix (b : Bool) (x y : List Char) (h : lfAfterCR b (x ++ y) = true) :
    lfAfterCR b x = true := by
  induction x generalizing b with
  | nil => rfl
  | cons c cs ih =>
    rw [List.cons_append, lfAfterCR, Bool.and_eq_true] at h
    rw [lfAfterCR, Bool.and_eq_true]
    exact ⟨h.1, ih _ h.2⟩

theorem lfAfterCR_suffix (b : Bool) (x y : List Char) (h : lfAfterCR b (x ++ y) = true) :
    ∃ b', lfAfterCR b' y = true := by
  induction x generalizing b with
  | nil => exact ⟨b, h⟩
  | cons c cs ih =>
    rw [List.cons_append, lfAfterCR, Bool.and_eq_true] at h
    exact ih _ h.2

/-- The flag matters for a first line feed only. -/
theorem lfAfterCR_flag (b b' : Bool) (y : List Char) (hy : y.head? ≠ some '\n')
    (h : lfAfterCR b y = true) : lfAfterCR b' y = true := by
  cases y with
  | nil => rfl
  | cons c cs =>
    have hc : c ≠ '\n' := fun hc => hy (by rw [hc]; rfl)
    rw [lfAfterCR, Bool.and_eq_true] at h ⊢
    exact ⟨by simp [hc], h.2⟩

theorem lfAfterCR_two_lf (b : Bool) (x t : List Char) :
    lfAfterCR b (x ++ '\n' :: '\n' :: t) = false := by
  induction x generalizing b with
  | nil => simp [lfAfterCR]
  | cons c cs ih => rw [List.cons_append, lfAfterCR, ih, Bool.and_false]

/-- Replacing one character: every occurrence is replaced. -/
theorem replaceFrom_char (old : Char) (new l : List Char) :
    replaceFrom [old] new 0 l = l.flatMap (fun c => if c = old then new else [c]) := by
  induction l with
  | nil => rfl
  | cons c cs ih =>
    by_cases hc : c = old
    · subst hc
      simp [replaceFrom, ih]
    · have hne : ¬ old = c := fun h => hc h.symm
      simp [replaceFrom, ih, hc, hne]

theorem ReplaceAll_lf_crlf (s : String) :
    (ReplaceAll s "\n" "\r\n").data
      = s.data.flatMap (fun c => if c = '\n' then ['\r', '\n'] else [c]) := by
  unfold ReplaceAll
  rw [if_neg (by decide), if_neg (by decide)]
  exact replaceFrom_char '\n' ['\r', '\n'] s.data

theorem lfAfterCR_flatMap (b : Bool) (l : List Char) :
    lfAfterCR b (l.flatMap (fun c => if c = '\n' then ['\r', '\n'] else [c])) = true := by
  induction l generalizing b with
  | nil => rfl
  | cons c cs ih =>
    rw [List.flatMap_cons]
    by_cases hc : c = '\n'
    · rw [if_pos hc]
      simp [lfAfterCR, ih]
    · rw [if_neg hc]
      simp [lfAfterCR, ih, hc]

/-- A section adapted to carriage return and line feed has no bare line feed,
whatever comes before it. -/
theorem lfAfterCR_adaptLineEnding (b : Bool) (content : String) :
    lfAfterCR b (adaptLineEnding content "\r\n").data = true := by
  unfold adaptLineEnding
  rw [if_pos rfl]
  simp only []
  rw [ReplaceAll_lf_crlf]
  exact lfAfterCR_flatMap b _

/-- In a document without bare line feed, the text kept after the END marker
never starts with a line feed. -/
theorem after_no_leading_lf (l : List Char) (k : Nat) (h : lfAfterCR false l = true) :
    (l.drop (skipTerminator l k)).head? ≠ some '\n' := by
  intro hhead
  obtain ⟨_, hsplit, hlast⟩ := skipTerminator_spec l k
  have hterm := hlast hhead
  obtain ⟨t, ht⟩ := List.getLast?_eq_some_iff.mp hterm
  have hafter := drop_of_head l (skipTerminator l k) '\n' hhead
  have hl : l = (l.take k ++ t) ++ '\n' :: '\n' :: l.drop (skipTerminator l k + 1) := by
    conv_lhs => rw [← List.take_append_drop k l, hsplit, ht, hafter]
    simp
  rw [hl, lfAfterCR_two_lf] at h
  exact Bool.false_ne_true h

theorem lfAfterCR_appendSeparator (b : Bool) (existing : String)
    (hle : detectLineEnding existing = "\r\n") :
    lfAfterCR b (appendSeparator existing).data = true := by
  unfold appendSeparator
  rw [hle]
  split_ifs <;> cases b <;> rfl

/-- The content of a successful patch of a document with carriage returns and
line feeds has no bare line feed when the document has none. -/
theorem noBareLF_PatchREADME (existing newSection marker : String)
    (appendIfMissing : Bool) (hcrlf : Contains existing "\r\n" = true)
    (hdoc : noBareLF existing = true)
    (hok : (PatchREADME existing newSection marker appendIfMissing).2 = none) :
    noBareLF (PatchREADME existing newSection marker appendIfMissing).1.Content = true := by
  have hle : detectLineEnding existing = "\r\n" := by
    unfold detectLineEnding
    rw [if_pos hcrlf]
  unfold noBareLF at hdoc ⊢
  by_cases hb : Index existing (beginMarker marker) = -1
  · by_cases he : Index existing (endMarker marker) = -1
    · rw [PatchREADME_of_no_markers existing newSection marker appendIfMissing hb he] at hok ⊢
      cases appendIfMissing with
      | false => exact absurd hok (by simp)
      | true =>
        simp only [if_true, String.data_append, List.append_assoc]
        rw [hle]
        exact lfAfterCR_append_of _ _ _ hdoc (fun b' =>
          lfAfterCR_append_of _ _ _ (lfAfterCR_appendSeparator b' existing hle)
            (fun b'' => lfAfterCR_adaptLineEnding b'' newSection))
    · rw [PatchREADME_of_one_marker existing newSection marker appendIfMissing
        (Or.inl ⟨hb, he⟩)] at hok
      exact absurd hok (by simp)
  · by_cases he : Index existing (endMarker marker) = -1
    · rw [PatchREADME_of_one_marker existing newSection marker appendIfMissing
        (Or.inr ⟨hb, he⟩)] at hok
      exact absurd hok (by simp)
    · by_cases hgt : Index existing (beginMarker marker) > Index existing (endMarker marker)
      · rw [PatchREADME_of_reversed existing newSection marker appendIfMissing hb he hgt] at hok
        exact absurd hok (by simp)
      · rw [PatchREADME_of_ordered existing newSection marker appendIfMissing hb he hgt]
        simp only [String.data_append, List.append_assoc]
        rw [hle]
        have hbefore : lfAfterCR false
            (existing.data.take (Index existing (beginMarker marker)).toNat) = true := by
          apply lfAfterCR_prefix false _ (existing.data.drop
            (Index existing (beginMarker marker)).toNat)
          rw [List.take_append_drop]
          exact hdoc
        have hafter : ∀ b', lfAfterCR b' (existing.data.drop (skipTerminator existing.data
            ((Index existing (endMarker marker)).toNat + (endMarker marker).data.length)))
              = true := by
          intro b'
          have hsuf : lfAfterCR false (existing.data.take (skipTerminator existing.data
              ((Index existing (endMarker marker)).toNat + (endMarker marker).data.length))
              ++ existing.data.drop (skipTerminator existing.data
              ((Index existing (endMarker marker)).toNat + (endMarker marker).data.length)))
                = true := by
            rw [List.take_append_drop]
            exact hdoc
          obtain ⟨b0, hb0⟩ := lfAfterCR_suffix _ _ _ hsuf
          exact lfAfterCR_flag b0 b' _ (after_no_leading_lf _ _ hdoc) hb0
        exact lfAfterCR_append_of _ _ _ hbefore (fun b' =>
          lfAfterCR_append_of _ _ _ (lfAfterCR_adaptLineEnding b' newSection) hafter)

/-! ## Lemmas on occurrences and line terminators -/

theorem prefix_of_not_mem (c : Char) (sub x y : List Char) (hc : c ∉ sub)
    (h : sub <+: x ++ c :: y) : sub <+: x := by
  rcases List.prefix_or_prefix_of_prefix h (List.prefix_append x (c :: y)) with h1 | h1
  · exact h1
  · obtain ⟨r, hr⟩ := h1
    rw [← hr, List.prefix_append_right_inj] at h
    cases r with
    | nil => rw [← hr, List.append_nil]
    | cons d r =>
      exfalso
      rw [List.cons_prefix_cons] at h
      apply hc
      rw [← hr, ← h.1]
      exact List.mem_append_right _ (List.mem_cons_self _ _)

/-- An occurrence of a text without the character `c` in `x ++ c :: y` lies in
`x` or in `y`. -/
theorem infix_split_at (c : Char) (sub x y : List Char) (hc : c ∉ sub)
    (h : sub <:+: x ++ c :: y) : sub <:+: x ∨ sub <:+: y := by
  induction x with
  | nil =>
    rw [List.nil_append, List.infix_cons_iff] at h
    rcases h with h | h
    · left
      exact (prefix_of_not_mem c sub [] y hc h).isInfix
    · exact Or.inr h
  | cons d x ih =>
    rw [List.cons_append, List.infix_cons_iff] at h
    rcases h with h | h
    · left
      exact (prefix_of_not_mem c sub (d :: x) y hc h).isInfix
    · rcases ih h with h1 | h1
      · left
        exact h1.trans (List.suffix_cons d x).isInfix
      · exact Or.inr h1

/-- An occurrence of a text without carriage return and line feed lies on one
side of a line terminator. -/
theorem infix_split_terminator (t sub x y : List Char)
    (ht : t = ['\n'] ∨ t = ['\r', '\n']) (hne : sub ≠ [])
    (hcr : '\r' ∉ sub) (hlf : '\n' ∉ sub) (h : sub <:+: x ++ t ++ y) :
    sub <:+: x ∨ sub <:+: y := by
  rcases ht with ht | ht
  · subst ht
    rw [List.append_assoc] at h
    exact infix_split_at '\n' sub x y hlf h
  · subst ht
    rw [List.append_assoc] at h
    rcases infix_split_at '\r' sub x ('\n' :: y) hcr h with h1 | h1
    · exact Or.inl h1
    · rcases infix_split_at '\n' sub [] y hlf h1 with h2 | h2
      · exact absurd (List.infix_nil.mp h2) hne
      · exact Or.inr h2

/-- An occurrence of a text without carriage return and line feed in lines
followed by `z` lies in one of the lines or in `z`. -/
theorem infix_linesText (t sub : List Char) (lines : List (List Char)) (z : List Char)
    (ht : t = ['\n'] ∨ t = ['\r', '\n']) (hne : sub ≠ [])
    (hcr : '\r' ∉ sub) (hlf : '\n' ∉ sub) (h : sub <:+: linesText t lines ++ z) :
    (∃ s ∈ lines, sub <:+: s) ∨ sub <:+: z := by
  induction lines with
  | nil => exact Or.inr h
  | cons s rest ih =>
    have hshape : linesText t (s :: rest) ++ z = s ++ t ++ (linesText t rest ++ z) := by
      simp [linesText, List.flatMap_cons]
    rw [hshape] at h
    rcases infix_split_terminator t sub s _ ht hne hcr hlf h with h1 | h1
    · exact Or.inl ⟨s, List.mem_cons_self _ _, h1⟩
    · rcases ih h1 with ⟨s', hs', h2⟩ | h2
      · exact Or.inl ⟨s', List.mem_cons_of_mem _ hs', h2⟩
      · exact Or.inr h2

theorem linesText_cons (t s : List Char) (rest : List (List Char)) :
    linesText t (s :: rest) = s ++ t ++ linesText t rest := by
  simp [linesText, List.flatMap_cons]

theorem linesText_append (t : List Char) (xs ys : List (List Char)) :
    linesText t (xs ++ ys) = linesText t xs ++ linesText t ys := by
  simp [linesText, List.flatMap_append]

theorem recordLines_data (fold : Char → Char) (parse : String → Option URL)
    (repos : List Repository) :
    (recordLines fold parse repos).data
      = linesText ['\n'] (repos.map (fun r => (formatRepoLine fold parse r).data)) := by
  induction repos with
  | nil => rfl
  | cons r rest ih =>
    rw [recordLines, List.map_cons, linesText_cons, String.data_append, String.data_append, ih]

/-- The output of `RenderMarkdown`, line by line: the BEGIN marker, the body,
the END marker, each followed by a line feed. -/
theorem RenderMarkdown_lines (fold : Char → Char) (parse : String → Option URL)
    (repos : List Repository) (marker : String) :
    (RenderMarkdown fold parse repos marker).data
      = linesText ['\n'] ((beginMarker marker).data :: sectionBody fold parse repos
          ++ [(endMarker marker).data]) := by
  rw [RenderMarkdown_eq]
  unfold sectionBody beginMarker endMarker
  by_cases h : repos = []
  · simp [h, linesText, String.data_append]
  · simp only [h, if_false, String.data_append, recordLines_data]
    simp [linesText, List.flatMap_append]

/-! ## Lemmas on the adaptation of a section -/

theorem replaceFrom_crlf_of_no_cr (new l : List Char) (h : '\r' ∉ l) :
    replaceFrom ['\r', '\n'] new 0 l = l := by
  induction l with
  | nil => rfl
  | cons c cs ih =>
    have hc : c ≠ '\r' := fun hc => h (by rw [hc]; exact List.mem_cons_self _ _)
    have hcs : '\r' ∉ cs := fun hm => h (List.mem_cons_of_mem _ hm)
    have hp : List.isPrefixOf ['\r', '\n'] (c :: cs) = false := by
      have hne : ('\r' == c) = false := by
        rw [beq_eq_false_iff_ne]
        exact fun h => hc h.symm
      simp [List.isPrefixOf, hne]
    rw [replaceFrom, hp]
    simp only [Bool.false_eq_true, if_false]
    rw [ih hcs]

theorem ReplaceAll_crlf_of_no_cr (s : String) (h : '\r' ∉ s.data) :
    ReplaceAll s "\r\n" "\n" = s := by
  unfold ReplaceAll
  rw [if_neg (by decide), if_neg (by decide)]
  apply string_data_inj
  exact replaceFrom_crlf_of_no_cr _ _ h

theorem flatMap_lf_of_no_lf (l : List Char) (h : '\n' ∉ l) :
    l.flatMap (fun c => if c = '\n' then ['\r', '\n'] else [c]) = l := by
  induction l with
  | nil => rfl
  | cons c cs ih =>
    have hc : c ≠ '\n' := fun hc => h (by rw [hc]; exact List.mem_cons_self _ _)
    have hcs : '\n' ∉ cs := fun hm => h (List.mem_cons_of_mem _ hm)
    rw [List.flatMap_cons, if_neg hc, ih hcs]
    rfl

theorem flatMap_lf_linesText (lines : List (List Char)) (h : ∀ s ∈ lines, '\n' ∉ s) :
    (linesText ['\n'] lines).flatMap (fun c => if c = '\n' then ['\r', '\n'] else [c])
      = linesText ['\r', '\n'] lines := by
  induction lines with
  | nil => rfl
  | cons s rest ih =>
    rw [linesText_cons, linesText_cons, List.flatMap_append, List.flatMap_append,
      flatMap_lf_of_no_lf s (h s (List.mem_cons_self _ _)),
      ih (fun x hx => h x (List.mem_cons_of_mem _ hx))]
    rfl

theorem not_mem_linesText (c : Char) (t : List Char) (lines : List (List Char))
    (ht : c ∉ t) (h : ∀ s ∈ lines, c ∉ s) : c ∉ linesText t lines := by
  unfold linesText
  intro hm
  rw [List.mem_flatMap] at hm
  obtain ⟨s, hs, hcs⟩ := hm
  rcases List.mem_append.mp hcs with h1 | h1
  · exact h s hs h1
  · exact ht h1

/-- The two line endings `detectLineEnding` can give. -/
theorem detectLineEnding_cases (content : String) :
    (detectLineEnding content = "\n" ∧ Contains content "\r\n" = false)
      ∨ (detectLineEnding content = "\r\n" ∧ Contains content "\r\n" = true) := by
  unfold detectLineEnding
  by_cases h : Contains content "\r\n" = true
  · exact Or.inr ⟨by rw [if_pos h], h⟩
  · rw [Bool.not_eq_true] at h
    exact Or.inl ⟨by rw [if_neg (by rw [h]; decide)], h⟩

/-- Adapting a section made of lines without carriage return and line feed
changes the line terminators, and nothing else. -/
theorem adaptLineEnding_linesText (section_ : String) (lines : List (List Char))
    (lineEnding : String) (hle : lineEnding = "\n" ∨ lineEnding = "\r\n")
    (hs : section_.data = linesText ['\n'] lines)
    (hcr : ∀ s ∈ lines, '\r' ∉ s) (hlf : ∀ s ∈ lines, '\n' ∉ s) :
    (adaptLineEnding section_ lineEnding).data = linesText lineEnding.data lines := by
  unfold adaptLineEnding
  rcases hle with hle | hle
  · subst hle
    rw [if_neg (by decide), hs]
  · subst hle
    rw [if_pos rfl]
    simp only []
    have hno : '\r' ∉ section_.data := by
      rw [hs]
      exact not_mem_linesText '\r' _ lines (by decide) hcr
    rw [ReplaceAll_crlf_of_no_cr section_ hno, ReplaceAll_lf_crlf, hs,
      flatMap_lf_linesText lines hlf]

/-! ## Lemmas on the places where the END marker cannot occur -/

theorem not_mem_beginMarker (c : Char) (marker : String) (hm : c ∉ marker.data)
    (hc : c ∉ "<!-- BEGIN -->".data) : c ∉ (beginMarker marker).data := by
  rw [beginMarker_data]
  intro h
  rcases List.mem_append.mp h with h1 | h1
  · rcases List.mem_append.mp h1 with h2 | h2
    · apply hc
      revert h2
      simp only [List.mem_cons, List.not_mem_nil, or_false]
      rintro (h | h | h | h | h | h | h | h | h | h | h) <;> simp [h]
    · exact hm h2
  · apply hc
    revert h1
    simp only [List.mem_cons, List.not_mem_nil, or_false]
    rintro (h | h | h | h) <;> simp [h]

theorem not_mem_endMarker (c : Char) (marker : String) (hm : c ∉ marker.data)
    (hc : c ∉ "<!-- END -->".data) : c ∉ (endMarker marker).data := by
  rw [endMarker_data]
  intro h
  rcases List.mem_append.mp h with h1 | h1
  · rcases List.mem_append.mp h1 with h2 | h2
    · apply hc
      revert h2
      simp only [List.mem_cons, List.not_mem_nil, or_false]
      rintro (h | h | h | h | h | h | h | h | h) <;> simp [h]
    · exact hm h2
  · apply hc
    revert h1
    simp only [List.mem_cons, List.not_mem_nil, or_false]
    rintro (h | h | h | h) <;> simp [h]

theorem endMarker_cons (marker : String) :
    (endMarker marker).data
      = '<' :: '!' :: '-' :: '-' :: ' ' :: ("END ".data ++ marker.data ++ " -->".data) := by
  rw [endMarker_data]
  rfl

theorem beginMarker_cons (marker : String) :
    (beginMarker marker).data
      = '<' :: '!' :: '-' :: '-' :: ' ' :: 'B' ::
          ("EGIN ".data ++ marker.data ++ " -->".data) := by
  rw [beginMarker_data]
  rfl

theorem marker_lengths (marker : String) :
    (beginMarker marker).data.length = (endMarker marker).data.length + 2 := by
  rw [beginMarker_data, endMarker_data]
  simp only [List.length_append, List.length_cons, List.length_nil]
  omega

/-- The END marker does not occur in the BEGIN marker. -/
theorem endMarker_not_infix_beginMarker (marker : String) :
    ¬ (endMarker marker).data <:+: (beginMarker marker).data := by
  rintro ⟨a, q, h⟩
  have hlen := congrArg List.length h
  simp only [List.length_append, marker_lengths] at hlen
  rw [endMarker_cons, beginMarker_cons] at h
  rcases a with _ | ⟨c, _ | ⟨d, _ | ⟨e, a⟩⟩⟩
  · simp at h
  · simp at h
  · simp at h
  · simp only [List.length_cons] at hlen
    omega

/-- The END marker occurs in no text without `<`. -/
theorem endMarker_not_infix_of_no_lt (marker : String) (s : List Char) (h : '<' ∉ s) :
    ¬ (endMarker marker).data <:+: s := by
  rintro ⟨a, q, hs⟩
  apply h
  rw [← hs, endMarker_cons]
  simp

theorem not_mem_urlEscaper_space (c : Char) : ' ' ∉ urlEscaper c := by
  unfold urlEscaper
  split_ifs with h1 h2 h3
  · decide
  · decide
  · decide
  · intro hm
    rw [List.mem_singleton] at hm
    exact h3 hm.symm

theorem not_mem_sanitizeMarkdownURL_space (fold : Char → Char)
    (parse : String → Option URL) (raw : String) :
    ' ' ∉ (sanitizeMarkdownURL fold parse raw).data := by
  unfold sanitizeMarkdownURL
  simp only []
  split_ifs with h1
  · simp
  · split
    · simp
    · split_ifs
      · simp
      · intro hm
        rw [List.mem_flatMap] at hm
        obtain ⟨c, _, hc⟩ := hm
        exact not_mem_urlEscaper_space c hc

/-- The text `<!-- `, with its space, occurs in no line of a record: a `<` of
a line is in its URL, which has no space and is followed by `)`. -/
theorem comment_open_not_infix_line (fold : Char → Char) (parse : String → Option URL)
    (r : Repository) :
    ¬ ['<', '!', '-', '-', ' '] <:+: (formatRepoLine fold parse r).data := by
  have hNlt : '<' ∉ (escapedName r).data := not_mem_escapeMarkdownInline_lt _
  have htail : '<' ∉ (optionalSegments r).flatMap (fun s => ' ' :: s.data) :=
    not_mem_optionalSegments '<' r (by decide)
      (not_mem_escapeMarkdownInline_lt _) (not_mem_escapeMarkdownInline_lt _)
  have hmem : ∀ l : List Char, ['<', '!', '-', '-', ' '] <:+: l → '<' ∈ l := by
    rintro l ⟨a, q, hl⟩
    rw [← hl]
    simp
  rw [formatRepoLine_data]
  unfold linkSegment
  by_cases hU : sanitizeMarkdownURL fold parse r.HTMLURL = ""
  · rw [if_neg (by simp [hU])]
    intro h
    have hm := hmem _ h
    simp only [String.data_append, List.mem_append] at hm
    rcases hm with (hm | hm) | hm
    · revert hm
      decide
    · exact hNlt hm
    · exact htail hm
  · rw [if_pos hU]
    intro h
    have hshape : ("- [" ++ escapedName r ++ "](" ++ sanitizeMarkdownURL fold parse r.HTMLURL
          ++ ")").data ++ (optionalSegments r).flatMap (fun s => ' ' :: s.data)
        = (("- [" ++ escapedName r ++ "](").data
            ++ (sanitizeMarkdownURL fold parse r.HTMLURL).data)
          ++ ')' :: (optionalSegments r).flatMap (fun s => ' ' :: s.data) := by
      simp [String.data_append]
    rw [hshape] at h
    rcases infix_split_at ')' _ _ _ (by decide) h with h1 | h1
    · have ha : '<' ∉ ("- [" ++ escapedName r ++ "](").data := by
        simp only [String.data_append, List.mem_append]
        rintro ((hm | hm) | hm)
        · revert hm
          decide
        · exact hNlt hm
        · revert hm
          decide
      have h2 := infix_drop_left '<' ['!', '-', '-', ' '] _ _ ha h1
      obtain ⟨a, q, hq⟩ := h2
      apply not_mem_sanitizeMarkdownURL_space fold parse r.HTMLURL
      rw [← hq]
      simp
    · exact htail (hmem _ h1)

/-- The END marker occurs in no line of a record. -/
theorem endMarker_not_infix_line (fold : Char → Char) (parse : String → Option URL)
    (r : Repository) (marker : String) :
    ¬ (endMarker marker).data <:+: (formatRepoLine fold parse r).data := by
  intro h
  apply comment_open_not_infix_line fold parse r
  refine List.IsInfix.trans ?_ h
  rw [endMarker_cons]
  exact ⟨[], "END ".data ++ marker.data ++ " -->".data, by simp⟩

/-- The END marker occurs in no line of the body of a section. -/
theorem endMarker_not_infix_sectionBody (fold : Char → Char) (parse : String → Option URL)
    (repos : List Repository) (marker : String) :
    ∀ s ∈ sectionBody fold parse repos, ¬ (endMarker marker).data <:+: s := by
  intro s hs
  unfold sectionBody at hs
  rcases List.mem_cons.mp hs with h | h
  · rw [h]
    exact endMarker_not_infix_of_no_lt marker _ (by decide)
  · rcases List.mem_cons.mp h with h | h
    · rw [h]
      exact endMarker_not_infix_of_no_lt marker _ (by decide)
    · by_cases hr : repos = []
      · rw [if_pos hr, List.mem_singleton] at h
        rw [h]
        exact endMarker_not_infix_of_no_lt marker _ (by decide)
      · rw [if_neg hr] at h
        obtain ⟨r, _, hrs⟩ := List.mem_map.mp h
        rw [← hrs]
        exact endMarker_not_infix_line fold parse r marker

theorem not_infix_dropLast (sub : List Char) (hne : sub ≠ []) : ¬ sub <:+: sub.dropLast := by
  intro h
  have h1 := h.length_le
  rw [List.length_dropLast] at h1
  have h2 : 0 < sub.length := List.length_pos.mpr hne
  omega

/-! ## Lemmas on patching a second time -/

/-- An occurrence that ends inside a prefix of a text is an occurrence in the
prefix. -/
theorem occurrence_in_prefix (x y sub p q : List Char) (h : x ++ y = p ++ sub ++ q)
    (hlen : p.length + sub.length ≤ x.length) : ∃ q', x = p ++ sub ++ q' := by
  have h1 : p ++ sub <+: x ++ y := ⟨q, h.symm⟩
  have h2 : x <+: x ++ y := List.prefix_append x y
  have h3 : p ++ sub <+: x :=
    List.prefix_of_prefix_length_le h1 h2 (by rw [List.length_append]; exact hlen)
  obtain ⟨q', hq'⟩ := h3
  exact ⟨q', hq'.symm⟩

/-- The first BEGIN marker stays the first one when the text after it
changes. -/
theorem begin_stays_first (doc before b rest r1 : List Char)
    (hB : doc = before ++ b ++ rest)
    (hBmin : ∀ p q : List Char, doc = p ++ b ++ q → before.length ≤ p.length) :
    ∀ p q : List Char, before ++ b ++ r1 = p ++ b ++ q → before.length ≤ p.length := by
  intro p q h
  by_contra hlt
  obtain ⟨q', hq'⟩ := occurrence_in_prefix (before ++ b) r1 b p q h
    (by rw [List.length_append]; omega)
  have := hBmin p (q' ++ rest) (by rw [hB, hq']; simp)
  omega

/-- In the patched text, the END marker of the new section is the first one. -/
theorem end_stays_first (existing marker : String) (before rest pre t z : List Char)
    (body : List (List Char))
    (hB : existing.data = before ++ (beginMarker marker).data ++ rest)
    (hEmin : ∀ p q : List Char, existing.data = p ++ (endMarker marker).data ++ q →
        pre.length ≤ p.length)
    (hlt : before.length < pre.length)
    (ht : t = ['\n'] ∨ t = ['\r', '\n'])
    (hcr : '\r' ∉ marker.data) (hlf : '\n' ∉ marker.data)
    (hbody : ∀ s ∈ body, ¬ (endMarker marker).data <:+: s) :
    ∀ p q : List Char,
      (before ++ (beginMarker marker).data ++ t ++ linesText t body)
          ++ (endMarker marker).data ++ z
        = p ++ (endMarker marker).data ++ q →
      (before ++ (beginMarker marker).data ++ t ++ linesText t body).length ≤ p.length := by
  intro p q h
  by_contra hshort
  have hne : (endMarker marker).data ≠ [] := by
    rw [endMarker_cons]
    exact List.cons_ne_nil _ _
  have hEcr : '\r' ∉ (endMarker marker).data := not_mem_endMarker '\r' marker hcr (by decide)
  have hElf : '\n' ∉ (endMarker marker).data := not_mem_endMarker '\n' marker hlf (by decide)
  have hlast : (endMarker marker).data
      = (endMarker marker).data.dropLast ++ [(endMarker marker).data.getLast hne] :=
    (List.dropLast_append_getLast hne).symm
  have hpos : 0 < (endMarker marker).data.length := List.length_pos.mpr hne
  have h2 : ((before ++ (beginMarker marker).data ++ t ++ linesText t body)
        ++ (endMarker marker).data.dropLast)
        ++ ((endMarker marker).data.getLast hne :: z)
      = p ++ (endMarker marker).data ++ q := by
    rw [← h]
    conv_rhs => rw [hlast]
    simp
  obtain ⟨q', hq'⟩ := occurrence_in_prefix _ _ _ p q h2 (by
    simp only [List.length_append, List.length_dropLast] at hshort ⊢
    omega)
  have hin : (endMarker marker).data
      <:+: (before ++ (beginMarker marker).data) ++ t
        ++ (linesText t body ++ (endMarker marker).data.dropLast) :=
    ⟨p, q', by rw [← hq']; simp⟩
  rcases infix_split_terminator t _ _ _ ht hne hEcr hElf hin with h3 | h3
  · obtain ⟨p2, q2, hp2⟩ := h3
    have hmin := hEmin p2 (q2 ++ rest) (by rw [hB, ← hp2]; simp)
    have hp2' : before ++ (beginMarker marker).data = p2 ++ ((endMarker marker).data ++ q2) := by
      rw [← hp2]
      simp
    rcases List.append_eq_append_iff.mp hp2' with ⟨a', ha1, ha2⟩ | ⟨c', hc1, hc2⟩
    · exact endMarker_not_infix_beginMarker marker ⟨a', q2, by rw [ha2]; simp⟩
    · have hl := congrArg List.length hc1
      rw [List.length_append] at hl
      omega
  · rcases infix_linesText t _ body _ ht hne hEcr hElf h3 with ⟨s, hs, h4⟩ | h4
    · exact hbody s hs h4
    · exact not_infix_dropLast _ hne h4

theorem lineTerminator_append (t after : List Char) (ht : t = ['\n'] ∨ t = ['\r', '\n']) :
    (t ++ after).drop (lineTerminator (t ++ after)).length = after := by
  rcases ht with ht | ht
  · subst ht
    unfold lineTerminator leadingLF
    simp
  · subst ht
    unfold lineTerminator leadingLF
    simp

/-- A carriage return followed by a line feed does not come up when a text
without carriage return, which does not start with a line feed, is put between
two parts of a document that has no such pair. -/
theorem no_crlf_patched (doc before a after : List Char) (c : Char)
    (hdoc : ¬ ['\r', '\n'] <:+: doc) (hb : before <:+: doc) (ha : after <:+: doc)
    (hA : '\r' ∉ c :: a) (hc : c ≠ '\n') :
    ¬ ['\r', '\n'] <:+: before ++ (c :: a) ++ after := by
  intro h
  have hc2 : c ∉ ['\r', '\n'] := by
    intro hm
    rcases List.mem_cons.mp hm with h1 | h1
    · exact hA (by rw [← h1]; exact List.mem_cons_self _ _)
    · rw [List.mem_singleton] at h1
      exact hc h1
  rw [List.append_assoc, List.cons_append] at h
  rcases infix_split_at c _ _ _ hc2 h with h1 | h1
  · exact hdoc (h1.trans hb)
  · have h2 := infix_drop_left '\r' ['\n'] a after
      (fun hm => hA (List.mem_cons_of_mem _ hm)) h1
    exact hdoc (h2.trans ha)

theorem detectLineEnding_congr (a b : String)
    (h : Contains a "\r\n" = Contains b "\r\n") :
    detectLineEnding a = detectLineEnding b := by
  unfold detectLineEnding
  rw [h]

/-- Patching a document that has the two markers in order with a rendered
section, and patching the result again with the same section: both succeed,
with the same result.  The marker and the lines of the records have no
carriage return and no line feed. -/
theorem PatchREADME_twice (fold : Char → Char) (parse : String → Option URL)
    (repos : List Repository) (marker existing : String) (first second : Bool)
    (before rest pre tail : List Char)
    (hB : existing.data = before ++ (beginMarker marker).data ++ rest)
    (hBmin : ∀ p q : List Char, existing.data = p ++ (beginMarker marker).data ++ q →
        before.length ≤ p.length)
    (hE : existing.data = pre ++ (endMarker marker).data ++ tail)
    (hEmin : ∀ p q : List Char, existing.data = p ++ (endMarker marker).data ++ q →
        pre.length ≤ p.length)
    (hlt : before.length < pre.length)
    (hcr : '\r' ∉ marker.data) (hlf : '\n' ∉ marker.data)
    (hlines : ∀ r ∈ repos, '\r' ∉ (formatRepoLine fold parse r).data
        ∧ '\n' ∉ (formatRepoLine fold parse r).data) :
    PatchREADME existing (RenderMarkdown fold parse repos marker) marker first
        = ({ Content := (⟨before⟩ : String)
                ++ adaptLineEnding (RenderMarkdown fold parse repos marker)
                    (detectLineEnding existing)
                ++ ⟨tail.drop (lineTerminator tail).length⟩,
             Patched := true }, none)
      ∧ PatchREADME ((⟨before⟩ : String)
            ++ adaptLineEnding (RenderMarkdown fold parse repos marker)
                (detectLineEnding existing)
            ++ ⟨tail.drop (lineTerminator tail).length⟩)
          (RenderMarkdown fold parse repos marker) marker second
        = ({ Content := (⟨before⟩ : String)
                ++ adaptLineEnding (RenderMarkdown fold parse repos marker)
                    (detectLineEnding existing)
                ++ ⟨tail.drop (lineTerminator tail).length⟩,
             Patched := true }, none) := by
  refine ⟨PatchREADME_of_first_occurrences existing _ marker first before rest pre tail
    hB hBmin hE hEmin hlt, ?_⟩
  -- the lines of the section
  have hbodycr : ∀ s ∈ sectionBody fold parse repos, '\r' ∉ s ∧ '\n' ∉ s := by
    intro s hs
    unfold sectionBody at hs
    rcases List.mem_cons.mp hs with h | h
    · rw [h]
      exact ⟨by decide, by decide⟩
    · rcases List.mem_cons.mp h with h | h
      · rw [h]
        exact ⟨by decide, by decide⟩
      · by_cases hr : repos = []
        · rw [if_pos hr, List.mem_singleton] at h
          rw [h]
          exact ⟨by decide, by decide⟩
        · rw [if_neg hr] at h
          obtain ⟨r, hr2, hrs⟩ := List.mem_map.mp h
          rw [← hrs]
          exact hlines r hr2
  have hBcr : '\r' ∉ (beginMarker marker).data := not_mem_beginMarker '\r' marker hcr (by decide)
  have hBlf : '\n' ∉ (beginMarker marker).data := not_mem_beginMarker '\n' marker hlf (by decide)
  have hEcr : '\r' ∉ (endMarker marker).data := not_mem_endMarker '\r' marker hcr (by decide)
  have hElf : '\n' ∉ (endMarker marker).data := not_mem_endMarker '\n' marker hlf (by decide)
  have hall : ∀ s ∈ (beginMarker marker).data :: sectionBody fold parse repos
      ++ [(endMarker marker).data], '\r' ∉ s ∧ '\n' ∉ s := by
    intro s hs
    rcases List.mem_cons.mp hs with h | h
    · rw [h]
      exact ⟨hBcr, hBlf⟩
    · rcases List.mem_append.mp h with h | h
      · exact hbodycr s h
      · rw [List.mem_singleton] at h
        rw [h]
        exact ⟨hEcr, hElf⟩
  have hle : detectLineEnding existing = "\n" ∨ detectLineEnding existing = "\r\n" := by
    rcases detectLineEnding_cases existing with h | h
    · exact Or.inl h.1
    · exact Or.inr h.1
  have ht : (detectLineEnding existing).data = ['\n']
      ∨ (detectLineEnding existing).data = ['\r', '\n'] := by
    rcases hle with h | h
    · exact Or.inl (by rw [h])
    · exact Or.inr (by rw [h])
  have hA : (adaptLineEnding (RenderMarkdown fold parse repos marker)
        (detectLineEnding existing)).data
      = (beginMarker marker).data ++ (detectLineEnding existing).data
          ++ linesText (detectLineEnding existing).data (sectionBody fold parse repos)
          ++ (endMarker marker).data ++ (detectLineEnding existing).data := by
    rw [adaptLineEnding_linesText _ _ _ hle (RenderMarkdown_lines fold parse repos marker)
      (fun s hs => (hall s hs).1) (fun s hs => (hall s hs).2)]
    simp [linesText, List.flatMap_append, List.flatMap_cons]
  -- the patched document
  have hB1 : ((⟨before⟩ : String)
        ++ adaptLineEnding (RenderMarkdown fold parse repos marker) (detectLineEnding existing)
        ++ ⟨tail.drop (lineTerminator tail).length⟩).data
      = before ++ (beginMarker marker).data
          ++ ((detectLineEnding existing).data
            ++ linesText (detectLineEnding existing).data (sectionBody fold parse repos)
            ++ (endMarker marker).data ++ (detectLineEnding existing).data
            ++ tail.drop (lineTerminator tail).length) := by
    simp only [String.data_append, hA]
    simp
  have hE1 : ((⟨before⟩ : String)
        ++ adaptLineEnding (RenderMarkdown fold parse repos marker) (detectLineEnding existing)
        ++ ⟨tail.drop (lineTerminator tail).length⟩).data
      = (before ++ (beginMarker marker).data ++ (detectLineEnding existing).data
            ++ linesText (detectLineEnding existing).data (sectionBody fold parse repos))
          ++ (endMarker marker).data
          ++ ((detectLineEnding existing).data ++ tail.drop (lineTerminator tail).length) := by
    simp only [String.data_append, hA]
    simp
  have hBmin1 := begin_stays_first existing.data before (beginMarker marker).data rest
    ((detectLineEnding existing).data
      ++ linesText (detectLineEnding existing).data (sectionBody fold parse repos)
      ++ (endMarker marker).data ++ (detectLineEnding existing).data
      ++ tail.drop (lineTerminator tail).length) hB hBmin
  have hEmin1 := end_stays_first existing marker before rest pre
    (detectLineEnding existing).data
    ((detectLineEnding existing).data ++ tail.drop (lineTerminator tail).length)
    (sectionBody fold parse repos) hB hEmin hlt ht hcr hlf
    (endMarker_not_infix_sectionBody fold parse repos marker)
  have hlt1 : before.length
      < (before ++ (beginMarker marker).data ++ (detectLineEnding existing).data
          ++ linesText (detectLineEnding existing).data (sectionBody fold parse repos)).length := by
    have hpos : 0 < (beginMarker marker).data.length := by
      rw [beginMarker_cons]
      simp
    simp only [List.length_append]
    omega
  rw [← hB1] at hBmin1
  rw [← hE1] at hEmin1
  rw [PatchREADME_of_first_occurrences _ _ marker second before _ _ _ hB1 hBmin1 hE1 hEmin1 hlt1,
    lineTerminator_append _ _ ht]
  -- the line ending of the patched document
  have hdetect : detectLineEnding ((⟨before⟩ : String)
        ++ adaptLineEnding (RenderMarkdown fold parse repos marker) (detectLineEnding existing)
        ++ ⟨tail.drop (lineTerminator tail).length⟩)
      = detectLineEnding existing := by
    have hbefore : before <:+: existing.data :=
      ⟨[], (beginMarker marker).data ++ rest, by rw [hB]; simp⟩
    have hafter : tail.drop (lineTerminator tail).length <:+: existing.data :=
      ((List.drop_suffix _ tail).trans ⟨pre ++ (endMarker marker).data, by rw [hE]⟩).isInfix
    rcases detectLineEnding_cases existing with ⟨h1, h2⟩ | ⟨h1, h2⟩
    · have hAdata : (adaptLineEnding (RenderMarkdown fold parse repos marker)
          (detectLineEnding existing)).data
          = '<' :: ('!' :: '-' :: '-' :: ' ' :: 'B' ::
              ("EGIN ".data ++ marker.data ++ " -->".data)
            ++ (detectLineEnding existing).data
            ++ linesText (detectLineEnding existing).data (sectionBody fold parse repos)
            ++ (endMarker marker).data ++ (detectLineEnding existing).data) := by
        rw [hA, beginMarker_cons]
        simp
      have hAcr : '\r' ∉ (adaptLineEnding (RenderMarkdown fold parse repos marker)
          (detectLineEnding existing)).data := by
        rw [adaptLineEnding_linesText _ _ _ hle (RenderMarkdown_lines fold parse repos marker)
          (fun s hs => (hall s hs).1) (fun s hs => (hall s hs).2), h1]
        exact not_mem_linesText '\r' _ _ (by decide) (fun s hs => (hall s hs).1)
      have hno : Contains ((⟨before⟩ : String)
          ++ adaptLineEnding (RenderMarkdown fold parse repos marker)
              (detectLineEnding existing)
          ++ ⟨tail.drop (lineTerminator tail).length⟩) "\r\n" = false := by
        rw [Contains_eq_false_iff]
        rw [Contains_eq_false_iff] at h2
        simp only [String.data_append]
        rw [hAdata] at hAcr ⊢
        exact no_crlf_patched existing.data before _ _ '<' h2 hbefore hafter hAcr (by decide)
      exact detectLineEnding_congr _ _ (by rw [hno, h2])
    · have hyes : Contains ((⟨before⟩ : String)
          ++ adaptLineEnding (RenderMarkdown fold parse repos marker)
              (detectLineEnding existing)
          ++ ⟨tail.drop (lineTerminator tail).length⟩) "\r\n" = true := by
        rw [Contains_iff, hB1, h1]
        exact ⟨before ++ (beginMarker marker).data,
          linesText "\r\n".data (sectionBody fold parse repos)
            ++ (endMarker marker).data ++ "\r\n".data
            ++ tail.drop (lineTerminator tail).length, by simp⟩
      exact detectLineEnding_congr _ _ (by rw [hyes, h2])
  rw [hdetect]

/-! ## C21: exactly one marker -/

/-- C21: a document in which exactly one of the two markers occurs makes
`PatchREADME` fail with the "inconsistent" markers error and the zero result,
whatever the new section and whatever `appendIfMissing`: nothing is appended. -/
theorem PatchREADME_one_marker (quote : String → String)
    (existing newSection marker : String) (appendIfMissing : Bool)
    (h : ((beginMarker marker).data <:+: existing.data
            ∧ ¬ (endMarker marker).data <:+: existing.data)
        ∨ (¬ (beginMarker marker).data <:+: existing.data
            ∧ (endMarker marker).data <:+: existing.data)) :
    PatchREADME existing newSection marker appendIfMissing
        = ({ Content := "", Patched := false }, some (PatchError.markersInconsistent marker))
      ∧ (PatchREADME existing newSection marker appendIfMissing).2.map (errorText quote)
        = some ("only one of BEGIN/END markers for " ++ quote marker
            ++ " found; README markers are inconsistent") := by
  have h1 : PatchREADME existing newSection marker appendIfMissing
      = (zeroPatchResult, some (PatchError.markersInconsistent marker)) := by
    apply PatchREADME_of_one_marker
    rcases h with ⟨hb, he⟩ | ⟨hb, he⟩
    · exact Or.inr ⟨(Index_ne_neg_one_iff _ _).mpr hb, (Index_eq_neg_one_iff _ _).mpr he⟩
    · exact Or.inl ⟨(Index_eq_neg_one_iff _ _).mpr hb, (Index_ne_neg_one_iff _ _).mpr he⟩
  rw [h1]
  exact ⟨rfl, rfl⟩

set_option maxRecDepth 100000 in
/-- C21, at the fixture of `TestPatchREADMEOnlyBeginMarker`: the BEGIN marker
alone gives the error, also with `appendIfMissing` set. -/
theorem PatchREADME_one_marker_witness :
    (((beginMarker "CURRENT PROJECTS").data <:+: onlyBeginDoc.data
          ∧ ¬ (endMarker "CURRENT PROJECTS").data <:+: onlyBeginDoc.data)
        ∨ (¬ (beginMarker "CURRENT PROJECTS").data <:+: onlyBeginDoc.data
          ∧ (endMarker "CURRENT PROJECTS").data <:+: onlyBeginDoc.data))
      ∧ (PatchREADME onlyBeginDoc "new\n" "CURRENT PROJECTS" true
          = ({ Content := "", Patched := false },
              some (PatchError.markersInconsistent "CURRENT PROJECTS"))
        ∧ (PatchREADME onlyBeginDoc "new\n" "CURRENT PROJECTS" true).2.map
              (errorText (fun s => "\"" ++ s ++ "\""))
          = some ("only one of BEGIN/END markers for " ++ ("\"" ++ "CURRENT PROJECTS" ++ "\"")
              ++ " found; README markers are inconsistent")) :=
  have h : ((beginMarker "CURRENT PROJECTS").data <:+: onlyBeginDoc.data
          ∧ ¬ (endMarker "CURRENT PROJECTS").data <:+: onlyBeginDoc.data)
        ∨ (¬ (beginMarker "CURRENT PROJECTS").data <:+: onlyBeginDoc.data
          ∧ (endMarker "CURRENT PROJECTS").data <:+: onlyBeginDoc.data) :=
    Or.inl ⟨(Index_ne_neg_one_iff _ _).mp (by decide),
      (Index_eq_neg_one_iff _ _).mp (by decide)⟩
  ⟨h, PatchREADME_one_marker (fun s => "\"" ++ s ++ "\"") onlyBeginDoc "new\n"
    "CURRENT PROJECTS" true h⟩

/-! ## C22: the order of the two markers -/

/-- C22: in a document where both markers occur, with `before` the text before
the first BEGIN marker and `pre` the text before the first END marker, the two
never start at the same place; when the first BEGIN marker starts after the
first END marker `PatchREADME` fails with the error "END marker appears before
BEGIN marker" and the zero result; when it starts before, `PatchREADME` does not
fail. -/
theorem PatchREADME_marker_order (quote : String → String)
    (existing newSection marker : String) (appendIfMissing : Bool)
    (before rest pre tail : List Char)
    (hB : existing.data = before ++ (beginMarker marker).data ++ rest)
    (hBmin : ∀ p q : List Char, existing.data = p ++ (beginMarker marker).data ++ q →
        before.length ≤ p.length)
    (hE : existing.data = pre ++ (endMarker marker).data ++ tail)
    (hEmin : ∀ p q : List Char, existing.data = p ++ (endMarker marker).data ++ q →
        pre.length ≤ p.length) :
    before.length ≠ pre.length
      ∧ (pre.length < before.length →
          PatchREADME existing newSection marker appendIfMissing
              = ({ Content := "", Patched := false },
                  some (PatchError.endBeforeBegin marker))
            ∧ (PatchREADME existing newSection marker appendIfMissing).2.map
                  (errorText quote)
              = some ("END marker appears before BEGIN marker for " ++ quote marker))
      ∧ (before.length < pre.length →
          (PatchREADME existing newSection marker appendIfMissing).2 = none
            ∧ (PatchREADME existing newSection marker appendIfMissing).1.Patched = true) := by
  have hbi := Index_eq_of_first existing _ before rest hB hBmin
  have hei := Index_eq_of_first existing _ pre tail hE hEmin
  have hb1 := Index_ne_neg_one_of_occurrence existing _ before rest hB
  have he1 := Index_ne_neg_one_of_occurrence existing _ pre tail hE
  refine ⟨?_, ?_, ?_⟩
  · intro heq
    have hne := Index_begin_ne_end existing marker ⟨before, rest, hB.symm⟩ ⟨pre, tail, hE.symm⟩
    rw [hbi, hei, heq] at hne
    exact hne rfl
  · intro hlt
    have hgt : Index existing (beginMarker marker) > Index existing (endMarker marker) := by
      rw [hbi, hei]
      exact_mod_cast hlt
    rw [PatchREADME_of_reversed existing newSection marker appendIfMissing hb1 he1 hgt]
    exact ⟨rfl, rfl⟩
  · intro hlt
    rw [PatchREADME_of_first_occurrences existing newSection marker appendIfMissing
      before rest pre tail hB hBmin hE hEmin hlt]
    exact ⟨rfl, rfl⟩

set_option maxRecDepth 100000 in
/-- C22, at the fixture of `TestPatchREADMEReversedMarkers`: the END marker
starts at offset 10 and the BEGIN marker at offset 46, and the result is the
reversed-markers error. -/
theorem PatchREADME_marker_order_witness :
    reversedDoc.data
        = "# Profile\n<!-- END CURRENT PROJECTS -->\nstuff\n".data
            ++ (beginMarker "CURRENT PROJECTS").data ++ "\n".data
      ∧ (∀ p q : List Char,
          reversedDoc.data = p ++ (beginMarker "CURRENT PROJECTS").data ++ q →
            "# Profile\n<!-- END CURRENT PROJECTS -->\nstuff\n".data.length ≤ p.length)
      ∧ reversedDoc.data
        = "# Profile\n".data ++ (endMarker "CURRENT PROJECTS").data
            ++ "\nstuff\n<!-- BEGIN CURRENT PROJECTS -->\n".data
      ∧ (∀ p q : List Char,
          reversedDoc.data = p ++ (endMarker "CURRENT PROJECTS").data ++ q →
            "# Profile\n".data.length ≤ p.length)
      ∧ "# Profile\n".data.length
          < "# Profile\n<!-- END CURRENT PROJECTS -->\nstuff\n".data.length
      ∧ PatchREADME reversedDoc "new\n" "CURRENT PROJECTS" false
          = ({ Content := "", Patched := false },
              some (PatchError.endBeforeBegin "CURRENT PROJECTS")) :=
  have hB : reversedDoc.data
        = "# Profile\n<!-- END CURRENT PROJECTS -->\nstuff\n".data
            ++ (beginMarker "CURRENT PROJECTS").data ++ "\n".data := by decide
  have hBmin : ∀ p q : List Char,
      reversedDoc.data = p ++ (beginMarker "CURRENT PROJECTS").data ++ q →
        "# Profile\n<!-- END CURRENT PROJECTS -->\nstuff\n".data.length ≤ p.length := by
    intro p q h
    have h1 := (Index_le_of_occurrence reversedDoc _ p q h).2
    have h2 : Index reversedDoc (beginMarker "CURRENT PROJECTS") = 46 := by decide
    have h3 : "# Profile\n<!-- END CURRENT PROJECTS -->\nstuff\n".data.length = 46 := by decide
    rw [h2] at h1
    rw [h3]
    exact_mod_cast h1
  have hE : reversedDoc.data
        = "# Profile\n".data ++ (endMarker "CURRENT PROJECTS").data
            ++ "\nstuff\n<!-- BEGIN CURRENT PROJECTS -->\n".data := by decide
  have hEmin : ∀ p q : List Char,
      reversedDoc.data = p ++ (endMarker "CURRENT PROJECTS").data ++ q →
        "# Profile\n".data.length ≤ p.length := by
    intro p q h
    have h1 := (Index_le_of_occurrence reversedDoc _ p q h).2
    have h2 : Index reversedDoc (endMarker "CURRENT PROJECTS") = 10 := by decide
    have h3 : "# Profile\n".data.length = 10 := by decide
    rw [h2] at h1
    rw [h3]
    exact_mod_cast h1
  have hlt : "# Profile\n".data.length
      < "# Profile\n<!-- END CURRENT PROJECTS -->\nstuff\n".data.length := by decide
  ⟨hB, hBmin, hE, hEmin, hlt,
    ((PatchREADME_marker_order id reversedDoc "new\n" "CURRENT PROJECTS" false
      _ _ _ _ hB hBmin hE hEmin).2.1 hlt).1⟩

/-! ## C23: the replacement -/

/-- C23: in a document whose first BEGIN marker starts before its first END
marker, with `before` the text before the first BEGIN marker and `tail` the
text after the first END marker, `PatchREADME` returns `before`, then the new
section adapted to the line ending of the document, then `tail` without the
line terminator it starts with (a carriage return, a line feed, the two in
this order, or nothing). -/
theorem PatchREADME_replaces_span (existing newSection marker : String)
    (appendIfMissing : Bool) (before rest pre tail : List Char)
    (hB : existing.data = before ++ (beginMarker marker).data ++ rest)
    (hBmin : ∀ p q : List Char, existing.data = p ++ (beginMarker marker).data ++ q →
        before.length ≤ p.length)
    (hE : existing.data = pre ++ (endMarker marker).data ++ tail)
    (hEmin : ∀ p q : List Char, existing.data = p ++ (endMarker marker).data ++ q →
        pre.length ≤ p.length)
    (hlt : before.length < pre.length) :
    PatchREADME existing newSection marker appendIfMissing
        = ({ Content := (⟨before⟩ : String)
                ++ adaptLineEnding newSection (detectLineEnding existing)
                ++ ⟨tail.drop (lineTerminator tail).length⟩,
             Patched := true }, none)
      ∧ tail = lineTerminator tail ++ tail.drop (lineTerminator tail).length
      ∧ (lineTerminator tail = ['\r', '\n'] ∨ lineTerminator tail = ['\r']
          ∨ lineTerminator tail = ['\n'] ∨ lineTerminator tail = []) := by
  refine ⟨PatchREADME_of_first_occurrences existing newSection marker appendIfMissing
      before rest pre tail hB hBmin hE hEmin hlt, lineTerminator_append_drop tail, ?_⟩
  unfold lineTerminator leadingLF
  split_ifs <;> simp

set_option maxRecDepth 100000 in
/-- C23, at the fixture of `TestPatchREADMENormal`: the text before the BEGIN
marker and the text after the line of the END marker are kept, and the old
span between them is replaced by the new section. -/
theorem PatchREADME_replaces_span_witness :
    normalDoc.data
        = "# Profile\n\n".data ++ (beginMarker "CURRENT PROJECTS").data
            ++ ("\n## Current Projects\n\n- [old](https://github.com/u/old) (Go) - Old project\n"
                ++ "<!-- END CURRENT PROJECTS -->\n\n## About\n").data
      ∧ (∀ p q : List Char,
          normalDoc.data = p ++ (beginMarker "CURRENT PROJECTS").data ++ q →
            "# Profile\n\n".data.length ≤ p.length)
      ∧ normalDoc.data
        = ("# Profile\n\n<!-- BEGIN CURRENT PROJECTS -->\n## Current Projects\n\n"
              ++ "- [old](https://github.com/u/old) (Go) - Old project\n").data
            ++ (endMarker "CURRENT PROJECTS").data ++ "\n\n## About\n".data
      ∧ (∀ p q : List Char,
          normalDoc.data = p ++ (endMarker "CURRENT PROJECTS").data ++ q →
            ("# Profile\n\n<!-- BEGIN CURRENT PROJECTS -->\n## Current Projects\n\n"
              ++ "- [old](https://github.com/u/old) (Go) - Old project\n").data.length
              ≤ p.length)
      ∧ "# Profile\n\n".data.length
          < ("# Profile\n\n<!-- BEGIN CURRENT PROJECTS -->\n## Current Projects\n\n"
              ++ "- [old](https://github.com/u/old) (Go) - Old project\n").data.length
      ∧ PatchREADME normalDoc normalSection "CURRENT PROJECTS" false
          = ({ Content := (⟨"# Profile\n\n".data⟩ : String)
                  ++ adaptLineEnding normalSection (detectLineEnding normalDoc)
                  ++ ⟨"\n\n## About\n".data.drop
                        (lineTerminator "\n\n## About\n".data).length⟩,
               Patched := true }, none)
      ∧ "\n\n## About\n".data.drop (lineTerminator "\n\n## About\n".data).length
          = "\n## About\n".data
      ∧ adaptLineEnding normalSection (detectLineEnding normalDoc) = normalSection :=
  have hB : normalDoc.data
        = "# Profile\n\n".data ++ (beginMarker "CURRENT PROJECTS").data
            ++ ("\n## Current Projects\n\n- [old](https://github.com/u/old) (Go) - Old project\n"
                ++ "<!-- END CURRENT PROJECTS -->\n\n## About\n").data := by decide
  have hBmin : ∀ p q : List Char,
      normalDoc.data = p ++ (beginMarker "CURRENT PROJECTS").data ++ q →
        "# Profile\n\n".data.length ≤ p.length := by
    intro p q h
    have h1 := (Index_le_of_occurrence normalDoc _ p q h).2
    have h2 : Index normalDoc (beginMarker "CURRENT PROJECTS") = 11 := by decide
    have h3 : "# Profile\n\n".data.length = 11 := by decide
    rw [h2] at h1
    rw [h3]
    exact_mod_cast h1
  have hE : normalDoc.data
        = ("# Profile\n\n<!-- BEGIN CURRENT PROJECTS -->\n## Current Projects\n\n"
              ++ "- [old](https://github.com/u/old) (Go) - Old project\n").data
            ++ (endMarker "CURRENT PROJECTS").data ++ "\n\n## About\n".data := by decide
  have hEmin : ∀ p q : List Char,
      normalDoc.data = p ++ (endMarker "CURRENT PROJECTS").data ++ q →
        ("# Profile\n\n<!-- BEGIN CURRENT PROJECTS -->\n## Current Projects\n\n"
          ++ "- [old](https://github.com/u/old) (Go) - Old project\n").data.length
          ≤ p.length := by
    intro p q h
    have h1 := (Index_le_of_occurrence normalDoc _ p q h).2
    have h2 : Index normalDoc (endMarker "CURRENT PROJECTS") = 117 := by decide
    have h3 : ("# Profile\n\n<!-- BEGIN CURRENT PROJECTS -->\n## Current Projects\n\n"
          ++ "- [old](https://github.com/u/old) (Go) - Old project\n").data.length = 117 := by
      decide
    rw [h2] at h1
    rw [h3]
    exact_mod_cast h1
  have hlt : "# Profile\n\n".data.length
      < ("# Profile\n\n<!-- BEGIN CURRENT PROJECTS -->\n## Current Projects\n\n"
          ++ "- [old](https://github.com/u/old) (Go) - Old project\n").data.length := by decide
  ⟨hB, hBmin, hE, hEmin, hlt,
    (PatchREADME_replaces_span normalDoc normalSection "CURRENT PROJECTS" false
      _ _ _ _ hB hBmin hE hEmin hlt).1, by decide, by decide⟩

/-! ## C27: the result next to an error -/

/-- C27: when `PatchREADME` returns an error, which is one of its three errors
for the marker it was given, the `PatchResult` next to it is the zero value,
with an empty `Content` and `Patched` unset; when it returns no error,
`Patched` is set. -/
theorem PatchREADME_error_zero (existing newSection marker : String)
    (appendIfMissing : Bool) :
    (∀ err : PatchError,
        (PatchREADME existing newSection marker appendIfMissing).2 = some err →
          (PatchREADME existing newSection marker appendIfMissing).1
              = { Content := "", Patched := false }
            ∧ (err = PatchError.markerNotFound marker
              ∨ err = PatchError.markersInconsistent marker
              ∨ err = PatchError.endBeforeBegin marker))
      ∧ ((PatchREADME existing newSection marker appendIfMissing).2 = none →
          (PatchREADME existing newSection marker appendIfMissing).1.Patched = true) := by
  by_cases hb : Index existing (beginMarker marker) = -1
  · by_cases he : Index existing (endMarker marker) = -1
    · rw [PatchREADME_of_no_markers existing newSection marker appendIfMissing hb he]
      cases appendIfMissing with
      | false =>
        exact ⟨fun err h => ⟨rfl, Or.inl (Option.some.inj h).symm⟩,
          fun h => Option.noConfusion h⟩
      | true => exact ⟨fun err h => Option.noConfusion h, fun _ => rfl⟩
    · rw [PatchREADME_of_one_marker existing newSection marker appendIfMissing
        (Or.inl ⟨hb, he⟩)]
      exact ⟨fun err h => ⟨rfl, Or.inr (Or.inl (Option.some.inj h).symm)⟩,
        fun h => Option.noConfusion h⟩
  · by_cases he : Index existing (endMarker marker) = -1
    · rw [PatchREADME_of_one_marker existing newSection marker appendIfMissing
        (Or.inr ⟨hb, he⟩)]
      exact ⟨fun err h => ⟨rfl, Or.inr (Or.inl (Option.some.inj h).symm)⟩,
        fun h => Option.noConfusion h⟩
    · by_cases hgt : Index existing (beginMarker marker) > Index existing (endMarker marker)
      · rw [PatchREADME_of_reversed existing newSection marker appendIfMissing hb he hgt]
        exact ⟨fun err h => ⟨rfl, Or.inr (Or.inr (Option.some.inj h).symm)⟩,
          fun h => Option.noConfusion h⟩
      · rw [PatchREADME_of_ordered existing newSection marker appendIfMissing hb he hgt]
        exact ⟨fun err h => Option.noConfusion h, fun _ => rfl⟩

/-! ## C28: the next link of a Link header -/

/-- C28: for a Link header made of entries `<URL>; rel="name"` joined by a
separator without `<` (a comma, a comma and a space), where every URL is non
empty and has no `>`, the gap between `;` and `rel` is any amount of white
space and every name has no double quote and no `<`, `ParseNextLink` returns
the URL of the first entry whose relation is `next`, wherever it stands, and
the empty string when there is no such entry or no entry at all. -/
theorem ParseNextLink_entries (entries : List LinkEntry) (sep : String)
    (hsep : '<' ∉ sep.data) (h : ∀ e ∈ entries, entryWellFormed e = true) :
    ParseNextLink (Join (entries.map renderEntry) sep) = nextURL entries
      ∧ ((∀ e ∈ entries, e.rel ≠ "next") → nextURL entries = "")
      ∧ (∀ (before after : List LinkEntry) (e : LinkEntry),
          entries = before ++ e :: after → (∀ b ∈ before, b.rel ≠ "next") →
            e.rel = "next" → nextURL entries = e.url) := by
  refine ⟨?_, ?_, ?_⟩
  · rw [ParseNextLink_eq]
    cases entries with
    | nil => rfl
    | cons e es =>
      rw [List.map_cons, Join_cons_data, List.flatMap_map]
      exact FindStringSubmatch_entries sep.data hsep es
        (fun x hx => h x (List.mem_cons_of_mem _ hx)) e (h e (List.mem_cons_self _ _))
  · intro hno
    clear h
    induction entries with
    | nil => rfl
    | cons e es ih =>
      rw [nextURL, if_neg (hno e (List.mem_cons_self _ _))]
      exact ih (fun x hx => hno x (List.mem_cons_of_mem _ hx))
  · intro before after e hsplit hbefore hrel
    subst hsplit
    clear h
    induction before with
    | nil => simp [nextURL, hrel]
    | cons b before ih =>
      rw [List.cons_append, nextURL, if_neg (hbefore b (List.mem_cons_self _ _))]
      exact ih (fun x hx => hbefore x (List.mem_cons_of_mem _ hx))

set_option maxRecDepth 100000 in
/-- C28, at the header of the case "mixed relations with extra spaces" of
`TestParseNextLink`: the second entry, after two spaces, is the next link. -/
theorem ParseNextLink_entries_witness :
    '<' ∉ ", ".data
      ∧ (∀ e ∈ mixedEntries, entryWellFormed e = true)
      ∧ Join (mixedEntries.map renderEntry) ", " = mixedHeader
      ∧ ParseNextLink (Join (mixedEntries.map renderEntry) ", ")
          = "https://api.github.com/user/repos?page=3" :=
  have hsep : '<' ∉ ", ".data := by decide
  have h : ∀ e ∈ mixedEntries, entryWellFormed e = true := by decide
  ⟨hsep, h, by decide, (ParseNextLink_entries mixedEntries ", " hsep h).1⟩

/-! ## C29: the pages of a fetch -/

/-- C29: when the answers are a chain of successful pages, every page but the
last with a next link and the last without one, `FetchAllRepos` sends a
request to `BaseURL/users/USER/repos?type=owner&per_page=100&page=1`, then one
to the URL of the next link of each page but the last, and no other, and
returns the records of the pages one after the other, in the order of the
answers, with no error. -/
theorem FetchAllRepos_chain (requestError : String → Option String)
    (decode : String → Except String (List Repository)) (c : Client) (user : String)
    (init : List Page) (last : Page) (extra : List DoResult)
    (hdec : ∀ p ∈ init ++ [last], ∃ repos, decode p.Body = Except.ok repos)
    (hnext : ∀ p ∈ init, ParseNextLink p.Link ≠ "")
    (hlast : ParseNextLink last.Link = "")
    (hreq : ∀ u ∈ (c.BaseURL ++ "/users/" ++ user ++ "/repos?type=owner&per_page=100&page=1")
        :: init.map (fun p => ParseNextLink p.Link), requestError u = none) :
    FetchAllRepos requestError decode c user ((init ++ [last]).map pageAnswer ++ extra)
      = some { repos := (init ++ [last]).flatMap (pageRecords decode),
               err := none,
               sent := ((c.BaseURL ++ "/users/" ++ user
                          ++ "/repos?type=owner&per_page=100&page=1")
                        :: init.map (fun p => ParseNextLink p.Link)).map (newRequest c) } := by
  unfold FetchAllRepos
  have hurls : ∀ u ∈ chainURLs (c.BaseURL ++ "/users/" ++ user
        ++ "/repos?type=owner&per_page=100&page=1") (init ++ [last]),
      u ≠ "" ∧ requestError u = none := by
    intro u hu
    rw [chainURLs_append_singleton] at hu
    exact ⟨chain_ne_empty c.BaseURL user init hnext u hu, hreq u hu⟩
  rw [fetchLoop_chain requestError decode c (init ++ [last]) extra _ [] [] hurls hdec,
    chainEnd_append_singleton, hlast, fetchLoop_done, chainURLs_append_singleton]
  rfl

set_option maxRecDepth 100000 in
/-- C29, at the two pages of `TestFetchAllReposPaginated`: two requests, the
second to the URL of the next link of the first page, and the records of the
two pages in order. -/
theorem FetchAllRepos_chain_witness :
    (∀ p ∈ [firstPage] ++ [secondPage], ∃ repos, tableDecode p.Body = Except.ok repos)
      ∧ (∀ p ∈ [firstPage], ParseNextLink p.Link ≠ "")
      ∧ ParseNextLink secondPage.Link = ""
      ∧ FetchAllRepos (fun _ => none) tableDecode testClient "testuser"
          (([firstPage] ++ [secondPage]).map pageAnswer ++ [])
        = some { repos := [publicRepo, cutoffRepo, awesomeRepo],
                 err := none,
                 sent := ["http://127.0.0.1:8080/users/testuser/repos?type=owner&per_page=100&page=1",
                          "http://127.0.0.1:8080/users/testuser/repos?type=owner&per_page=100&page=2"].map
                    (newRequest testClient) } :=
  have hdec : ∀ p ∈ [firstPage] ++ [secondPage],
      ∃ repos, tableDecode p.Body = Except.ok repos := by
    intro p hp
    simp only [List.singleton_append, List.mem_cons, List.mem_singleton, List.not_mem_nil,
      or_false] at hp
    rcases hp with h | h
    · exact ⟨[publicRepo, cutoffRepo], by rw [h]; decide⟩
    · exact ⟨[awesomeRepo], by rw [h]; decide⟩
  have hnext : ∀ p ∈ [firstPage], ParseNextLink p.Link ≠ "" := by decide
  have hlast : ParseNextLink secondPage.Link = "" := by decide
  ⟨hdec, hnext, hlast,
    (FetchAllRepos_chain (fun _ => none) tableDecode testClient "testuser" [firstPage]
      secondPage [] hdec hnext hlast (fun _ _ => rfl)).trans (by decide)⟩

/-! ## C30: a page that fails -/

/-- C30: when, after any number of successful pages with a next link, the
answer to a request is one that `fetchPage` turns into an error, `FetchAllRepos`
returns that error and no records, the records of the pages before are dropped,
and no request is sent after the one that failed.  An error of the transport,
a status other than 200 and a body that cannot be decoded are such answers,
and for a status other than 200 the text of the error has the digits of the
status and the body in it. -/
theorem FetchAllRepos_failure (requestError : String → Option String)
    (decode : String → Except String (List Repository)) (c : Client) (user : String)
    (good : List Page) (bad : DoResult) (extra : List DoResult) (msg : String)
    (hdec : ∀ p ∈ good, ∃ repos, decode p.Body = Except.ok repos)
    (hnext : ∀ p ∈ good, ParseNextLink p.Link ≠ "")
    (hreq : ∀ u ∈ (c.BaseURL ++ "/users/" ++ user ++ "/repos?type=owner&per_page=100&page=1")
        :: good.map (fun p => ParseNextLink p.Link), requestError u = none)
    (hbad : fetchPage decode
        (chainEnd (c.BaseURL ++ "/users/" ++ user ++ "/repos?type=owner&per_page=100&page=1")
          good) bad = Except.error msg) :
    FetchAllRepos requestError decode c user (good.map pageAnswer ++ bad :: extra)
        = some { repos := [], err := some msg,
                 sent := ((c.BaseURL ++ "/users/" ++ user
                            ++ "/repos?type=owner&per_page=100&page=1")
                          :: good.map (fun p => ParseNextLink p.Link)).map (newRequest c) }
      ∧ chainEnd (c.BaseURL ++ "/users/" ++ user ++ "/repos?type=owner&per_page=100&page=1")
          good
        = ((c.BaseURL ++ "/users/" ++ user ++ "/repos?type=owner&per_page=100&page=1")
            :: good.map (fun p => ParseNextLink p.Link)).getLast (List.cons_ne_nil _ _)
      ∧ (∀ url err : String,
          fetchPage decode url (DoResult.failure err)
            = Except.error ("fetching repos from " ++ url ++ ": " ++ err))
      ∧ (∀ (url : String) (status : Int) (body link : String), status ≠ 200 →
          fetchPage decode url (DoResult.response status body link)
              = Except.error ("GitHub API returned status " ++ formatDecimal status
                  ++ ": " ++ body)
            ∧ (formatDecimal status).data <:+:
                ("GitHub API returned status " ++ formatDecimal status ++ ": " ++ body).data
            ∧ body.data <:+:
                ("GitHub API returned status " ++ formatDecimal status ++ ": " ++ body).data)
      ∧ (∀ url body link err : String, decode body = Except.error err →
          fetchPage decode url (DoResult.response 200 body link)
            = Except.error ("decoding response: " ++ err)) := by
  refine ⟨?_, chainEnd_eq_getLast _ _, fun _ _ => rfl, ?_, ?_⟩
  · unfold FetchAllRepos
    have hne := chain_ne_empty c.BaseURL user good hnext
    have hurls : ∀ u ∈ chainURLs (c.BaseURL ++ "/users/" ++ user
          ++ "/repos?type=owner&per_page=100&page=1") good,
        u ≠ "" ∧ requestError u = none :=
      fun u hu => ⟨hne u (chainURLs_mem _ _ u hu), hreq u (chainURLs_mem _ _ u hu)⟩
    rw [fetchLoop_chain requestError decode c good (bad :: extra) _ [] [] hurls hdec,
      fetchLoop_error requestError decode c bad extra _ msg _ _
        (hne _ (chainEnd_mem _ _)) (hreq _ (chainEnd_mem _ _)) hbad,
      List.nil_append, ← List.map_singleton, ← List.map_append, chainURLs_concat_chainEnd]
  · intro url status body link hstatus
    refine ⟨?_, ?_, ?_⟩
    · unfold fetchPage
      simp only [ne_eq, hstatus, not_false_eq_true, if_true]
    · simp only [String.data_append]
      exact ⟨"GitHub API returned status ".data, ": ".data ++ body.data, by simp⟩
    · simp only [String.data_append]
      exact ⟨"GitHub API returned status ".data ++ (formatDecimal status).data ++ ": ".data,
        [], by simp⟩
  · intro url body link err herr
    unfold fetchPage
    simp only [ne_eq, not_true_eq_false, if_false, herr]

set_option maxRecDepth 100000 in
/-- C30, at the answer of `TestFetchAllReposAPIError` after one successful
page: the status 404 and the body are in the error, the records of the first
page are not returned, and two requests were sent. -/
theorem FetchAllRepos_failure_witness :
    (∀ p ∈ [firstPage], ∃ repos, tableDecode p.Body = Except.ok repos)
      ∧ (∀ p ∈ [firstPage], ParseNextLink p.Link ≠ "")
      ∧ fetchPage tableDecode
          (chainEnd (testClient.BaseURL ++ "/users/" ++ "testuser"
            ++ "/repos?type=owner&per_page=100&page=1") [firstPage])
          (DoResult.response 404 "\x7b\"message\":\"Not Found\"\x7d" "")
        = Except.error "GitHub API returned status 404: \x7b\"message\":\"Not Found\"\x7d"
      ∧ FetchAllRepos (fun _ => none) tableDecode testClient "testuser"
          ([firstPage].map pageAnswer
            ++ DoResult.response 404 "\x7b\"message\":\"Not Found\"\x7d" ""
              :: [pageAnswer secondPage])
        = some { repos := [],
                 err := some "GitHub API returned status 404: \x7b\"message\":\"Not Found\"\x7d",
                 sent := ["http://127.0.0.1:8080/users/testuser/repos?type=owner&per_page=100&page=1",
                          "http://127.0.0.1:8080/users/testuser/repos?type=owner&per_page=100&page=2"].map
                    (newRequest testClient) } :=
  have hdec : ∀ p ∈ [firstPage], ∃ repos, tableDecode p.Body = Except.ok repos := by
    intro p hp
    rw [List.mem_singleton] at hp
    exact ⟨[publicRepo, cutoffRepo], by rw [hp]; decide⟩
  have hnext : ∀ p ∈ [firstPage], ParseNextLink p.Link ≠ "" := by decide
  have hbad : fetchPage tableDecode
        (chainEnd (testClient.BaseURL ++ "/users/" ++ "testuser"
          ++ "/repos?type=owner&per_page=100&page=1") [firstPage])
        (DoResult.response 404 "\x7b\"message\":\"Not Found\"\x7d" "")
      = Except.error "GitHub API returned status 404: \x7b\"message\":\"Not Found\"\x7d" := by
    decide
  ⟨hdec, hnext, hbad,
    ((FetchAllRepos_failure (fun _ => none) tableDecode testClient "testuser" [firstPage]
      (DoResult.response 404 "\x7b\"message\":\"Not Found\"\x7d" "") [pageAnswer secondPage]
      _ hdec hnext (fun _ _ => rfl) hbad).1).trans (by decide)⟩

/-! ## C26: a document with line feeds only -/

set_option maxRecDepth 100000 in
/-- C26, at the document of `TestPatchREADMEPreservesLF` and a section whose
first line ends with a carriage return and a line feed: the document has no
carriage return followed by a line feed, the patched content has one.  For a
document with line feeds only `adaptLineEnding` returns the section as it is,
while for the other kind of document it first turns every carriage return and
line feed of the section into a line feed.  The same happens when the section
is the output of `RenderMarkdown` for a record whose name holds the two
characters, and when the section is appended.  A document that ends with a
carriage return gets the pair from the separator, whatever the section. -/
theorem PatchREADME_lf_gains_crlf :
    Contains lfDoc "\r\n" = false
      ∧ PatchREADME lfDoc crlfSection "CURRENT PROJECTS" false
        = ({ Content := "# Profile\n\n<!-- BEGIN CURRENT PROJECTS -->\r\n## Current Projects\n"
                ++ "<!-- END CURRENT PROJECTS -->\n\n## About\n",
             Patched := true }, none)
      ∧ Contains (PatchREADME lfDoc crlfSection "CURRENT PROJECTS" false).1.Content "\r\n"
          = true
      ∧ Contains (PatchREADME lfDoc
            (RenderMarkdown asciiLower parsePlainURL [crlfNameRepo] "CURRENT PROJECTS")
            "CURRENT PROJECTS" false).1.Content "\r\n" = true
      ∧ Contains profileDoc "\r\n" = false
      ∧ Contains (PatchREADME profileDoc crlfSection "CURRENT PROJECTS" true).1.Content "\r\n"
          = true
      ∧ Contains loneCRDoc "\r\n" = false
      ∧ Contains projectsSection "\r\n" = false
      ∧ Contains (PatchREADME loneCRDoc projectsSection "CURRENT PROJECTS" true).1.Content
          "\r\n" = true
      ∧ (∀ content : String, adaptLineEnding content "\n" = content)
      ∧ adaptLineEnding crlfSection "\r\n"
        = "<!-- BEGIN CURRENT PROJECTS -->\r\n## Current Projects\r\n"
            ++ "<!-- END CURRENT PROJECTS -->\r\n" := by
  refine ⟨by decide, by decide, by decide, by decide, by decide, by decide, by decide,
    by decide, by decide, ?_, by decide⟩
  intro content
  unfold adaptLineEnding
  rw [if_neg (by decide)]

/-! ## C25: a document with carriage returns and line feeds -/

/-- C25: for a document that contains a carriage return followed by a line
feed and in which every line feed comes right after a carriage return, and for
every new section, every line feed in the content of a successful `PatchREADME`,
replacing or appending, comes right after a carriage return. -/
theorem PatchREADME_crlf_no_bare_lf (existing newSection marker : String)
    (appendIfMissing : Bool) (hcrlf : "\r\n".data <:+: existing.data)
    (hdoc : ∀ pre post : List Char, existing.data = pre ++ '\n' :: post →
        ∃ pre', pre = pre' ++ ['\r'])
    (hok : (PatchREADME existing newSection marker appendIfMissing).2 = none) :
    ∀ pre post : List Char,
      (PatchREADME existing newSection marker appendIfMissing).1.Content.data
          = pre ++ '\n' :: post →
        ∃ pre', pre = pre' ++ ['\r'] :=
  (noBareLF_iff _).mp
    (noBareLF_PatchREADME existing newSection marker appendIfMissing
      ((Contains_iff existing "\r\n").mpr hcrlf) ((noBareLF_iff existing).mpr hdoc) hok)

set_option maxRecDepth 100000 in
/-- C25, at the fixture of `TestPatchREADMECRLF`: the section has line feeds
only, and in the patched content the line feed after `## Current Projects`
comes after a carriage return. -/
theorem PatchREADME_crlf_no_bare_lf_witness :
    "\r\n".data <:+: crlfDoc.data
      ∧ (∀ pre post : List Char, crlfDoc.data = pre ++ '\n' :: post →
          ∃ pre', pre = pre' ++ ['\r'])
      ∧ (PatchREADME crlfDoc crlfTestSection "CURRENT PROJECTS" false).2 = none
      ∧ (PatchREADME crlfDoc crlfTestSection "CURRENT PROJECTS" false).1.Content.data
          = "# Profile\r\n\r\n<!-- BEGIN CURRENT PROJECTS -->\r\n## Current Projects\r".data
            ++ '\n' :: "\r\n- [repo](url)\r\n<!-- END CURRENT PROJECTS -->\r\n\r\n## About\r\n".data
      ∧ ∃ pre', "# Profile\r\n\r\n<!-- BEGIN CURRENT PROJECTS -->\r\n## Current Projects\r".data
          = pre' ++ ['\r'] :=
  have hcrlf : "\r\n".data <:+: crlfDoc.data := (Contains_iff crlfDoc "\r\n").mp (by decide)
  have hdoc : ∀ pre post : List Char, crlfDoc.data = pre ++ '\n' :: post →
      ∃ pre', pre = pre' ++ ['\r'] := (noBareLF_iff crlfDoc).mp (by decide)
  have hok : (PatchREADME crlfDoc crlfTestSection "CURRENT PROJECTS" false).2 = none := by
    decide
  have hsplit : (PatchREADME crlfDoc crlfTestSection "CURRENT PROJECTS" false).1.Content.data
      = "# Profile\r\n\r\n<!-- BEGIN CURRENT PROJECTS -->\r\n## Current Projects\r".data
        ++ '\n' :: "\r\n- [repo](url)\r\n<!-- END CURRENT PROJECTS -->\r\n\r\n## About\r\n".data := by
    decide
  ⟨hcrlf, hdoc, hok, hsplit,
    PatchREADME_crlf_no_bare_lf crlfDoc crlfTestSection "CURRENT PROJECTS" false hcrlf hdoc hok
      _ _ hsplit⟩

/-! ## C24: patching twice -/

set_option maxRecDepth 100000 in
/-- C24, at a record whose name holds a carriage return and a line feed, in a
document with line feeds only whose BEGIN marker comes before its END marker:
the first patch succeeds and brings the pair into the document, for a section
is left as it is when the document has line feeds only; the second patch, with
the same section and marker, takes the document for one with carriage returns
and rewrites every line ending of the section, so its result is not that of
the first. -/
theorem PatchREADME_twice_differs :
    Index emptySpanDoc (beginMarker "CURRENT PROJECTS")
        < Index emptySpanDoc (endMarker "CURRENT PROJECTS")
      ∧ Index emptySpanDoc (beginMarker "CURRENT PROJECTS") ≠ -1
      ∧ PatchREADME emptySpanDoc
          (RenderMarkdown asciiLower parsePlainURL [crlfNameRepo] "CURRENT PROJECTS")
          "CURRENT PROJECTS" false
        = ({ Content := "<!-- BEGIN CURRENT PROJECTS -->\n## Current Projects\n\n- a\r\nb\n"
                ++ "<!-- END CURRENT PROJECTS -->\n",
             Patched := true }, none)
      ∧ PatchREADME ("<!-- BEGIN CURRENT PROJECTS -->\n## Current Projects\n\n- a\r\nb\n"
            ++ "<!-- END CURRENT PROJECTS -->\n")
          (RenderMarkdown asciiLower parsePlainURL [crlfNameRepo] "CURRENT PROJECTS")
          "CURRENT PROJECTS" false
        = ({ Content := "<!-- BEGIN CURRENT PROJECTS -->\r\n## Current Projects\r\n\r\n"
                ++ "- a\r\nb\r\n<!-- END CURRENT PROJECTS -->\r\n",
             Patched := true }, none)
      ∧ PatchREADME
          (PatchREADME emptySpanDoc
            (RenderMarkdown asciiLower parsePlainURL [crlfNameRepo] "CURRENT PROJECTS")
            "CURRENT PROJECTS" false).1.Content
          (RenderMarkdown asciiLower parsePlainURL [crlfNameRepo] "CURRENT PROJECTS")
          "CURRENT PROJECTS" false
        ≠ PatchREADME emptySpanDoc
          (RenderMarkdown asciiLower parsePlainURL [crlfNameRepo] "CURRENT PROJECTS")
          "CURRENT PROJECTS" false := by
  refine ⟨by decide, by decide, by decide, by decide, by decide⟩

set_option maxRecDepth 100000 in
/-- With a marker name that holds a line feed, in a document with carriage
returns: the first patch writes the markers with a carriage return before that
line feed, and the second patch does not find them. -/
theorem PatchREADME_twice_marker_line_feed :
    Index brokenMarkerDoc (beginMarker "A\nB") < Index brokenMarkerDoc (endMarker "A\nB")
      ∧ Index brokenMarkerDoc (beginMarker "A\nB") ≠ -1
      ∧ PatchREADME brokenMarkerDoc (RenderMarkdown asciiLower parsePlainURL [] "A\nB")
          "A\nB" false
        = ({ Content := "<!-- BEGIN A\r\nB -->\r\n## Current Projects\r\n\r\n"
                ++ "_No public projects matched._\r\n<!-- END A\r\nB -->\r\n",
             Patched := true }, none)
      ∧ PatchREADME ("<!-- BEGIN A\r\nB -->\r\n## Current Projects\r\n\r\n"
            ++ "_No public projects matched._\r\n<!-- END A\r\nB -->\r\n")
          (RenderMarkdown asciiLower parsePlainURL [] "A\nB") "A\nB" false
        = ({ Content := "", Patched := false }, some (PatchError.markerNotFound "A\nB")) := by
  refine ⟨by decide, by decide, by decide, by decide⟩

/-- Patching twice where no line ending comes in through a name: when the
marker name and the line of every record have no carriage return and no line
feed, patching a document whose first
BEGIN marker starts before its first END marker with the output of
`RenderMarkdown` succeeds, and patching the result again with the same section
and marker succeeds and gives the same result, character for character. -/
theorem PatchREADME_idempotent (fold : Char → Char) (parse : String → Option URL)
    (repos : List Repository) (marker existing : String) (first second : Bool)
    (before rest pre tail : List Char)
    (hB : existing.data = before ++ (beginMarker marker).data ++ rest)
    (hBmin : ∀ p q : List Char, existing.data = p ++ (beginMarker marker).data ++ q →
        before.length ≤ p.length)
    (hE : existing.data = pre ++ (endMarker marker).data ++ tail)
    (hEmin : ∀ p q : List Char, existing.data = p ++ (endMarker marker).data ++ q →
        pre.length ≤ p.length)
    (hlt : before.length < pre.length)
    (hcr : '\r' ∉ marker.data) (hlf : '\n' ∉ marker.data)
    (hlines : ∀ r ∈ repos, '\r' ∉ (formatRepoLine fold parse r).data
        ∧ '\n' ∉ (formatRepoLine fold parse r).data) :
    (PatchREADME existing (RenderMarkdown fold parse repos marker) marker first).2 = none
      ∧ (PatchREADME existing (RenderMarkdown fold parse repos marker) marker first).1.Patched
          = true
      ∧ PatchREADME
          (PatchREADME existing (RenderMarkdown fold parse repos marker) marker first).1.Content
          (RenderMarkdown fold parse repos marker) marker second
        = ((PatchREADME existing (RenderMarkdown fold parse repos marker) marker first).1,
            none) := by
  obtain ⟨h1, h2⟩ := PatchREADME_twice fold parse repos marker existing first second
    before rest pre tail hB hBmin hE hEmin hlt hcr hlf hlines
  rw [h1]
  exact ⟨rfl, rfl, h2⟩

set_option maxRecDepth 100000 in
/-- Patching twice, at the document of `TestPatchREADMECRLF` and the section of
one record: the second patch gives the content of the first. -/
theorem PatchREADME_idempotent_witness :
    crlfDoc.data
        = "# Profile\r\n\r\n".data ++ (beginMarker "CURRENT PROJECTS").data
            ++ "\r\n## Old\r\n<!-- END CURRENT PROJECTS -->\r\n\r\n## About\r\n".data
      ∧ (∀ p q : List Char,
          crlfDoc.data = p ++ (beginMarker "CURRENT PROJECTS").data ++ q →
            "# Profile\r\n\r\n".data.length ≤ p.length)
      ∧ crlfDoc.data
        = "# Profile\r\n\r\n<!-- BEGIN CURRENT PROJECTS -->\r\n## Old\r\n".data
            ++ (endMarker "CURRENT PROJECTS").data ++ "\r\n\r\n## About\r\n".data
      ∧ (∀ p q : List Char,
          crlfDoc.data = p ++ (endMarker "CURRENT PROJECTS").data ++ q →
            "# Profile\r\n\r\n<!-- BEGIN CURRENT PROJECTS -->\r\n## Old\r\n".data.length
              ≤ p.length)
      ∧ "# Profile\r\n\r\n".data.length
          < "# Profile\r\n\r\n<!-- BEGIN CURRENT PROJECTS -->\r\n## Old\r\n".data.length
      ∧ '\r' ∉ "CURRENT PROJECTS".data ∧ '\n' ∉ "CURRENT PROJECTS".data
      ∧ (∀ r ∈ [awesomeRepo], '\r' ∉ (formatRepoLine asciiLower parsePlainURL r).data
          ∧ '\n' ∉ (formatRepoLine asciiLower parsePlainURL r).data)
      ∧ (PatchREADME crlfDoc
            (RenderMarkdown asciiLower parsePlainURL [awesomeRepo] "CURRENT PROJECTS")
            "CURRENT PROJECTS" false).1.Content
        = "# Profile\r\n\r\n<!-- BEGIN CURRENT PROJECTS -->\r\n## Current Projects\r\n\r\n"
            ++ "- [awesome](https://github.com/u/awesome) (Go) - An awesome project\r\n"
            ++ "<!-- END CURRENT PROJECTS -->\r\n\r\n## About\r\n"
      ∧ PatchREADME
          (PatchREADME crlfDoc
            (RenderMarkdown asciiLower parsePlainURL [awesomeRepo] "CURRENT PROJECTS")
            "CURRENT PROJECTS" false).1.Content
          (RenderMarkdown asciiLower parsePlainURL [awesomeRepo] "CURRENT PROJECTS")
          "CURRENT PROJECTS" false
        = ((PatchREADME crlfDoc
            (RenderMarkdown asciiLower parsePlainURL [awesomeRepo] "CURRENT PROJECTS")
            "CURRENT PROJECTS" false).1, none) :=
  have hB : crlfDoc.data
        = "# Profile\r\n\r\n".data ++ (beginMarker "CURRENT PROJECTS").data
            ++ "\r\n## Old\r\n<!-- END CURRENT PROJECTS -->\r\n\r\n## About\r\n".data := by
    decide
  have hBmin : ∀ p q : List Char,
      crlfDoc.data = p ++ (beginMarker "CURRENT PROJECTS").data ++ q →
        "# Profile\r\n\r\n".data.length ≤ p.length := by
    intro p q h
    have h1 := (Index_le_of_occurrence crlfDoc _ p q h).2
    have h2 : Index crlfDoc (beginMarker "CURRENT PROJECTS") = 13 := by decide
    have h3 : "# Profile\r\n\r\n".data.length = 13 := by decide
    rw [h2] at h1
    rw [h3]
    exact_mod_cast h1
  have hE : crlfDoc.data
        = "# Profile\r\n\r\n<!-- BEGIN CURRENT PROJECTS -->\r\n## Old\r\n".data
            ++ (endMarker "CURRENT PROJECTS").data ++ "\r\n\r\n## About\r\n".data := by
    decide
  have hEmin : ∀ p q : List Char,
      crlfDoc.data = p ++ (endMarker "CURRENT PROJECTS").data ++ q →
        "# Profile\r\n\r\n<!-- BEGIN CURRENT PROJECTS -->\r\n## Old\r\n".data.length
          ≤ p.length := by
    intro p q h
    have h1 := (Index_le_of_occurrence crlfDoc _ p q h).2
    have h2 : Index crlfDoc (endMarker "CURRENT PROJECTS") = 54 := by decide
    have h3 : "# Profile\r\n\r\n<!-- BEGIN CURRENT PROJECTS -->\r\n## Old\r\n".data.length
        = 54 := by decide
    rw [h2] at h1
    rw [h3]
    exact_mod_cast h1
  have hlt : "# Profile\r\n\r\n".data.length
      < "# Profile\r\n\r\n<!-- BEGIN CURRENT PROJECTS -->\r\n## Old\r\n".data.length := by
    decide
  have hcr : '\r' ∉ "CURRENT PROJECTS".data := by decide
  have hlf : '\n' ∉ "CURRENT PROJECTS".data := by decide
  have hlines : ∀ r ∈ [awesomeRepo], '\r' ∉ (formatRepoLine asciiLower parsePlainURL r).data
      ∧ '\n' ∉ (formatRepoLine asciiLower parsePlainURL r).data := by decide
  ⟨hB, hBmin, hE, hEmin, hlt, hcr, hlf, hlines, by decide,
    (PatchREADME_idempotent asciiLower parsePlainURL [awesomeRepo] "CURRENT PROJECTS" crlfDoc
      false false _ _ _ _ hB hBmin hE hEmin hlt hcr hlf hlines).2.2⟩

/-! ## Lemmas on the stages put together -/

theorem filter_sublist_filter {α : Type} (p q : α → Bool) (l : List α)
    (h : ∀ a, p a = true → q a = true) : List.Sublist (l.filter p) (l.filter q) := by
  induction l with
  | nil => exact List.Sublist.slnil
  | cons a l ih =>
    by_cases hp : p a = true
    · rw [List.filter_cons_of_pos hp, List.filter_cons_of_pos (h a hp)]
      exact ih.cons₂ a
    · rw [List.filter_cons_of_neg hp]
      by_cases hq : q a = true
      · rw [List.filter_cons_of_pos hq]
        exact ih.cons a
      · rw [List.filter_cons_of_neg hq]
        exact ih

/-- A topic match in the mode "all" is a topic match in the mode "any". -/
theorem matchTopics_any_of_all (lower : Char → Char) (topics tags : List String)
    (h : matchTopics lower topics tags true = true) :
    matchTopics lower topics tags false = true := by
  by_cases hset : topicSet lower topics = []
  · rw [matchTopics_no_topics lower topics tags true hset] at h
    exact absurd h (by decide)
  · rw [matchTopics_eq_matchLoop lower topics tags true hset, matchLoop_all_iff] at h
    rw [matchTopics_eq_matchLoop lower topics tags false hset, matchLoop_any_iff]
    obtain ⟨hall, hsome⟩ := h
    rcases hsome with h0 | ⟨tag, htag, hne⟩
    · exact absurd h0 (by decide)
    · exact ⟨tag, htag, hne, hall tag htag hne⟩

/-- The insertion sort keeps the order of the elements that are tied with a
given one. -/
theorem SliceStable_filter_tie {α : Type} (lt : α → α → Bool)
    (htrans : ∀ a b c, lt a b = false → lt b c = false → lt a c = false)
    (l : List α) (r : α) :
    (SliceStable lt l).filter (tie lt r) = l.filter (tie lt r) := by
  apply SliceStable_filter
  intro a b ha hb
  unfold tie at ha hb
  simp only [Bool.and_eq_true, Bool.not_eq_true'] at ha hb
  exact htrans a r b ha.2 hb.1

/-- Sorting a filtered list gives the filtered sorted list, for a comparison
that is a strict weak order. -/
theorem SliceStable_filter_comm {α : Type} (lt : α → α → Bool)
    (hasymm : ∀ a b, lt a b = true → lt b a = false)
    (htrans : ∀ a b c, lt a b = false → lt b c = false → lt a c = false)
    (p : α → Bool) (l : List α) :
    SliceStable lt (l.filter p) = (SliceStable lt l).filter p := by
  symm
  apply SliceStable_unique lt hasymm htrans
  · exact (SliceStable_pairwise lt hasymm htrans l).sublist (List.filter_sublist _)
  · intro r
    rw [List.filter_filter, List.filter_filter]
    have h1 : (SliceStable lt l).filter (fun a => tie lt r a && p a)
        = ((SliceStable lt l).filter (tie lt r)).filter p := by
      rw [List.filter_filter]
      congr 1
      funext a
      exact Bool.and_comm _ _
    have h2 : l.filter (fun a => tie lt r a && p a) = (l.filter (tie lt r)).filter p := by
      rw [List.filter_filter]
      congr 1
      funext a
      exact Bool.and_comm _ _
    rw [h1, h2, SliceStable_filter_tie lt htrans l r]

/-! ## Lemmas on the escaping of text and of URLs -/

theorem not_mem_urlEscaper (x : Char) (hx : x = '(' ∨ x = ')' ∨ x = ' ') (c : Char) :
    x ∉ urlEscaper c := by
  unfold urlEscaper
  split_ifs with h1 h2 h3
  · rcases hx with h | h | h <;> rw [h] <;> decide
  · rcases hx with h | h | h <;> rw [h] <;> decide
  · rcases hx with h | h | h <;> rw [h] <;> decide
  · intro hm
    rw [List.mem_singleton] at hm
    rcases hx with h | h | h
    · exact h1 (by rw [← hm, h])
    · exact h2 (by rw [← hm, h])
    · exact h3 (by rw [← hm, h])

/-- The two shapes of the result of `sanitizeMarkdownURL`. -/
theorem sanitizeMarkdownURL_shape (fold : Char → Char) (parse : String → Option URL)
    (raw : String) :
    sanitizeMarkdownURL fold parse raw = ""
      ∨ ∃ u : URL, parse (strippedURL raw) = some u
          ∧ (sanitizeMarkdownURL fold parse raw).data = u.text.data.flatMap urlEscaper := by
  unfold sanitizeMarkdownURL strippedURL
  simp only []
  split_ifs with h1
  · exact Or.inl rfl
  · split
    · exact Or.inl rfl
    · next u hu =>
      split_ifs
      · exact Or.inl rfl
      · exact Or.inr ⟨u, hu, rfl⟩

theorem not_mem_sanitizeMarkdownURL (fold : Char → Char) (parse : String → Option URL)
    (raw : String) (x : Char) (hx : x = '(' ∨ x = ')' ∨ x = ' ') :
    x ∉ (sanitizeMarkdownURL fold parse raw).data := by
  rcases sanitizeMarkdownURL_shape fold parse raw with h | ⟨u, _, h⟩
  · rw [h]
    simp
  · rw [h]
    intro hm
    rw [List.mem_flatMap] at hm
    obtain ⟨c, _, hc⟩ := hm
    exact not_mem_urlEscaper x hx c hc

/-! ## Lemmas on `strings.ReplaceAll` and `strings.Fields` -/

theorem replaceFrom_skip (old new : List Char) (k : Nat) (l : List Char) :
    replaceFrom old new k l = replaceFrom old new 0 (l.drop k) := by
  induction k generalizing l with
  | zero => rfl
  | succ k ih =>
    cases l with
    | nil => rfl
    | cons c cs =>
      rw [replaceFrom, ih, List.drop_succ_cons]

/-- At a match, `ReplaceAll` writes the new text and goes on after the match. -/
theorem replaceFrom_match (old new rest : List Char) (hne : old ≠ []) :
    replaceFrom old new 0 (old ++ rest) = new ++ replaceFrom old new 0 rest := by
  cases old with
  | nil => exact absurd rfl hne
  | cons c old' =>
    have hp : List.isPrefixOf (c :: old') (c :: (old' ++ rest)) = true := by
      rw [List.isPrefixOf_iff_prefix]
      exact List.prefix_append (c :: old') rest
    rw [List.cons_append, replaceFrom, if_pos hp, replaceFrom_skip]
    simp

/-- Where there is no match, `ReplaceAll` copies one character. -/
theorem replaceFrom_no_match (old new : List Char) (c : Char) (cs : List Char)
    (h : List.isPrefixOf old (c :: cs) = false) :
    replaceFrom old new 0 (c :: cs) = c :: replaceFrom old new 0 cs := by
  rw [replaceFrom, h]
  simp

/-- A run of white space ends the field being read, and nothing more. -/
theorem fieldsLoop_space_run (w rest cur : List Char) (hne : w ≠ [])
    (hw : ∀ c ∈ w, isSpace c = true) :
    fieldsLoop (w ++ rest) cur
      = (if cur = [] then [] else [cur]) ++ fieldsLoop rest [] := by
  induction w generalizing cur with
  | nil => exact absurd rfl hne
  | cons c w ih =>
    have hc : isSpace c = true := hw c (List.mem_cons_self _ _)
    rw [List.cons_append, fieldsLoop, if_pos hc]
    by_cases hw0 : w = []
    · subst hw0
      by_cases hcur : cur = []
      · simp [hcur]
      · simp [hcur]
    · have h2 := ih [] hw0 (fun x hx => hw x (List.mem_cons_of_mem _ hx))
      rw [h2]
      by_cases hcur : cur = []
      · simp [hcur]
      · simp [hcur]

/-- Replacing a run of white space by another leaves the fields as they
are. -/
theorem fieldsLoop_replace (old new : List Char) (hold : old ≠ []) (hnew : new ≠ [])
    (ho : ∀ c ∈ old, isSpace c = true) (hn : ∀ c ∈ new, isSpace c = true)
    (n : Nat) : ∀ (l cur : List Char), l.length ≤ n →
      fieldsLoop (replaceFrom old new 0 l) cur = fieldsLoop l cur := by
  induction n with
  | zero =>
    intro l cur hl
    have : l = [] := List.length_eq_zero.mp (Nat.le_zero.mp hl)
    subst this
    rfl
  | succ n ih =>
    intro l cur hl
    cases l with
    | nil => rfl
    | cons c cs =>
      by_cases hp : List.isPrefixOf old (c :: cs) = true
      · obtain ⟨rest, hrest⟩ := List.isPrefixOf_iff_prefix.mp hp
        have hlen : rest.length ≤ n := by
          have h1 := congrArg List.length hrest
          have h2 : 0 < old.length := List.length_pos.mpr hold
          simp only [List.length_append, List.length_cons] at h1 hl
          omega
        rw [← hrest, replaceFrom_match old new rest hold,
          fieldsLoop_space_run new _ cur hnew hn, fieldsLoop_space_run old rest cur hold ho,
          ih rest [] hlen]
      · rw [Bool.not_eq_true] at hp
        have hlen : cs.length ≤ n := by
          simp only [List.length_cons] at hl
          omega
        rw [replaceFrom_no_match old new c cs hp, fieldsLoop, fieldsLoop]
        by_cases hc : isSpace c = true
        · rw [if_pos hc, if_pos hc, ih cs [] hlen]
        · rw [if_neg hc, if_neg hc, ih cs _ hlen]

theorem Fields_ReplaceAll (s old new : String) (hold : old ≠ "") (hnew : new ≠ "")
    (ho : ∀ c ∈ old.data, isSpace c = true) (hn : ∀ c ∈ new.data, isSpace c = true) :
    Fields (ReplaceAll s old new) = Fields s := by
  unfold ReplaceAll
  by_cases h : old = new
  · rw [if_pos h]
  · rw [if_neg h, if_neg hold]
    unfold Fields
    rw [fieldsLoop_replace old.data new.data ((string_ne_empty_iff old).mp hold)
      ((string_ne_empty_iff new).mp hnew) ho hn s.data.length s.data [] (Nat.le_refl _)]

/-- The three replacements of `normalizeInlineText` leave the fields as they
are: the result is the fields of the argument, joined by one space. -/
theorem normalizeInlineText_eq (s : String) :
    normalizeInlineText s = Join (Fields s) " " := by
  unfold normalizeInlineText
  simp only []
  rw [Fields_ReplaceAll _ "\r" " " (by decide) (by decide) (by decide) (by decide),
    Fields_ReplaceAll _ "\n" " " (by decide) (by decide) (by decide) (by decide),
    Fields_ReplaceAll _ "\r\n" " " (by decide) (by decide) (by decide) (by decide)]

/-- Every field is a non-empty run without white space. -/
theorem fieldsLoop_fields (l cur : List Char) (hcur : ∀ c ∈ cur, isSpace c = false) :
    ∀ f ∈ fieldsLoop l cur, f ≠ [] ∧ ∀ c ∈ f, isSpace c = false := by
  induction l generalizing cur with
  | nil =>
    intro f hf
    rw [fieldsLoop] at hf
    by_cases h : cur = []
    · rw [if_pos h] at hf
      exact absurd hf (List.not_mem_nil _)
    · rw [if_neg h, List.mem_singleton] at hf
      rw [hf]
      exact ⟨h, hcur⟩
  | cons c cs ih =>
    intro f hf
    rw [fieldsLoop] at hf
    by_cases hc : isSpace c = true
    · rw [if_pos hc] at hf
      by_cases h : cur = []
      · rw [if_pos h] at hf
        exact ih [] (fun _ hx => absurd hx (List.not_mem_nil _)) f hf
      · rw [if_neg h] at hf
        rcases List.mem_cons.mp hf with h1 | h1
        · rw [h1]
          exact ⟨h, hcur⟩
        · exact ih [] (fun _ hx => absurd hx (List.not_mem_nil _)) f h1
    · rw [if_neg hc] at hf
      rw [Bool.not_eq_true] at hc
      refine ih (cur ++ [c]) ?_ f hf
      intro x hx
      rcases List.mem_append.mp hx with h1 | h1
      · exact hcur x h1
      · rw [List.mem_singleton] at h1
        rw [h1]
        exact hc

/-- The fields, one after the other, are the characters that are not white
space. -/
theorem fieldsLoop_flatten (l cur : List Char) (hcur : ∀ c ∈ cur, isSpace c = false) :
    (fieldsLoop l cur).flatten = cur ++ l.filter (fun c => !isSpace c) := by
  induction l generalizing cur with
  | nil =>
    rw [fieldsLoop]
    by_cases h : cur = []
    · simp [h]
    · simp [h]
  | cons c cs ih =>
    rw [fieldsLoop]
    by_cases hc : isSpace c = true
    · rw [if_pos hc]
      have hf : (c :: cs).filter (fun c => !isSpace c) = cs.filter (fun c => !isSpace c) := by
        rw [List.filter_cons_of_neg (by simp [hc])]
      rw [hf]
      by_cases h : cur = []
      · rw [if_pos h, ih [] (fun _ hx => absurd hx (List.not_mem_nil _)), h]
      · rw [if_neg h, List.flatten_cons,
          ih [] (fun _ hx => absurd hx (List.not_mem_nil _))]
        simp
    · rw [if_neg hc]
      rw [Bool.not_eq_true] at hc
      rw [ih (cur ++ [c]) (by
        intro x hx
        rcases List.mem_append.mp hx with h1 | h1
        · exact hcur x h1
        · rw [List.mem_singleton] at h1
          rw [h1]
          exact hc), List.filter_cons_of_pos (by simp [hc])]
      simp

/-- There is no field exactly when every character is white space. -/
theorem fieldsLoop_eq_nil_iff (l cur : List Char) :
    fieldsLoop l cur = [] ↔ cur = [] ∧ ∀ c ∈ l, isSpace c = true := by
  induction l generalizing cur with
  | nil =>
    rw [fieldsLoop]
    by_cases h : cur = []
    · simp [h]
    · simp [h]
  | cons c cs ih =>
    rw [fieldsLoop]
    by_cases hc : isSpace c = true
    · rw [if_pos hc]
      by_cases h : cur = []
      · rw [if_pos h, ih]
        simp [h, hc]
      · rw [if_neg h]
        simp [h]
    · rw [if_neg hc, ih]
      simp [hc]

/-! ## Lemmas on words joined by single spaces -/

theorem spacedWords_word (w rest : List Char) (b : Bool) (hne : w ≠ [])
    (hw : ∀ c ∈ w, isSpace c = false) :
    spacedWords b (w ++ rest) = spacedWords false rest := by
  induction w generalizing b with
  | nil => exact absurd rfl hne
  | cons c w ih =>
    have hc : isSpace c = false := hw c (List.mem_cons_self _ _)
    rw [List.cons_append, spacedWords, hc]
    simp only [Bool.false_eq_true, if_false]
    by_cases hw0 : w = []
    · rw [hw0, List.nil_append]
    · exact ih false hw0 (fun x hx => hw x (List.mem_cons_of_mem _ hx))

theorem spacedWords_tail (words : List String)
    (hwords : ∀ w ∈ words, w ≠ "" ∧ ∀ c ∈ w.data, isSpace c = false) :
    spacedWords false (words.flatMap (fun w => " ".data ++ w.data)) = true := by
  induction words with
  | nil => rfl
  | cons w ws ih =>
    have hw := hwords w (List.mem_cons_self _ _)
    have h1 : (w :: ws).flatMap (fun w => " ".data ++ w.data)
        = ' ' :: (w.data ++ ws.flatMap (fun w => " ".data ++ w.data)) := by
      rw [List.flatMap_cons]
      rfl
    have hsp : isSpace ' ' = true := by decide
    rw [h1, spacedWords, if_pos hsp,
      spacedWords_word w.data _ true ((string_ne_empty_iff w).mp hw.1) hw.2,
      ih (fun x hx => hwords x (List.mem_cons_of_mem _ hx))]
    rfl

/-- Non-empty words without white space, joined by one space. -/
theorem spacedWords_Join (words : List String) (hne : words ≠ [])
    (hwords : ∀ w ∈ words, w ≠ "" ∧ ∀ c ∈ w.data, isSpace c = false) :
    spacedWords true (Join words " ").data = true := by
  cases words with
  | nil => exact absurd rfl hne
  | cons w ws =>
    have hw := hwords w (List.mem_cons_self _ _)
    rw [Join_cons_data, spacedWords_word w.data _ true ((string_ne_empty_iff w).mp hw.1) hw.2]
    exact spacedWords_tail ws (fun x hx => hwords x (List.mem_cons_of_mem _ hx))

theorem spacedWords_only_space (b : Bool) (l : List Char) (h : spacedWords b l = true) :
    ∀ c ∈ l, isSpace c = true → c = ' ' := by
  induction l generalizing b with
  | nil => intro c hc; exact absurd hc (List.not_mem_nil _)
  | cons d ds ih =>
    intro c hc hsp
    rw [spacedWords] at h
    by_cases hd : isSpace d = true
    · rw [if_pos hd, Bool.and_eq_true, Bool.and_eq_true] at h
      rcases List.mem_cons.mp hc with h1 | h1
      · rw [h1]
        exact beq_iff_eq.mp h.1.1
      · exact ih true h.2 c h1 hsp
    · rw [if_neg hd] at h
      rcases List.mem_cons.mp hc with h1 | h1
      · rw [h1] at hsp
        exact absurd hsp hd
      · exact ih false h c h1 hsp

theorem spacedWords_head (l : List Char) (h : spacedWords true l = true) :
    ∀ c, l.head? = some c → isSpace c = false := by
  intro c hc
  cases l with
  | nil => exact absurd hc (by simp)
  | cons d ds =>
    simp only [List.head?_cons, Option.some.injEq] at hc
    subst hc
    rw [spacedWords] at h
    by_cases hd : isSpace d = true
    · rw [if_pos hd] at h
      simp at h
    · rw [Bool.not_eq_true] at hd
      exact hd

theorem spacedWords_last (b : Bool) (l : List Char) (h : spacedWords b l = true) :
    ∀ c, l.getLast? = some c → isSpace c = false := by
  induction l generalizing b with
  | nil => intro c hc; exact absurd hc (by simp)
  | cons d ds ih =>
    intro c hc
    rw [spacedWords] at h
    cases ds with
    | nil =>
      simp only [List.getLast?_singleton, Option.some.injEq] at hc
      subst hc
      by_cases hd : isSpace d = true
      · rw [if_pos hd] at h
        simp [spacedWords] at h
      · rw [Bool.not_eq_true] at hd
        exact hd
    | cons e es =>
      rw [List.getLast?_cons_cons] at hc
      by_cases hd : isSpace d = true
      · rw [if_pos hd, Bool.and_eq_true] at h
        exact ih true h.2 c hc
      · rw [if_neg hd] at h
        exact ih false h c hc

theorem spacedWords_no_adjacent (b : Bool) (l : List Char) (h : spacedWords b l = true) :
    ∀ (pre post : List Char) (x y : Char), l = pre ++ x :: y :: post →
      ¬ (isSpace x = true ∧ isSpace y = true) := by
  induction l generalizing b with
  | nil =>
    intro pre post x y hs
    have h2 := congrArg List.length hs
    simp only [List.length_nil, List.length_append, List.length_cons] at h2
    omega
  | cons d ds ih =>
    intro pre post x y hs
    rw [spacedWords] at h
    cases pre with
    | nil =>
      simp only [List.nil_append, List.cons.injEq] at hs
      obtain ⟨hdx, hds⟩ := hs
      rintro ⟨hx, hy⟩
      rw [← hdx] at hx
      rw [if_pos hx, Bool.and_eq_true] at h
      have h2 := h.2
      rw [hds, spacedWords, if_pos hy] at h2
      simp at h2
    | cons e pre =>
      simp only [List.cons_append, List.cons.injEq] at hs
      by_cases hd : isSpace d = true
      · rw [if_pos hd, Bool.and_eq_true] at h
        exact ih true h.2 pre post x y hs.2
      · rw [if_neg hd] at h
        exact ih false h pre post x y hs.2

theorem mem_markdownInlineEscaper_control (c x : Char) (hc : c = '\r' ∨ c = '\n')
    (h : c ∈ markdownInlineEscaper x) : x = c := by
  unfold markdownInlineEscaper at h
  split_ifs at h with h1 h2 h3 h4 h5 h6 h7 h8 h9
  all_goals first
    | (rcases hc with hc | hc <;> rw [hc] at h <;> exact absurd h (by decide))
    | (rw [List.mem_singleton] at h
       exact h.symm)

theorem not_mem_escapeMarkdownInline_control (c : Char) (s : String)
    (hc : c = '\r' ∨ c = '\n') (h : c ∉ s.data) : c ∉ (escapeMarkdownInline s).data := by
  rw [escapeMarkdownInline_data]
  intro hm
  rw [List.mem_flatMap] at hm
  obtain ⟨x, hx, hcx⟩ := hm
  rw [mem_markdownInlineEscaper_control c x hc hcx] at hx
  exact h hx

/-! ## Lemmas on appending a section and patching the result -/

/-- An occurrence of a text without the character `c` in `x ++ c :: y` ends in
`x` or starts after `c`. -/
theorem occurrence_split_at (c : Char) (sub x y p q : List Char) (hc : c ∉ sub)
    (h : x ++ c :: y = p ++ sub ++ q) :
    p.length + sub.length ≤ x.length ∨ x.length < p.length := by
  by_contra hcon
  rw [not_or, not_le, not_lt] at hcon
  obtain ⟨h1, h2⟩ := hcon
  rw [List.append_assoc] at h
  rcases List.append_eq_append_iff.mp h with ⟨a', ha1, ha2⟩ | ⟨c', hc1, hc2⟩
  · have hl := congrArg List.length ha1
    rw [List.length_append] at hl
    have ha0 : a' = [] := List.length_eq_zero.mp (by omega)
    rw [ha0, List.nil_append] at ha2
    cases sub with
    | nil =>
      simp only [List.length_nil] at h1
      omega
    | cons d sub' =>
      rw [List.cons_append] at ha2
      exact hc (by rw [(List.cons.inj ha2).1]; exact List.mem_cons_self _ _)
  · have hl := congrArg List.length hc1
    rw [List.length_append] at hl
    rcases List.append_eq_append_iff.mp hc2 with ⟨a'', hb1, hb2⟩ | ⟨c'', hd1, hd2⟩
    · have hl2 := congrArg List.length hb1
      rw [List.length_append] at hl2
      omega
    · cases c'' with
      | nil =>
        rw [List.append_nil] at hd1
        have hl2 := congrArg List.length hd1
        omega
      | cons d c3 =>
        rw [List.cons_append] at hd2
        apply hc
        rw [hd1, (List.cons.inj hd2).1]
        exact List.mem_append_right _ (List.mem_cons_self _ _)

/-- An occurrence of a text without carriage return and line feed, in a text
that holds a run of these characters, starts after the run when the part
before the run has no occurrence. -/
theorem occurrence_after_separator (sub x sep y p q : List Char) (hne : sub ≠ [])
    (hcr : '\r' ∉ sub) (hlf : '\n' ∉ sub) (hsep : sep ≠ [])
    (hsepc : ∀ c ∈ sep, c = '\r' ∨ c = '\n') (hx : ¬ sub <:+: x)
    (h : x ++ sep ++ y = p ++ sub ++ q) : (x ++ sep).length ≤ p.length := by
  by_contra hshort
  rw [not_le] at hshort
  have hlast : sep = sep.dropLast ++ [sep.getLast hsep] :=
    (List.dropLast_append_getLast hsep).symm
  have hc : sep.getLast hsep ∉ sub := by
    rcases hsepc _ (List.getLast_mem hsep) with h1 | h1
    · rw [h1]
      exact hcr
    · rw [h1]
      exact hlf
  have h2 : (x ++ sep.dropLast) ++ sep.getLast hsep :: y = p ++ sub ++ q := by
    rw [← h]
    conv_rhs => rw [hlast]
    simp
  have hlen : (x ++ sep).length = (x ++ sep.dropLast).length + 1 := by
    conv_lhs => rw [hlast]
    simp only [List.length_append, List.length_cons, List.length_nil]
    omega
  rcases occurrence_split_at _ sub _ _ p q hc h2 with h3 | h3
  · obtain ⟨q', hq'⟩ := occurrence_in_prefix _ _ sub p q h2 h3
    have hin : sub <:+: x ++ sep.dropLast := ⟨p, q', hq'.symm⟩
    have hsub : sub = sub.dropLast ++ [sub.getLast hne] :=
      (List.dropLast_append_getLast hne).symm
    have hlastc : sub.getLast hne ∉ sep.dropLast := by
      intro hm
      rcases hsepc _ (List.dropLast_subset _ hm) with h4 | h4
      · exact hcr (by rw [← h4]; exact List.getLast_mem hne)
      · exact hlf (by rw [← h4]; exact List.getLast_mem hne)
    rw [hsub] at hin
    have := infix_drop_right _ _ _ _ hlastc hin
    rw [← hsub] at this
    exact hx this
  · omega

/-- Before the first carriage return, replacing the pairs of carriage return
and line feed copies the text. -/
theorem replaceFrom_crlf_prefix (new u v : List Char) (h : '\r' ∉ u) :
    replaceFrom ['\r', '\n'] new 0 (u ++ v) = u ++ replaceFrom ['\r', '\n'] new 0 v := by
  induction u with
  | nil => rfl
  | cons c cs ih =>
    have hc : c ≠ '\r' := fun hc => h (by rw [hc]; exact List.mem_cons_self _ _)
    have hcs : '\r' ∉ cs := fun hm => h (List.mem_cons_of_mem _ hm)
    have hp : List.isPrefixOf ['\r', '\n'] (c :: (cs ++ v)) = false := by
      have hne : ('\r' == c) = false := by
        rw [beq_eq_false_iff_ne]
        exact fun h => hc h.symm
      simp [List.isPrefixOf, hne]
    rw [List.cons_append, replaceFrom_no_match _ _ _ _ hp, ih hcs]
    rfl

/-- Replacing the pairs of carriage return and line feed works on the two
parts of a text on their own when the second part does not start with a line
feed. -/
theorem replaceFrom_crlf_append (new v : List Char) (hv : v.head? ≠ some '\n') (n : Nat) :
    ∀ x : List Char, x.length ≤ n →
      replaceFrom ['\r', '\n'] new 0 (x ++ v)
        = replaceFrom ['\r', '\n'] new 0 x ++ replaceFrom ['\r', '\n'] new 0 v := by
  induction n with
  | zero =>
    intro x hx
    have : x = [] := List.length_eq_zero.mp (Nat.le_zero.mp hx)
    subst this
    rfl
  | succ n ih =>
    intro x hx
    cases x with
    | nil => rfl
    | cons d x' =>
      by_cases hp : List.isPrefixOf ['\r', '\n'] (d :: x') = true
      · obtain ⟨rest, hrest⟩ := List.isPrefixOf_iff_prefix.mp hp
        have hlen : rest.length ≤ n := by
          have h1 := congrArg List.length hrest
          simp only [List.length_append, List.length_cons, List.length_nil] at h1 hx
          omega
        rw [← hrest, List.append_assoc, replaceFrom_match _ new (rest ++ v) (by simp),
          replaceFrom_match _ new rest (by simp), ih rest hlen, List.append_assoc]
      · rw [Bool.not_eq_true] at hp
        have hp2 : List.isPrefixOf ['\r', '\n'] (d :: (x' ++ v)) = false := by
          cases x' with
          | nil =>
            cases v with
            | nil => simp [List.isPrefixOf]
            | cons e v' =>
              have he : e ≠ '\n' := fun he => hv (by rw [he]; rfl)
              have hne : ('\n' == e) = false := by
                rw [beq_eq_false_iff_ne]
                exact fun h => he h.symm
              simp [List.isPrefixOf, hne]
          | cons e x'' =>
            simp only [List.isPrefixOf, Bool.and_true, Bool.and_eq_false_imp, beq_iff_eq,
              List.cons_append] at hp ⊢
            exact hp
        have hlen : x'.length ≤ n := by
          simp only [List.length_cons] at hx
          omega
        rw [List.cons_append, replaceFrom_no_match _ _ _ _ hp2,
          replaceFrom_no_match _ _ _ _ hp, ih x' hlen]
        rfl

theorem ReplaceAll_crlf_data (s : String) :
    (ReplaceAll s "\r\n" "\n").data = replaceFrom ['\r', '\n'] ['\n'] 0 s.data := by
  unfold ReplaceAll
  rw [if_neg (by decide), if_neg (by decide)]

/-- The adapted output of `RenderMarkdown` starts with the BEGIN marker and
holds the END marker after it, when the marker has no carriage return and no
line feed. -/
theorem adaptLineEnding_RenderMarkdown_shape (fold : Char → Char)
    (parse : String → Option URL) (repos : List Repository) (marker lineEnding : String)
    (hle : lineEnding = "\n" ∨ lineEnding = "\r\n")
    (hcr : '\r' ∉ marker.data) (hlf : '\n' ∉ marker.data) :
    ∃ mid tail : List Char,
      (adaptLineEnding (RenderMarkdown fold parse repos marker) lineEnding).data
        = (beginMarker marker).data ++ mid ++ (endMarker marker).data ++ tail := by
  have hBcr : '\r' ∉ (beginMarker marker).data := not_mem_beginMarker '\r' marker hcr (by decide)
  have hBlf : '\n' ∉ (beginMarker marker).data := not_mem_beginMarker '\n' marker hlf (by decide)
  have hEcr : '\r' ∉ (endMarker marker).data := not_mem_endMarker '\r' marker hcr (by decide)
  have hElf : '\n' ∉ (endMarker marker).data := not_mem_endMarker '\n' marker hlf (by decide)
  have hS : (RenderMarkdown fold parse repos marker).data
      = (beginMarker marker).data
        ++ (('\n' :: linesText ['\n'] (sectionBody fold parse repos))
          ++ ((endMarker marker).data ++ ['\n'])) := by
    rw [RenderMarkdown_lines]
    simp [linesText, List.flatMap_append, List.flatMap_cons]
  unfold adaptLineEnding
  rcases hle with hle | hle
  · subst hle
    rw [if_neg (by decide), hS]
    exact ⟨'\n' :: linesText ['\n'] (sectionBody fold parse repos), ['\n'], by simp⟩
  · subst hle
    rw [if_pos rfl]
    simp only []
    have hhead : ((endMarker marker).data ++ ['\n']).head? ≠ some '\n' := by
      rw [endMarker_cons]
      simp
    have htail : '\r' ∉ (endMarker marker).data ++ ['\n'] := by
      intro hm
      rcases List.mem_append.mp hm with h | h
      · exact hEcr h
      · exact absurd h (by decide)
    rw [ReplaceAll_lf_crlf, ReplaceAll_crlf_data, hS,
      replaceFrom_crlf_prefix _ _ _ hBcr,
      replaceFrom_crlf_append _ _ hhead _ _ (Nat.le_refl _),
      replaceFrom_crlf_of_no_cr _ _ htail]
    simp only [List.flatMap_append, flatMap_lf_of_no_lf _ hBlf, flatMap_lf_of_no_lf _ hElf]
    refine ⟨(replaceFrom ['\r', '\n'] ['\n'] 0
        ('\n' :: linesText ['\n'] (sectionBody fold parse repos))).flatMap
          (fun c => if c = '\n' then ['\r', '\n'] else [c]), ['\r', '\n'], ?_⟩
    simp only [List.append_assoc]
    rfl

theorem appendSeparator_cases (existing : String) :
    (appendSeparator existing).data ≠ []
      ∧ ∀ c ∈ (appendSeparator existing).data, c = '\r' ∨ c = '\n' := by
  unfold appendSeparator
  rcases detectLineEnding_cases existing with ⟨h, _⟩ | ⟨h, _⟩
  · rw [h]
    split_ifs <;> exact ⟨by decide, by decide⟩
  · rw [h]
    split_ifs <;> exact ⟨by decide, by decide⟩

/-- After a section rendered by `RenderMarkdown` has been appended to a
document without the markers, the first BEGIN marker is the one of the section
and the first END marker comes after it. -/
theorem Index_after_append (fold : Char → Char) (parse : String → Option URL)
    (repos : List Repository) (marker existing : String)
    (hcr : '\r' ∉ marker.data) (hlf : '\n' ∉ marker.data)
    (hb : ¬ (beginMarker marker).data <:+: existing.data)
    (he : ¬ (endMarker marker).data <:+: existing.data) :
    Index (existing ++ appendSeparator existing
          ++ adaptLineEnding (RenderMarkdown fold parse repos marker)
              (detectLineEnding existing)) (beginMarker marker)
        = ((existing.data ++ (appendSeparator existing).data).length : Int)
      ∧ Index (existing ++ appendSeparator existing
          ++ adaptLineEnding (RenderMarkdown fold parse repos marker)
              (detectLineEnding existing)) (beginMarker marker)
        < Index (existing ++ appendSeparator existing
          ++ adaptLineEnding (RenderMarkdown fold parse repos marker)
              (detectLineEnding existing)) (endMarker marker) := by
  have hBcr : '\r' ∉ (beginMarker marker).data := not_mem_beginMarker '\r' marker hcr (by decide)
  have hBlf : '\n' ∉ (beginMarker marker).data := not_mem_beginMarker '\n' marker hlf (by decide)
  have hEcr : '\r' ∉ (endMarker marker).data := not_mem_endMarker '\r' marker hcr (by decide)
  have hElf : '\n' ∉ (endMarker marker).data := not_mem_endMarker '\n' marker hlf (by decide)
  have hBne : (beginMarker marker).data ≠ [] := by
    rw [beginMarker_cons]
    exact List.cons_ne_nil _ _
  have hEne : (endMarker marker).data ≠ [] := by
    rw [endMarker_cons]
    exact List.cons_ne_nil _ _
  have hle : detectLineEnding existing = "\n" ∨ detectLineEnding existing = "\r\n" := by
    rcases detectLineEnding_cases existing with h | h
    · exact Or.inl h.1
    · exact Or.inr h.1
  obtain ⟨mid, tail, hA⟩ := adaptLineEnding_RenderMarkdown_shape fold parse repos marker
    (detectLineEnding existing) hle hcr hlf
  obtain ⟨hsep, hsepc⟩ := appendSeparator_cases existing
  have hdata : (existing ++ appendSeparator existing
        ++ adaptLineEnding (RenderMarkdown fold parse repos marker)
            (detectLineEnding existing)).data
      = existing.data ++ (appendSeparator existing).data
        ++ ((beginMarker marker).data ++ mid ++ (endMarker marker).data ++ tail) := by
    simp only [String.data_append, hA]
  have hBocc : (existing ++ appendSeparator existing
        ++ adaptLineEnding (RenderMarkdown fold parse repos marker)
            (detectLineEnding existing)).data
      = (existing.data ++ (appendSeparator existing).data) ++ (beginMarker marker).data
        ++ (mid ++ (endMarker marker).data ++ tail) := by
    rw [hdata]
    simp only [List.append_assoc]
  have hEocc : (existing ++ appendSeparator existing
        ++ adaptLineEnding (RenderMarkdown fold parse repos marker)
            (detectLineEnding existing)).data
      = (existing.data ++ (appendSeparator existing).data ++ (beginMarker marker).data ++ mid)
        ++ (endMarker marker).data ++ tail := by
    rw [hdata]
    simp only [List.append_assoc]
  have hBidx := Index_eq_of_first _ (beginMarker marker) _ _ hBocc (by
    intro p q hpq
    rw [hdata] at hpq
    exact occurrence_after_separator _ _ _ _ p q hBne hBcr hBlf hsep hsepc hb hpq)
  refine ⟨hBidx, ?_⟩
  obtain ⟨pre0, post0, hocc0, hidx0, _⟩ := Index_spec _ (endMarker marker)
    ⟨_, _, hEocc.symm⟩
  have hge : (existing.data ++ (appendSeparator existing).data).length ≤ pre0.length := by
    rw [hdata] at hocc0
    exact occurrence_after_separator _ _ _ _ pre0 post0 hEne hEcr hElf hsep hsepc he hocc0
  have hne := Index_begin_ne_end _ marker ⟨_, _, hBocc.symm⟩ ⟨_, _, hEocc.symm⟩
  rw [hBidx, hidx0] at hne ⊢
  have hge2 : ((existing.data ++ (appendSeparator existing).data).length : Int)
      ≤ (pre0.length : Int) := by exact_mod_cast hge
  omega

/-! ## The stages put together: claims -/

/-- C35: a topic match in the mode "all" is also one in the mode "any", for
every record and tag list; so the output of `FilterRepos` with `TagsMatchAll`
set is a subsequence of its output with `TagsMatchAll` unset and the other
options the same. -/
theorem FilterRepos_all_sublist_any (lower : Char → Char) :
    (∀ topics tags : List String,
        matchTopics lower topics tags true = true →
          matchTopics lower topics tags false = true)
      ∧ ∀ (addDate : Time → Int → Time) (wall : Time) (repos : List Repository)
          (opts : FilterOptions),
          List.Sublist
            (FilterRepos lower addDate wall repos { opts with TagsMatchAll := true })
            (FilterRepos lower addDate wall repos
              { opts with TagsMatchAll := false }) := by
  refine ⟨matchTopics_any_of_all lower, ?_⟩
  intro addDate wall repos opts
  rw [FilterRepos_eq_filter, FilterRepos_eq_filter]
  have hnow : referenceTime wall { opts with TagsMatchAll := true }
      = referenceTime wall { opts with TagsMatchAll := false } := rfl
  rw [hnow]
  apply filter_sublist_filter
  intro r hr
  simp only [Bool.not_eq_true'] at hr ⊢
  rw [skips_eq_false_iff] at hr ⊢
  obtain ⟨⟨h1, h2, h3, h4, h5, h6⟩, h7⟩ := hr
  refine ⟨⟨h1, h2, h3, h4, h5, ?_⟩, ?_⟩
  swap
  · exact h7
  rcases h6 with h6 | h6
  · exact Or.inl h6
  · exact Or.inr (matchTopics_any_of_all lower _ _ h6)

/-- C36: the records that `TopN` keeps of a list sorted by `SortReposBy` rank,
in the three-key order of the mode, at least as high as every record it leaves
out, whatever `n` is. -/
theorem TopN_keeps_highest (lower : Char → Char) (repos : List Repository)
    (mode : String) (n : Int) (rest : List Repository)
    (hrest : SortReposBy lower repos mode
      = TopN (SortReposBy lower repos mode) n ++ rest) :
    ∀ a ∈ TopN (SortReposBy lower repos mode) n, ∀ b ∈ rest,
      ranksNotAfter lower mode a b := by
  have h := SortReposBy_ranked lower repos mode
  rw [hrest, List.pairwise_append] at h
  exact h.2.2

set_option maxRecDepth 100000 in
/-- C36, at the records of `TestSortByStarsPrimary` with `n = 2`: the record
with 50 stars and the one with 20 are kept, the one with 5 is left out. -/
theorem TopN_keeps_highest_witness :
    SortReposBy asciiLower starsRepos "stars"
        = TopN (SortReposBy asciiLower starsRepos "stars") 2
          ++ [sampleRepo "newer-low" false false false 5 (utcMidnight 739252) []]
      ∧ (TopN (SortReposBy asciiLower starsRepos "stars") 2).map (fun r => r.Name)
        = ["older-high", "mid-mid"]
      ∧ ∀ a ∈ TopN (SortReposBy asciiLower starsRepos "stars") 2,
          ∀ b ∈ [sampleRepo "newer-low" false false false 5 (utcMidnight 739252) []],
            ranksNotAfter asciiLower "stars" a b :=
  have hrest : SortReposBy asciiLower starsRepos "stars"
      = TopN (SortReposBy asciiLower starsRepos "stars") 2
        ++ [sampleRepo "newer-low" false false false 5 (utcMidnight 739252) []] := by decide
  ⟨hrest, by decide,
    TopN_keeps_highest asciiLower starsRepos "stars" 2 _ hrest⟩

/-- C37: filtering and sorting commute: sorting the filtered list gives the
same list as filtering the sorted list, for every record list, options,
reference time and mode. -/
theorem SortReposBy_FilterRepos_comm (lower : Char → Char)
    (addDate : Time → Int → Time) (wall : Time)
    (repos : List Repository) (opts : FilterOptions) (mode : String) :
    SortReposBy lower (FilterRepos lower addDate wall repos opts) mode
      = FilterRepos lower addDate wall (SortReposBy lower repos mode) opts := by
  rw [FilterRepos_eq_filter, FilterRepos_eq_filter]
  unfold SortReposBy
  exact SliceStable_filter_comm (less lower mode) (less_asymm lower mode)
    (less_neg_trans lower mode) _ repos

/-! ## C31: the option combinations -/

/-- C31: `ValidateOptions` returns a usage error exactly when a README path is
set and the format is `json`, or the token is not empty and the base URL is
not secure; otherwise it returns `nil`.  A base URL is secure exactly when it
parses and its scheme, in lower case, is `https`, or is `http` with the host
`localhost`, `127.0.0.1` or `::1`; `url.Parse` gives the scheme in lower case
already, and then the scheme itself is `https` or `http`. -/
theorem ValidateOptions_iff (lower : Char → Char) (parse : String → Option URL)
    (opts : Options) (token : String) :
    (ValidateOptions lower parse opts token ≠ none
        ↔ (opts.ReadmePath ≠ "" ∧ opts.Format = "json")
          ∨ (token ≠ "" ∧ isSecureBaseURL lower parse opts.BaseURL = false))
      ∧ (ValidateOptions lower parse opts token = none
        ↔ ¬ ((opts.ReadmePath ≠ "" ∧ opts.Format = "json")
          ∨ (token ≠ "" ∧ isSecureBaseURL lower parse opts.BaseURL = false)))
      ∧ (∀ baseURL : String,
          isSecureBaseURL lower parse baseURL = true
            ↔ ∃ u : URL, parse baseURL = some u
                ∧ (ToLower lower u.Scheme = "https"
                  ∨ (ToLower lower u.Scheme = "http"
                    ∧ (u.Hostname = "localhost" ∨ u.Hostname = "127.0.0.1"
                      ∨ u.Hostname = "::1"))))
      ∧ (∀ (baseURL : String) (u : URL), parse baseURL = some u →
          ToLower lower u.Scheme = u.Scheme →
            (isSecureBaseURL lower parse baseURL = true
              ↔ u.Scheme = "https"
                ∨ (u.Scheme = "http"
                  ∧ (u.Hostname = "localhost" ∨ u.Hostname = "127.0.0.1"
                    ∨ u.Hostname = "::1")))) := by
  have hsecure : ∀ baseURL : String,
      isSecureBaseURL lower parse baseURL = true
        ↔ ∃ u : URL, parse baseURL = some u
            ∧ (ToLower lower u.Scheme = "https"
              ∨ (ToLower lower u.Scheme = "http"
                ∧ (u.Hostname = "localhost" ∨ u.Hostname = "127.0.0.1"
                  ∨ u.Hostname = "::1"))) := by
    intro baseURL
    unfold isSecureBaseURL
    cases hp : parse baseURL with
    | none => simp
    | some u =>
      simp only [Option.some.injEq, exists_eq_left']
      by_cases hs : u.Scheme = ""
      · have hl : ToLower lower u.Scheme = "" := by rw [hs]; rfl
        rw [if_pos hs, hl]
        simp
      · rw [if_neg hs]
        by_cases h1 : ToLower lower u.Scheme = "https"
        · rw [if_pos h1]
          simp [h1]
        · rw [if_neg h1]
          by_cases h2 : ToLower lower u.Scheme = "http"
          · rw [if_pos h2]
            simp [h1, h2, isLocalhost, or_assoc]
          · rw [if_neg h2]
            simp [h1, h2]
  have hmain : ValidateOptions lower parse opts token ≠ none
      ↔ (opts.ReadmePath ≠ "" ∧ opts.Format = "json")
        ∨ (token ≠ "" ∧ isSecureBaseURL lower parse opts.BaseURL = false) := by
    unfold ValidateOptions
    by_cases h1 : opts.ReadmePath ≠ "" ∧ opts.Format = "json"
    · rw [if_pos h1]
      simp [h1]
    · rw [if_neg h1]
      by_cases h2 : token ≠ "" ∧ (!isSecureBaseURL lower parse opts.BaseURL) = true
      · rw [if_pos h2]
        simp only [Bool.not_eq_true'] at h2
        simp [h2]
      · rw [if_neg h2]
        simp only [Bool.not_eq_true'] at h2
        simp [h1, h2]
  refine ⟨hmain, ?_, hsecure, ?_⟩
  · rw [← hmain]
    simp
  · intro baseURL u hu hlow
    rw [hsecure]
    constructor
    · rintro ⟨v, hv, h⟩
      rw [hu] at hv
      have huv : u = v := Option.some.inj hv
      subst huv
      rw [hlow] at h
      exact h
    · intro h
      exact ⟨u, hu, by rw [hlow]; exact h⟩

/-! ## C32 and C33: the escaping of text and of URLs -/

/-- C32: `escapeMarkdownInline` replaces each character of its argument on its
own: `&`, `<` and `>` by `&amp;`, `&lt;` and `&gt;`, each of the backslash, the
square brackets, the parentheses and the backtick by a backslash and the
character, and every other character by itself.  So the result has no `<` and
no `>`, and every square bracket, parenthesis and backtick in it comes right
after a backslash. -/
theorem escapeMarkdownInline_table (s : String) :
    (escapeMarkdownInline s).data = s.data.flatMap markdownInlineEscaper
      ∧ markdownInlineEscaper '&' = ['&', 'a', 'm', 'p', ';']
      ∧ markdownInlineEscaper '<' = ['&', 'l', 't', ';']
      ∧ markdownInlineEscaper '>' = ['&', 'g', 't', ';']
      ∧ (∀ c : Char, c = '\\' ∨ isLinkSyntax c = true →
          markdownInlineEscaper c = ['\\', c])
      ∧ (∀ c : Char, c ≠ '&' → c ≠ '<' → c ≠ '>' → c ≠ '\\' → isLinkSyntax c = false →
          markdownInlineEscaper c = [c])
      ∧ '<' ∉ (escapeMarkdownInline s).data
      ∧ '>' ∉ (escapeMarkdownInline s).data
      ∧ ∀ (pre post : List Char) (c : Char), isLinkSyntax c = true →
          (escapeMarkdownInline s).data = pre ++ c :: post →
            ∃ pre', pre = pre' ++ ['\\'] := by
  refine ⟨escapeMarkdownInline_data s, by decide, by decide, by decide, ?_, ?_,
    not_mem_escapeMarkdownInline_lt s, not_mem_escapeMarkdownInline_gt s, ?_⟩
  · intro c hc
    unfold isLinkSyntax at hc
    simp only [Bool.or_eq_true, decide_eq_true_eq] at hc
    rcases hc with h | (((h | h) | h) | h) | h <;> rw [h] <;> decide
  · intro c h1 h2 h3 h4 h5
    unfold isLinkSyntax at h5
    simp only [Bool.or_eq_false_iff, decide_eq_false_iff_not] at h5
    obtain ⟨⟨⟨⟨h6, h7⟩, h8⟩, h9⟩, h10⟩ := h5
    unfold markdownInlineEscaper
    simp [h1, h2, h3, h4, h6, h7, h8, h9, h10]
  · intro pre post c hc hsplit
    have h := (precededBy_iff '\\' isLinkSyntax false _).mp
      (precededBy_flatMap_escaper s.data false)
    rw [escapeMarkdownInline_data] at hsplit
    rcases h pre post c hc hsplit with ⟨_, hb⟩ | h2
    · exact absurd hb (by decide)
    · exact h2

/-- C33: the result of `sanitizeMarkdownURL` has no `(`, no `)` and no space,
for every input and every `url.Parse`: it is empty, or the text of the parsed
URL with these three characters replaced by `%28`, `%29` and `%20`; the URL
`https://github.com/u/repo(with)paren` comes out with `repo%28with%29paren`. -/
theorem sanitizeMarkdownURL_no_paren (fold : Char → Char) (parse : String → Option URL)
    (raw : String) :
    '(' ∉ (sanitizeMarkdownURL fold parse raw).data
      ∧ ')' ∉ (sanitizeMarkdownURL fold parse raw).data
      ∧ ' ' ∉ (sanitizeMarkdownURL fold parse raw).data
      ∧ (sanitizeMarkdownURL fold parse raw = ""
        ∨ ∃ u : URL, parse (strippedURL raw) = some u
            ∧ (sanitizeMarkdownURL fold parse raw).data = u.text.data.flatMap urlEscaper)
      ∧ urlEscaper '(' = ['%', '2', '8'] ∧ urlEscaper ')' = ['%', '2', '9']
      ∧ urlEscaper ' ' = ['%', '2', '0']
      ∧ (∀ c : Char, c ≠ '(' → c ≠ ')' → c ≠ ' ' → urlEscaper c = [c])
      ∧ sanitizeMarkdownURL asciiLower parsePlainURL "https://github.com/u/repo(with)paren"
        = "https://github.com/u/repo%28with%29paren" := by
  refine ⟨not_mem_sanitizeMarkdownURL fold parse raw '(' (Or.inl rfl),
    not_mem_sanitizeMarkdownURL fold parse raw ')' (Or.inr (Or.inl rfl)),
    not_mem_sanitizeMarkdownURL fold parse raw ' ' (Or.inr (Or.inr rfl)),
    sanitizeMarkdownURL_shape fold parse raw, by decide, by decide, by decide, ?_, by decide⟩
  intro c h1 h2 h3
  unfold urlEscaper
  simp [h1, h2, h3]

/-! ## C34: the description on one line -/

set_option maxRecDepth 100000 in
/-- C34: `normalizeInlineText` returns the fields of the description, which
are its non-empty runs without white space, joined by one space.  The result
has no carriage return and no line feed, its only white space characters are
single spaces, none of them first, last or next to another, and it is empty
exactly when every character of the description is white space.  So the
description part of a line has no line break. -/
theorem normalizeInlineText_words (s : String) :
    normalizeInlineText s = Join (Fields s) " "
      ∧ (∀ w ∈ Fields s, w ≠ "" ∧ ∀ c ∈ w.data, isSpace c = false)
      ∧ (Fields s).flatMap (fun w => w.data) = s.data.filter (fun c => !isSpace c)
      ∧ '\r' ∉ (normalizeInlineText s).data
      ∧ '\n' ∉ (normalizeInlineText s).data
      ∧ (∀ c ∈ (normalizeInlineText s).data, isSpace c = true → c = ' ')
      ∧ (∀ c, (normalizeInlineText s).data.head? = some c → isSpace c = false)
      ∧ (∀ c, (normalizeInlineText s).data.getLast? = some c → isSpace c = false)
      ∧ (∀ (pre post : List Char) (x y : Char),
          (normalizeInlineText s).data = pre ++ x :: y :: post →
            ¬ (isSpace x = true ∧ isSpace y = true))
      ∧ (normalizeInlineText s = "" ↔ ∀ c ∈ s.data, isSpace c = true)
      ∧ normalizeInlineText " two\r\nlines \n\n of\ttext\r" = "two lines of text"
      ∧ ∀ r : Repository, '\r' ∉ (escapedDescription r).data
          ∧ '\n' ∉ (escapedDescription r).data := by
  have hfields : ∀ w ∈ Fields s, w ≠ "" ∧ ∀ c ∈ w.data, isSpace c = false := by
    intro w hw
    unfold Fields at hw
    obtain ⟨f, hf, hfw⟩ := List.mem_map.mp hw
    have h := fieldsLoop_fields s.data [] (fun _ hx => absurd hx (List.not_mem_nil _)) f hf
    rw [← hfw]
    exact ⟨(string_ne_empty_iff _).mpr h.1, h.2⟩
  have hshape : ∀ t : String, (normalizeInlineText t).data = []
      ∨ spacedWords true (normalizeInlineText t).data = true := by
    intro t
    have hft : ∀ w ∈ Fields t, w ≠ "" ∧ ∀ c ∈ w.data, isSpace c = false := by
      intro w hw
      unfold Fields at hw
      obtain ⟨f, hf, hfw⟩ := List.mem_map.mp hw
      have h := fieldsLoop_fields t.data [] (fun _ hx => absurd hx (List.not_mem_nil _)) f hf
      rw [← hfw]
      exact ⟨(string_ne_empty_iff _).mpr h.1, h.2⟩
    rw [normalizeInlineText_eq]
    by_cases hne : Fields t = []
    · left
      rw [hne]
      rfl
    · right
      exact spacedWords_Join (Fields t) hne hft
  have honly : ∀ t : String, ∀ c ∈ (normalizeInlineText t).data, isSpace c = true → c = ' ' := by
    intro t c hc hsp
    rcases hshape t with h | h
    · rw [h] at hc
      exact absurd hc (List.not_mem_nil _)
    · exact spacedWords_only_space true _ h c hc hsp
  have hcr : ∀ t : String, '\r' ∉ (normalizeInlineText t).data := by
    intro t hm
    exact absurd (honly t '\r' hm (by decide)) (by decide)
  have hlf : ∀ t : String, '\n' ∉ (normalizeInlineText t).data := by
    intro t hm
    exact absurd (honly t '\n' hm (by decide)) (by decide)
  refine ⟨normalizeInlineText_eq s, hfields, ?_, hcr s, hlf s, honly s, ?_, ?_, ?_, ?_,
    by decide, ?_⟩
  · unfold Fields
    rw [List.flatMap_map]
    have h := fieldsLoop_flatten s.data [] (fun _ hx => absurd hx (List.not_mem_nil _))
    rw [List.nil_append] at h
    rw [← h, List.flatten_eq_flatMap]
    rfl
  · intro c hc
    rcases hshape s with h | h
    · rw [h] at hc
      exact absurd hc (by simp)
    · exact spacedWords_head _ h c hc
  · intro c hc
    rcases hshape s with h | h
    · rw [h] at hc
      exact absurd hc (by simp)
    · exact spacedWords_last true _ h c hc
  · intro pre post x y hs
    rcases hshape s with h | h
    · rw [h] at hs
      have h2 := congrArg List.length hs
      simp only [List.length_nil, List.length_append, List.length_cons] at h2
      omega
    · exact spacedWords_no_adjacent true _ h pre post x y hs
  · rw [normalizeInlineText_eq]
    constructor
    · intro h
      have hnil : Fields s = [] := by
        by_contra hne
        have h2 := spacedWords_Join (Fields s) hne hfields
        rw [h] at h2
        exact absurd h2 (by decide)
      unfold Fields at hnil
      rw [List.map_eq_nil_iff, fieldsLoop_eq_nil_iff] at hnil
      exact hnil.2
    · intro h
      have hnil : Fields s = [] := by
        unfold Fields
        rw [List.map_eq_nil_iff, fieldsLoop_eq_nil_iff]
        exact ⟨rfl, h⟩
      rw [hnil]
      rfl
  · intro r
    unfold escapedDescription
    exact ⟨not_mem_escapeMarkdownInline_control '\r' _ (Or.inl rfl) (hcr _),
      not_mem_escapeMarkdownInline_control '\n' _ (Or.inr rfl) (hlf _)⟩

/-! ## C38: appending, then patching -/

/-- C38: for a marker name without carriage return and line feed, every record
list and every document in which neither marker occurs, appending the output
of `RenderMarkdown` succeeds and gives a document in which both markers occur,
the first BEGIN marker at the start of the appended section and the first END
marker after it; so a later `PatchREADME` of that document, with any section
and either value of `appendIfMissing`, returns no error. -/
theorem PatchREADME_append_then_patch (fold : Char → Char) (parse : String → Option URL)
    (repos : List Repository) (marker existing : String)
    (hcr : '\r' ∉ marker.data) (hlf : '\n' ∉ marker.data)
    (hb : ¬ (beginMarker marker).data <:+: existing.data)
    (he : ¬ (endMarker marker).data <:+: existing.data) :
    PatchREADME existing (RenderMarkdown fold parse repos marker) marker true
        = ({ Content := existing ++ appendSeparator existing
                ++ adaptLineEnding (RenderMarkdown fold parse repos marker)
                    (detectLineEnding existing),
             Patched := true }, none)
      ∧ (beginMarker marker).data <:+:
          (PatchREADME existing (RenderMarkdown fold parse repos marker) marker
            true).1.Content.data
      ∧ (endMarker marker).data <:+:
          (PatchREADME existing (RenderMarkdown fold parse repos marker) marker
            true).1.Content.data
      ∧ Index (PatchREADME existing (RenderMarkdown fold parse repos marker) marker
            true).1.Content (beginMarker marker)
          = ((existing.data ++ (appendSeparator existing).data).length : Int)
      ∧ Index (PatchREADME existing (RenderMarkdown fold parse repos marker) marker
            true).1.Content (beginMarker marker)
          < Index (PatchREADME existing (RenderMarkdown fold parse repos marker) marker
            true).1.Content (endMarker marker)
      ∧ ∀ (newSection : String) (appendIfMissing : Bool),
          (PatchREADME
            (PatchREADME existing (RenderMarkdown fold parse repos marker) marker
              true).1.Content newSection marker appendIfMissing).2 = none
            ∧ (PatchREADME
              (PatchREADME existing (RenderMarkdown fold parse repos marker) marker
                true).1.Content newSection marker appendIfMissing).1.Patched = true := by
  have hfirst : PatchREADME existing (RenderMarkdown fold parse repos marker) marker true
      = ({ Content := existing ++ appendSeparator existing
              ++ adaptLineEnding (RenderMarkdown fold parse repos marker)
                  (detectLineEnding existing),
           Patched := true }, none) := by
    rw [PatchREADME_of_no_markers existing _ marker true
      ((Index_eq_neg_one_iff existing _).mpr hb) ((Index_eq_neg_one_iff existing _).mpr he)]
    rfl
  obtain ⟨hidx, hlt⟩ := Index_after_append fold parse repos marker existing hcr hlf hb he
  rw [hfirst]
  have hbne : Index (existing ++ appendSeparator existing
        ++ adaptLineEnding (RenderMarkdown fold parse repos marker)
            (detectLineEnding existing)) (beginMarker marker) ≠ -1 := by
    rw [hidx]
    have : (0 : Int) ≤ ((existing.data ++ (appendSeparator existing).data).length : Int) :=
      Int.natCast_nonneg _
    omega
  have hene : Index (existing ++ appendSeparator existing
        ++ adaptLineEnding (RenderMarkdown fold parse repos marker)
            (detectLineEnding existing)) (endMarker marker) ≠ -1 := by
    have : (0 : Int) ≤ ((existing.data ++ (appendSeparator existing).data).length : Int) :=
      Int.natCast_nonneg _
    rw [hidx] at hlt
    omega
  refine ⟨rfl, (Index_ne_neg_one_iff _ _).mp hbne, (Index_ne_neg_one_iff _ _).mp hene,
    hidx, hlt, ?_⟩
  intro newSection appendIfMissing
  rw [PatchREADME_of_ordered _ newSection marker appendIfMissing hbne hene (by omega)]
  exact ⟨rfl, rfl⟩

set_option maxRecDepth 100000 in
/-- C38, at the document of `TestPatchREADMEAppendIfMissing` and the section
of one record: the BEGIN marker of the appended section starts at offset 21,
the END marker at offset 142, and patching the result again gives no error. -/
theorem PatchREADME_append_then_patch_witness :
    '\r' ∉ "CURRENT PROJECTS".data ∧ '\n' ∉ "CURRENT PROJECTS".data
      ∧ ¬ (beginMarker "CURRENT PROJECTS").data <:+: profileDoc.data
      ∧ ¬ (endMarker "CURRENT PROJECTS").data <:+: profileDoc.data
      ∧ (PatchREADME profileDoc
            (RenderMarkdown asciiLower parsePlainURL [awesomeRepo] "CURRENT PROJECTS")
            "CURRENT PROJECTS" true).1.Content
        = "# Profile\n\n## About\n\n<!-- BEGIN CURRENT PROJECTS -->\n## Current Projects\n\n"
            ++ "- [awesome](https://github.com/u/awesome) (Go) - An awesome project\n"
            ++ "<!-- END CURRENT PROJECTS -->\n"
      ∧ (PatchREADME
            (PatchREADME profileDoc
              (RenderMarkdown asciiLower parsePlainURL [awesomeRepo] "CURRENT PROJECTS")
              "CURRENT PROJECTS" true).1.Content
            projectsSection "CURRENT PROJECTS" false).2 = none :=
  have hcr : '\r' ∉ "CURRENT PROJECTS".data := by decide
  have hlf : '\n' ∉ "CURRENT PROJECTS".data := by decide
  have hb : ¬ (beginMarker "CURRENT PROJECTS").data <:+: profileDoc.data :=
    (Index_eq_neg_one_iff profileDoc _).mp (by decide)
  have he : ¬ (endMarker "CURRENT PROJECTS").data <:+: profileDoc.data :=
    (Index_eq_neg_one_iff profileDoc _).mp (by decide)
  ⟨hcr, hlf, hb, he, by decide,
    ((PatchREADME_append_then_patch asciiLower parsePlainURL [awesomeRepo]
      "CURRENT PROJECTS" profileDoc hcr hlf hb he).2.2.2.2.2 projectsSection false).1⟩

end GithubCurrentProjects
